import Mathlib

/-!
The program vlock: topological sort, plugin registry, dependency resolution
and hooks.

A shallow embedding of `src/list.c`, `src/tsort.c`, `src/plugin.c`,
`src/plugins.c`, the access checks of `src/module.c`, the plugin part of
`src/vlock-main.c`, `parse_seconds` of `src/util.c`, `read_dependency` and
`parse_dependency` of `src/script.c`, `create_child` of `src/process.c`,
`src/console_switch.c` and `get_console_name` of `modules/new.c`.

* A `struct list` is the sequence of its data pointers, a Lean `List`; for
  the functions of `list.c` themselves and for `tsort` the items and their
  pointers are modelled as well, and `tsort` on items is shown to do what
  `tsort` on the sequences does.
* Library functions (`strtol`, `strtok_r`, `snprintf`, `strncpy`, `realloc`)
  follow their description in the C standard; the results of system calls
  are given from outside.
* Pointers are values of a type with decidable equality; a `plugin` value
  carries the address of the object it stands for.
* Loops that can run for ever take a `fuel` argument and return `none` when
  it runs out.
* What lies outside of the registry (the module and script directories, the
  behaviour of the hooks) is given by a `backend` and a `hook_env`.

The file has three parts: the definitions, facts about them, and the
properties of the topological sort, of dependency resolution and of the hook
handlers, each marked with its number (C1, C2, ...).
-/

namespace Vlock

/-! ## list.c -/

section ListC

variable {α : Type} [DecidableEq α]

/-- The function `list_copy`: a new list holding the same data pointers in the
same order, built by appending them one by one. -/
def list_copy (l : List α) : List α :=
  l.foldl (fun new_list data => new_list ++ [data]) []

/-- The function `list_find`: is there an item with the given data (the C function returns
the first such item, or NULL). -/
def list_find : List α → α → Bool
  | [], _ => false
  | item :: rest, data => if item = data then true else list_find rest data

/-- The function `list_delete`: remove the first item with the given data; do nothing when
no item has this data. -/
def list_delete : List α → α → List α
  | [], _ => []
  | item :: rest, data => if item = data then rest else item :: list_delete rest data

end ListC

/-! ## tsort.c -/

/-- The type `struct edge`: `predecessor` must come before `successor`. -/
structure edge (α : Type) where
  predecessor : α
  successor : α
deriving DecidableEq

section TsortC

variable {α : Type} [DecidableEq α]

/-- The function `get_zeros`: copy the nodes and delete the successor of every
edge. -/
def get_zeros (nodes : List α) (edges : List (edge α)) : List α :=
  edges.foldl (fun zeros e => list_delete zeros e.successor) (list_copy nodes)

/-- The function `is_zero`: no edge has the node as its successor. -/
def is_zero (node : α) : List (edge α) → Bool
  | [] => true
  | e :: rest => if e.successor = node then false else is_zero node rest

/-- The inner `list_for_each_manual(edges, edge_item)` loop of `tsort` for one
`zero`.  `kept` are the items before `edge_item` (already visited and left in
the list), `rest` the items from `edge_item` on.  An edge whose predecessor is
`zero` is deleted; when its successor has no incoming edge left in the list
(`kept ++ rest` after the deletion) the successor is appended to `zeros`. -/
def delete_edges (zero : α) :
    List (edge α) → List (edge α) → List α → List (edge α) × List α
  | kept, [], zeros => (kept, zeros)
  | kept, e :: rest, zeros =>
    if e.predecessor = zero then
      if is_zero e.successor (kept ++ rest) then
        delete_edges zero kept rest (zeros ++ [e.successor])
      else
        delete_edges zero kept rest zeros
    else
      delete_edges zero (kept ++ [e]) rest zeros

/-- The `list_delete_for_each(zeros, zero_item)` loop of `tsort`.  The first
item of `zeros` is the current one; it stays in `zeros` during the body and is
deleted afterwards.  The loop ends when `zeros` is empty; `none` stands for
running out of `fuel` before that. -/
def tsort_loop : Nat → List α → List α → List (edge α) → Option (List α × List (edge α))
  | _, [], sorted_nodes, edges => some (sorted_nodes, edges)
  | 0, _ :: _, _, _ => none
  | fuel + 1, zero :: rest, sorted_nodes, edges =>
    let r := delete_edges zero [] edges (zero :: rest)
    tsort_loop fuel r.2.tail (sorted_nodes ++ [zero]) r.1

/-- What `tsort` leaves behind: the returned list (`none` for NULL) and the
content of the caller's edge list on return. -/
structure tsort_result (α : Type) where
  sorted_nodes : Option (List α)
  edges : List (edge α)
deriving DecidableEq

/-- The function `tsort` (no allocation failure).  The outer `none` stands for the loop not
finishing within its fuel, which `tsort_returns` below excludes. -/
def tsort (nodes : List α) (edges : List (edge α)) : Option (tsort_result α) :=
  match tsort_loop (nodes.length + edges.length) (get_zeros nodes edges) [] edges with
  | none => none
  | some (sorted_nodes, edges_left) =>
    if edges_left = [] then some ⟨some sorted_nodes, edges_left⟩
    else some ⟨none, edges_left⟩

/-- The graph with edge list `E` has a directed cycle: some node reaches itself
along one or more edges (a self-loop included). -/
def has_cycle (E : List (edge α)) : Prop :=
  ∃ n, Relation.TransGen (fun a b => edge.mk a b ∈ E) n n

end TsortC

section TsortInvariants

variable {α : Type} [DecidableEq α]

/-- Loop invariant of `tsort` that holds for every node list: `N` are the
nodes, `E0` the edges on entry, `Z` the zeros not yet visited, `S` the sorted
nodes so far and `E` the edges still in the list. -/
structure TsortInv (N : List α) (E0 : List (edge α)) (Z S : List α) (E : List (edge α)) :
    Prop where
  sub_edges : ∀ e ∈ E, e ∈ E0
  removed : ∀ e ∈ E0, e ∈ E ∨ e.predecessor ∈ S
  covered : ∀ n ∈ N, n ∈ S ∨ n ∈ Z ∨ ∃ e ∈ E, e.successor = n
  sub_nodes : ∀ n, n ∈ S ∨ n ∈ Z → n ∈ N ∨ ∃ e ∈ E0, e.successor = n
  pending : ∀ e ∈ E, e.predecessor ∉ S

/-- Loop invariant of `tsort` for pairwise distinct nodes. -/
structure TsortOrd (E0 : List (edge α)) (Z S : List α) (E : List (edge α)) : Prop where
  zero : ∀ n, n ∈ S ∨ n ∈ Z → ∀ e ∈ E, e.successor ≠ n
  nodup : (S ++ Z).Nodup
  order : ∀ e ∈ E0, e.successor ∈ S →
    e.predecessor ∈ S ∧ S.indexOf e.predecessor < S.indexOf e.successor


end TsortInvariants

/-! ## plugin.c -/

/-- The two plugin types declared in `plugin.h`: modules and scripts. -/
inductive plugin_type where
  | module
  | script
deriving DecidableEq

/-- The array `dependencies[nr_dependencies]` of a plugin: six lists of names,
in the order of `dependency_names`. -/
structure dependencies where
  succeeds : List String
  preceeds : List String
  requires : List String
  needs : List String
  depends : List String
  conflicts : List String
deriving DecidableEq

/-- A `struct plugin` together with its address.  Values of this type stand
for `struct plugin *` pointers: the address is part of the value, so equality
of values is pointer equality (one object lives at one address).  The opaque
`context` is left out; what a hook does is given by a `hook_env`. -/
structure plugin where
  addr : Nat
  name : String
  dependencies : dependencies
  save_disabled : Bool
  type : plugin_type
deriving DecidableEq

/-- The value of `errno` that means "no such file or directory". -/
def ENOENT : Nat := 2

/-- The outside world of `new_plugin`: what `init_module` and `init_script` do
for a plugin whose `name` field is the given string.  They either fill in the
dependency lists or fail with an `errno`. -/
structure backend where
  init_module : String → Except Nat dependencies
  init_script : String → Except Nat dependencies

/-- The part of a string after its last slash, the whole string when it has
none: `strrchr(name, '/')` followed by `name = last_slash+1`. -/
def after_last_slash : List Char → List Char
  | [] => []
  | c :: cs =>
    if '/' ∈ cs then after_last_slash cs
    else if c = '/' then cs
    else c :: cs

/-- The function `new_plugin` (no allocation failure); `addr` is the address
that `malloc` returned. -/
def new_plugin (b : backend) (addr : Nat) (name : String) (type : plugin_type) :
    Except Nat plugin :=
  let name := String.mk (after_last_slash name.data)
  let init := match type with
    | .module => b.init_module
    | .script => b.init_script
  match init name with
  | .ok deps => .ok ⟨addr, name, deps, false, type⟩
  | .error errno => .error errno

/-- What a call of a plugin hook does is decided outside of the registry: the
result of `call_hook` may depend on every hook call made before. -/
structure call where
  addr : Nat
  hook : String
  result : Bool
deriving DecidableEq

/-- The behaviour of the hooks: from the calls made so far, the address of the
plugin and the hook name to the result of the call. -/
abbrev hook_env := List call → Nat → String → Bool

/-- The function `call_hook`: the result, and the calls made so far. -/
def call_hook (env : hook_env) (trace : List call) (p : plugin) (hook_name : String) :
    Bool × List call :=
  (env trace p.addr hook_name, trace ++ [⟨p.addr, hook_name, env trace p.addr hook_name⟩])

/-! ## plugins.c: loading and dependency resolution -/

/-- The function `get_plugin`: the first plugin of the list with this name. -/
def get_plugin : List plugin → String → Option plugin
  | [], _ => none
  | p :: rest, name => if name = p.name then some p else get_plugin rest name

/-- An address for a new plugin object: `malloc` returns an address that no
live plugin has. -/
def fresh_addr (plugins : List plugin) : Nat :=
  (plugins.map plugin.addr).foldr max 0 + 1

/-- The function `__load_plugin`: the plugin or the `errno` of the failure, and
the list of plugins afterwards. -/
def __load_plugin (b : backend) (plugins : List plugin) (name : String) :
    Except Nat plugin × List plugin :=
  match get_plugin plugins name with
  | some p => (.ok p, plugins)
  | none =>
    match new_plugin b (fresh_addr plugins) name .module with
    | .ok p => (.ok p, plugins ++ [p])
    | .error errno =>
      if errno ≠ ENOENT then (.error errno, plugins)
      else
        match new_plugin b (fresh_addr plugins) name .script with
        | .ok p => (.ok p, plugins ++ [p])
        | .error errno => (.error errno, plugins)

/-- The function `load_plugin`. -/
def load_plugin (b : backend) (plugins : List plugin) (name : String) : Bool × List plugin :=
  match __load_plugin b plugins name with
  | (.ok _, plugins1) => (true, plugins1)
  | (.error _, plugins1) => (false, plugins1)

/-- The inner loop of the first pass of `__resolve_depedencies`: load every
name of one plugin's `requires` list and append the loaded plugin to
`required_plugins`. -/
def load_requires (b : backend) :
    List String → List plugin → List plugin → Except Nat (List plugin) × List plugin
  | [], plugins, required_plugins => (.ok required_plugins, plugins)
  | d :: rest, plugins, required_plugins =>
    match __load_plugin b plugins d with
    | (.error errno, plugins1) => (.error errno, plugins1)
    | (.ok q, plugins1) => load_requires b rest plugins1 (required_plugins ++ [q])

/-- The first pass of `__resolve_depedencies`: walk the list of plugins, which
grows at its end while it is walked.  `i` is the position of `plugin_item`;
`none` stands for running out of `fuel` before the end of the list. -/
def load_required_plugins (b : backend) :
    Nat → Nat → List plugin → List plugin → Option (Except Nat (List plugin) × List plugin)
  | 0, i, plugins, required_plugins =>
    match plugins[i]? with
    | none => some (.ok required_plugins, plugins)
    | some _ => none
  | fuel + 1, i, plugins, required_plugins =>
    match plugins[i]? with
    | none => some (.ok required_plugins, plugins)
    | some p =>
      match load_requires b p.dependencies.requires plugins required_plugins with
      | (.error errno, plugins1) => some (.error errno, plugins1)
      | (.ok required1, plugins1) => load_required_plugins b fuel (i + 1) plugins1 required1

/-- The inner loop of the second pass: every name of one plugin's `needs` list
must be loaded; `none` when one is not. -/
def find_needs (plugins : List plugin) : List String → List plugin → Option (List plugin)
  | [], required_plugins => some required_plugins
  | d :: rest, required_plugins =>
    match get_plugin plugins d with
    | none => none
    | some q => find_needs plugins rest (required_plugins ++ [q])

/-- The second pass of `__resolve_depedencies` over the items `items` of the
list `plugins`. -/
def check_needs (plugins : List plugin) : List plugin → List plugin → Option (List plugin)
  | [], required_plugins => some required_plugins
  | p :: rest, required_plugins =>
    match find_needs plugins p.dependencies.needs required_plugins with
    | none => none
    | some required1 => check_needs plugins rest required1

/-- The inner loop of the third pass: the first name of a `depends` list that
is not loaded. -/
def missing_dependency (plugins : List plugin) : List String → Option String
  | [] => none
  | d :: rest =>
    match get_plugin plugins d with
    | none => some d
    | some _ => missing_dependency plugins rest

/-- The third pass of `__resolve_depedencies`, a `list_for_each_manual` loop
that deletes items.  `kept` are the items before `plugin_item`, `rest` the
items from `plugin_item` on; the list of plugins is `kept ++ rest`.  The result
is `false` when a plugin with a missing dependency is in `required_plugins`. -/
def unload_unsatisfied (required_plugins : List plugin) :
    List plugin → List plugin → Bool × List plugin
  | kept, [] => (true, kept)
  | kept, p :: rest =>
    match missing_dependency (kept ++ p :: rest) p.dependencies.depends with
    | none => unload_unsatisfied required_plugins (kept ++ [p]) rest
    | some _ =>
      if list_find required_plugins p then (false, kept ++ p :: rest)
      else unload_unsatisfied required_plugins kept rest

/-- The inner loop of the fourth pass: is one name of a `conflicts` list
loaded. -/
def has_conflict (plugins : List plugin) : List String → Bool
  | [] => false
  | d :: rest => if (get_plugin plugins d).isSome then true else has_conflict plugins rest

/-- The fourth pass of `__resolve_depedencies` over the items `items` of the
list `plugins`: `false` when conflicting plugins are loaded. -/
def check_conflicts (plugins : List plugin) : List plugin → Bool
  | [] => true
  | p :: rest =>
    if has_conflict plugins p.dependencies.conflicts then false
    else check_conflicts plugins rest

/-- The state in which `__resolve_depedencies` reaches its conflicts check:
`none` when the first pass does not end, `some none` when one of the first
three passes fails, otherwise the list of plugins after the third pass. -/
def before_conflicts_check (b : backend) (fuel : Nat) (plugins : List plugin) :
    Option (Option (List plugin)) :=
  match load_required_plugins b fuel 0 plugins [] with
  | none => none
  | some (.error _, _) => some none
  | some (.ok required1, plugins1) =>
    match check_needs plugins1 plugins1 required1 with
    | none => some none
    | some required2 =>
      match unload_unsatisfied required2 [] plugins1 with
      | (false, _) => some none
      | (true, plugins3) => some (some plugins3)

/-- What a call leaves behind: the return value, `errno` when it is `false`,
and the global list of plugins. -/
structure outcome where
  ok : Bool
  errno : Nat
  plugins : List plugin
deriving DecidableEq

/-- The function `__resolve_depedencies`; `none` when its first pass does not
end within `fuel` iterations. -/
def __resolve_depedencies (b : backend) (fuel : Nat) (plugins : List plugin) :
    Option outcome :=
  match load_required_plugins b fuel 0 plugins [] with
  | none => none
  | some (.error errno, plugins1) => some ⟨false, errno, plugins1⟩
  | some (.ok required1, plugins1) =>
    match check_needs plugins1 plugins1 required1 with
    | none => some ⟨false, 0, plugins1⟩
    | some required2 =>
      match unload_unsatisfied required2 [] plugins1 with
      | (false, plugins3) => some ⟨false, 0, plugins3⟩
      | (true, plugins3) =>
        if check_conflicts plugins3 plugins3 then some ⟨true, 0, plugins3⟩
        else some ⟨false, 0, plugins3⟩

/-- The first loop of `get_edges` for one plugin `p`: an edge from each loaded
plugin named in `succeeds` to `p`. -/
def succeeds_edges (plugins : List plugin) (p : plugin) : List String → List (edge plugin)
  | [] => []
  | d :: rest =>
    match get_plugin plugins d with
    | some q => ⟨q, p⟩ :: succeeds_edges plugins p rest
    | none => succeeds_edges plugins p rest

/-- The second loop of `get_edges` for one plugin `p`: an edge from `p` to each
loaded plugin named in `preceeds`. -/
def preceeds_edges (plugins : List plugin) (p : plugin) : List String → List (edge plugin)
  | [] => []
  | d :: rest =>
    match get_plugin plugins d with
    | some q => ⟨p, q⟩ :: preceeds_edges plugins p rest
    | none => preceeds_edges plugins p rest

/-- The outer loop of `get_edges` over the items `items` of `plugins`. -/
def get_edges_from (plugins : List plugin) : List plugin → List (edge plugin)
  | [] => []
  | p :: rest =>
    succeeds_edges plugins p p.dependencies.succeeds
      ++ preceeds_edges plugins p p.dependencies.preceeds
      ++ get_edges_from plugins rest

/-- The function `get_edges` (no allocation failure). -/
def get_edges (plugins : List plugin) : List (edge plugin) :=
  get_edges_from plugins plugins

/-- The function `sort_plugins`: on success the sorted list replaces the list
of plugins. -/
def sort_plugins (plugins : List plugin) : Option outcome :=
  match tsort plugins (get_edges plugins) with
  | none => none
  | some r =>
    match r.sorted_nodes with
    | some sorted_plugins => some ⟨true, 0, sorted_plugins⟩
    | none => some ⟨false, 0, plugins⟩

/-- The function `resolve_dependencies`:
`__resolve_depedencies() && sort_plugins()`. -/
def resolve_dependencies (b : backend) (fuel : Nat) (plugins : List plugin) : Option outcome :=
  match __resolve_depedencies b fuel plugins with
  | none => none
  | some r => if r.ok then sort_plugins r.plugins else some r

/-! ## plugins.c: hooks -/

/-- The exit status `EXIT_FAILURE`. -/
def EXIT_FAILURE : Nat := 1

/-- The functions that `main` registers with `atexit`. -/
inductive exit_handler where
  | display_auth_tries
  | unload_plugins
  | call_end_hook
  | restore_terminal
deriving DecidableEq

/-- The state of the process as far as plugins are concerned: the global list
of plugins, the hook calls made so far, the registered `atexit` functions in
the order of their registration, and the exit status once `exit` was called. -/
structure process where
  plugins : List plugin
  trace : List call
  atexit : List exit_handler
  status : Option Nat
deriving DecidableEq

/-- The loop `list_for_each_reverse_from(plugins, reverse_item,
plugin_item->previous)` of `handle_vlock_start`; the items are given from
`plugin_item->previous` back to the first one. -/
def call_end_hooks_from (env : hook_env) : List plugin → List call → List call
  | [], trace => trace
  | r :: previous, trace =>
    call_end_hooks_from env previous (call_hook env trace r "vlock_end").2

/-- The loop of `handle_vlock_start`.  `previous` are the items before
`plugin_item`, the nearest first.  The result is `false` when a hook failed,
that is when the handler goes on to call `exit`. -/
def vlock_start_loop (env : hook_env) (hook_name : String) :
    List plugin → List plugin → List call → Bool × List call
  | _, [], trace => (true, trace)
  | previous, p :: rest, trace =>
    match call_hook env trace p hook_name with
    | (true, trace1) => vlock_start_loop env hook_name (p :: previous) rest trace1
    | (false, trace1) => (false, call_end_hooks_from env previous trace1)

/-- The handler `handle_vlock_start`.  Its call of `exit(EXIT_FAILURE)` is
recorded in `status`; the registered `atexit` functions are run by `exit`
below. -/
def handle_vlock_start (env : hook_env) (hook_name : String) (s : process) : process :=
  match vlock_start_loop env hook_name [] s.plugins s.trace with
  | (true, trace) => { s with trace := trace }
  | (false, trace) => { s with trace := trace, status := some EXIT_FAILURE }

/-- The loop of `handle_vlock_end` over the items from the last to the
first. -/
def vlock_end_loop (env : hook_env) (hook_name : String) : List plugin → List call → List call
  | [], trace => trace
  | p :: previous, trace =>
    vlock_end_loop env hook_name previous (call_hook env trace p hook_name).2

/-- The handler `handle_vlock_end`. -/
def handle_vlock_end (env : hook_env) (hook_name : String) (s : process) : process :=
  { s with trace := vlock_end_loop env hook_name s.plugins.reverse s.trace }

/-- The loop of `handle_vlock_save` over the items from the first to the last:
the items with their new `save_disabled` flags, and the calls made. -/
def vlock_save_loop (env : hook_env) (hook_name : String) :
    List plugin → List call → List plugin × List call
  | [], trace => ([], trace)
  | p :: rest, trace =>
    if p.save_disabled then
      ((p :: (vlock_save_loop env hook_name rest trace).1),
        (vlock_save_loop env hook_name rest trace).2)
    else
      match call_hook env trace p hook_name with
      | (true, trace1) =>
        ((p :: (vlock_save_loop env hook_name rest trace1).1),
          (vlock_save_loop env hook_name rest trace1).2)
      | (false, trace1) =>
        (({ p with save_disabled := true } ::
            (vlock_save_loop env hook_name rest
              (call_hook env trace1 { p with save_disabled := true } "vlock_save_abort").2).1),
          (vlock_save_loop env hook_name rest
              (call_hook env trace1 { p with save_disabled := true } "vlock_save_abort").2).2)

/-- The handler `handle_vlock_save`. -/
def handle_vlock_save (env : hook_env) (hook_name : String) (s : process) : process :=
  { s with
    plugins := (vlock_save_loop env hook_name s.plugins s.trace).1
    trace := (vlock_save_loop env hook_name s.plugins s.trace).2 }

/-- The loop of `handle_vlock_save_abort` over the items from the last to the
first (the argument and the result list the items in this order). -/
def vlock_save_abort_loop (env : hook_env) (hook_name : String) :
    List plugin → List call → List plugin × List call
  | [], trace => ([], trace)
  | p :: previous, trace =>
    if p.save_disabled then
      ((p :: (vlock_save_abort_loop env hook_name previous trace).1),
        (vlock_save_abort_loop env hook_name previous trace).2)
    else
      match call_hook env trace p hook_name with
      | (true, trace1) =>
        ((p :: (vlock_save_abort_loop env hook_name previous trace1).1),
          (vlock_save_abort_loop env hook_name previous trace1).2)
      | (false, trace1) =>
        (({ p with save_disabled := true } ::
            (vlock_save_abort_loop env hook_name previous trace1).1),
          (vlock_save_abort_loop env hook_name previous trace1).2)

/-- The handler `handle_vlock_save_abort`. -/
def handle_vlock_save_abort (env : hook_env) (hook_name : String) (s : process) : process :=
  { s with
    plugins := (vlock_save_abort_loop env hook_name s.plugins.reverse s.trace).1.reverse
    trace := (vlock_save_abort_loop env hook_name s.plugins.reverse s.trace).2 }

/-- The table `hooks[nr_hooks]`: hook names and their handlers. -/
def hooks : List (String × (hook_env → String → process → process)) :=
  [("vlock_start", handle_vlock_start),
   ("vlock_end", handle_vlock_end),
   ("vlock_save", handle_vlock_save),
   ("vlock_save_abort", handle_vlock_save_abort)]

/-- The loop of `plugin_hook` over the table of hooks: call the handler of the
first entry with this name. -/
def plugin_hook_loop (env : hook_env) (hook_name : String) (s : process) :
    List (String × (hook_env → String → process → process)) → process
  | [] => s
  | h :: rest =>
    if hook_name = h.1 then h.2 env hook_name s
    else plugin_hook_loop env hook_name s rest

/-- The function `plugin_hook`. -/
def plugin_hook (env : hook_env) (hook_name : String) (s : process) : process :=
  plugin_hook_loop env hook_name s hooks

/-- The function `unload_plugins`: every plugin is destroyed and deleted. -/
def unload_plugins (s : process) : process :=
  { s with plugins := [] }

/-! ## vlock-main.c -/

/-- The function `call_end_hook` of `vlock-main.c`. -/
def call_end_hook (env : hook_env) (s : process) : process :=
  plugin_hook env "vlock_end" s

/-- One registered `atexit` function is run. -/
def run_exit_handler (env : hook_env) (s : process) : exit_handler → process
  | .display_auth_tries => s
  | .unload_plugins => unload_plugins s
  | .call_end_hook => call_end_hook env s
  | .restore_terminal => s

/-- The registered functions are run, the one registered last first. -/
def run_exit_handlers (env : hook_env) : List exit_handler → process → process
  | [], s => s
  | h :: rest, s => run_exit_handlers env rest (run_exit_handler env s h)

/-- The library function `exit`: the functions registered with `atexit` are
called in the reverse order of their registration, then the process ends with
the given status. -/
def exit (env : hook_env) (status : Nat) (s : process) : process :=
  { run_exit_handlers env s.atexit.reverse s with status := some status }

/-- The macro `ensure_atexit` (registration succeeds). -/
def ensure_atexit (h : exit_handler) (s : process) : process :=
  { s with atexit := s.atexit ++ [h] }

/-- The loop of `main` that loads the plugins named on the command line;
`false` when `load_plugin` failed for one of them. -/
def load_plugins (b : backend) : List String → List plugin → Bool × List plugin
  | [], plugins => (true, plugins)
  | name :: rest, plugins =>
    match load_plugin b plugins name with
    | (true, plugins1) => load_plugins b rest plugins1
    | (false, plugins1) => (false, plugins1)

/-- The save cycles of `auth_loop`: each time escape is pressed or the timeout
passes, `plugin_hook("vlock_save")` is followed by
`plugin_hook("vlock_save_abort")`. -/
def save_cycles (env : hook_env) : Nat → process → process
  | 0, s => s
  | n + 1, s => save_cycles env n (plugin_hook env "vlock_save_abort" (plugin_hook env "vlock_save" s))

/-- The plugin part of `main` (with `USE_PLUGINS`), from a process that has
registered `display_auth_tries`: `argv` are the command line arguments after
the program name, `stdin_is_tty` the result of `isatty`, and `cycles` the
number of save cycles the user goes through before authentication succeeds.
The result is the state of the process after `exit`; `none` when the first pass
of `__resolve_depedencies` does not end within `fuel` iterations. -/
def main (b : backend) (env : hook_env) (fuel : Nat) (argv : List String)
    (stdin_is_tty : Bool) (cycles : Nat) : Option process :=
  let s0 : process := ⟨[], [], [.display_auth_tries], none⟩
  match load_plugins b argv s0.plugins with
  | (false, plugins1) => some (exit env EXIT_FAILURE { s0 with plugins := plugins1 })
  | (true, plugins1) =>
    let s1 := ensure_atexit .unload_plugins { s0 with plugins := plugins1 }
    match resolve_dependencies b fuel s1.plugins with
    | none => none
    | some r =>
      if r.ok = false then some (exit env EXIT_FAILURE { s1 with plugins := r.plugins })
      else
        let s2 := plugin_hook env "vlock_start" { s1 with plugins := r.plugins }
        match s2.status with
        | some status => some (exit env status s2)
        | none =>
          let s3 := ensure_atexit .call_end_hook s2
          if stdin_is_tty = false then some (exit env EXIT_FAILURE s3)
          else
            let s4 := ensure_atexit .restore_terminal s3
            some (exit env 0 (save_cycles env cycles s4))

/-! ## Auxiliary notions for the proofs -/

/-- The requirement of the first pass for one name `d`: a plugin of the list
that is in `required_plugins`, and that has the name `d` when `d` has no
slash. -/
def requirement_met (plugins required_plugins : List plugin) (d : String) : Prop :=
  ∃ q ∈ plugins, q ∈ required_plugins ∧ ('/' ∉ d.data → q.name = d)


/-- A plugin directory for the examples: every plugin is a module.  `X`
precedes `Y`; `Z` conflicts with `W`; `a` precedes `b`; `R` requires `Q` and
needs `X`; `s` succeeds `z`, and `z` precedes `y`; `p` depends on `d`, `d`
depends on `m` and `r` requires `p`, where no plugin `m` exists. -/
def example_backend : backend where
  init_module := fun name =>
    if name = "X" then .ok ⟨[], ["Y"], [], [], [], []⟩
    else if name = "Y" then .ok ⟨[], [], [], [], [], []⟩
    else if name = "Z" then .ok ⟨[], [], [], [], [], ["W"]⟩
    else if name = "W" then .ok ⟨[], [], [], [], [], []⟩
    else if name = "a" then .ok ⟨[], ["b"], [], [], [], []⟩
    else if name = "b" then .ok ⟨[], [], [], [], [], []⟩
    else if name = "R" then .ok ⟨[], [], ["Q"], ["X"], [], []⟩
    else if name = "Q" then .ok ⟨[], [], [], [], [], []⟩
    else if name = "s" then .ok ⟨["z"], [], [], [], [], []⟩
    else if name = "y" then .ok ⟨[], [], [], [], [], []⟩
    else if name = "z" then .ok ⟨[], ["y"], [], [], [], []⟩
    else if name = "p" then .ok ⟨[], [], [], [], ["d"], []⟩
    else if name = "d" then .ok ⟨[], [], [], [], ["m"], []⟩
    else if name = "r" then .ok ⟨[], [], ["p"], [], [], []⟩
    else .error ENOENT
  init_script := fun _ => .error ENOENT

/-- What `resolve_dependencies` leaves after `vlock X R` with the plugins of
`example_backend`. -/
def resolved_X_R : outcome :=
  ⟨true, 0, [⟨1, "X", ⟨[], ["Y"], [], [], [], []⟩, false, .module⟩,
    ⟨2, "R", ⟨[], [], ["Q"], ["X"], [], []⟩, false, .module⟩,
    ⟨3, "Q", ⟨[], [], [], [], [], []⟩, false, .module⟩]⟩

/-- What `resolve_dependencies` leaves after `vlock X Y` with the plugins of
`example_backend`. -/
def resolved_X_Y : outcome :=
  ⟨true, 0, [⟨1, "X", ⟨[], ["Y"], [], [], [], []⟩, false, .module⟩,
    ⟨2, "Y", ⟨[], [], [], [], [], []⟩, false, .module⟩]⟩

/-- What `resolve_dependencies` leaves after `vlock s y z` with the plugins of
`example_backend`. -/
def resolved_s_y_z : outcome :=
  ⟨true, 0, [⟨3, "z", ⟨[], ["y"], [], [], [], []⟩, false, .module⟩,
    ⟨1, "s", ⟨["z"], [], [], [], [], []⟩, false, .module⟩,
    ⟨2, "y", ⟨[], [], [], [], [], []⟩, false, .module⟩]⟩

/-- What `resolve_dependencies` leaves after `vlock b x/b a` with the plugins
of `example_backend`. -/
def resolved_b_b_a : outcome :=
  ⟨true, 0, [⟨2, "b", ⟨[], [], [], [], [], []⟩, false, .module⟩,
    ⟨3, "a", ⟨[], ["b"], [], [], [], []⟩, false, .module⟩,
    ⟨1, "b", ⟨[], [], [], [], [], []⟩, false, .module⟩]⟩

/-- Which hook was called on which plugin, in the order of the calls. -/
def called (trace : List call) : List (Nat × String) :=
  trace.map (fun c => (c.addr, c.hook))

/-- Every one of the plugins, called in this order after the calls of `trace`,
reports success for the hook. -/
def all_succeed (env : hook_env) (hook_name : String) : List plugin → List call → Bool
  | [], _ => true
  | p :: rest, trace =>
    env trace p.addr hook_name
      && all_succeed env hook_name rest (trace ++ [⟨p.addr, hook_name, true⟩])

/-- The plugin at address `a` has its `save_disabled` flag set. -/
def save_disabled_at (plugins : List plugin) (a : Nat) : Prop :=
  ∃ p ∈ plugins, p.addr = a ∧ p.save_disabled = true

/-- One save cycle of `auth_loop`. -/
def save_cycle (env : hook_env) (s : process) : process :=
  plugin_hook env "vlock_save_abort" (plugin_hook env "vlock_save" s)

/-- The hook calls made in cycle number `j` (counted from 0) of a sequence of
save cycles that starts in state `s`. -/
def cycle_calls (env : hook_env) (s : process) (j : Nat) : List call :=
  (save_cycles env (j + 1) s).trace.drop (save_cycles env j s).trace.length

/-- The process in which `main` calls `plugin_hook("vlock_start")` after
`vlock X Y`: the resolved registry, no hook called yet, `display_auth_tries`
and `unload_plugins` registered. -/
def process_X_Y : process :=
  ⟨resolved_X_Y.plugins, [], [.display_auth_tries, .unload_plugins], none⟩

/-- Hooks for the examples: the `vlock_start` hook of the plugin at address `a`
fails, every other call succeeds. -/
def fail_start_at (a : Nat) : hook_env :=
  fun _ addr hook_name => !(addr == a && hook_name == "vlock_start")

/-- Hooks for the examples: the `vlock_save` hook of the plugin at address `a`
fails, every other call succeeds. -/
def fail_save_at (a : Nat) : hook_env :=
  fun _ addr hook_name => !(addr == a && hook_name == "vlock_save")

/-- Hooks for the examples: every call succeeds. -/
def always_succeed : hook_env :=
  fun _ _ _ => true

/-! ## Further notions on graphs -/

section GraphNotions

variable {α : Type}

/-- The node `v` lies on a cycle of the graph with edge list `E` or can be
reached from a node on a cycle. -/
def reachable_from_cycle (E : List (edge α)) (v : α) : Prop :=
  ∃ c, Relation.TransGen (fun a b => edge.mk a b ∈ E) c c ∧
    Relation.ReflTransGen (fun a b => edge.mk a b ∈ E) c v

/-- The edge `e` of `E` lies on a directed cycle: its predecessor can be
reached from its successor. -/
def on_cycle (E : List (edge α)) (e : edge α) : Prop :=
  e ∈ E ∧ Relation.ReflTransGen (fun a b => edge.mk a b ∈ E) e.successor e.predecessor

/-- No edge constrains the pair `a`, `b`: neither node can be reached from the
other. -/
def unconstrained (E : List (edge α)) (a b : α) : Prop :=
  ¬ Relation.TransGen (fun a b => edge.mk a b ∈ E) a b ∧
  ¬ Relation.TransGen (fun a b => edge.mk a b ∈ E) b a

end GraphNotions


/-! ## module.c -/

/-- The value of `errno` that means "permission denied". -/
def EACCES : Nat := 13

/-- The outside world of `init_module`: the directory `VLOCK_MODULE_DIR`, the
`errno` of `access(path, R_OK)` when it fails, and what `dlopen` and the
`dlsym` calls for the dependency arrays find in the file, `none` when `dlopen`
returns `NULL`. -/
structure module_world where
  module_dir : String
  access : String → Option Nat
  dlopen : String → Option dependencies

/-- The function `init_module` for a plugin of the given name (no allocation
failure): the path is `VLOCK_MODULE_DIR/name.so`; a failing `access` leaves its
`errno`, a failing `dlopen` sets `errno` to 0. -/
def init_module (w : module_world) (name : String) : Except Nat dependencies :=
  let path := w.module_dir ++ "/" ++ name ++ ".so"
  match w.access path with
  | some errno => .error errno
  | none =>
    match w.dlopen path with
    | none => .error 0
    | some deps => .ok deps

/-! ## Further notions and examples for plugins -/

/-- The part of a string after its last slash, the whole string when it has
none, stated without reference to the code: the longest piece at the end of
the string that has no slash. -/
def part_after_last_slash (s : List Char) : List Char :=
  (s.reverse.takeWhile (fun c => c != '/')).reverse

/-- A module directory in which every file is unreadable: `access` fails with
`EACCES`. -/
def denied_world : module_world where
  module_dir := "/usr/lib/vlock/modules"
  access := fun _ => some EACCES
  dlopen := fun _ => none

/-- Plugins for the examples: no module can be read, every script exists and
has no dependencies. -/
def denied_backend : backend where
  init_module := init_module denied_world
  init_script := fun _ => .ok ⟨[], [], [], [], [], []⟩

/-- A plugin directory for the examples with one module `b`, which requires
`x/b`. -/
def slash_backend : backend where
  init_module := fun name =>
    if name = "b" then .ok ⟨[], [], ["x/b"], [], [], []⟩ else .error ENOENT
  init_script := fun _ => .error ENOENT

/-- The plugin `p` of `example_backend`, loaded first. -/
def example_p : plugin := ⟨1, "p", ⟨[], [], [], [], ["d"], []⟩, false, .module⟩

/-! ## list.c at the level of items and pointers

Above a `struct list` is the sequence of its data pointers.  Here the items
themselves are modelled: memory maps the address of each allocated
`struct list_item` to its contents, and pointers are addresses, `none` for
`NULL`. -/

/-- A `struct list_item`. -/
structure list_item where
  data : Nat
  next : Option Nat
  previous : Option Nat
deriving DecidableEq

/-- A `struct list`. -/
structure list where
  first : Option Nat
  last : Option Nat
deriving DecidableEq

/-- The memory that holds list items: the item at each allocated address. -/
abbrev heap := Nat → Option list_item

/-- An assignment to the item at address `a`. -/
def store (m : heap) (a : Nat) (i : list_item) : heap :=
  fun x => if x = a then some i else m x

/-- The function `list_append`; `item` is what `malloc` returned.  The result
is the return value, the memory and the list afterwards; `none` stands for an
access through a pointer to no item. -/
def list_append (m : heap) (l : list) (item : Option Nat) (data : Nat) :
    Option (Bool × heap × list) :=
  match item with
  | none => some (false, m, l)
  | some item =>
    let m1 := store m item ⟨data, none, l.last⟩
    let m2 : Option heap :=
      match l.last with
      | some last =>
        match m1 last with
        | some c => some (store m1 last { c with next := some item })
        | none => none
      | none => some m1
    match m2 with
    | none => none
    | some m2 =>
      let l1 : list := { l with last := some item }
      let l2 : list := if l1.first = none then { l1 with first := some item } else l1
      some (true, m2, l2)

/-- The loop `list_for_each_from_increment(list, item, start, item = item->next)`:
the items it visits, each with its data; `none` when it has not ended within
`fuel` iterations or reads through a pointer to no item. -/
def list_for_each_from (m : heap) : Nat → Option Nat → Option (List (Nat × Nat))
  | _, none => some []
  | 0, some _ => none
  | fuel + 1, some item =>
    match m item with
    | none => none
    | some c =>
      match list_for_each_from m fuel c.next with
      | none => none
      | some visited => some ((item, c.data) :: visited)

/-- The loop `list_for_each_reverse_from(list, item, start)`: the items it
visits, each with its data. -/
def list_for_each_reverse_from (m : heap) : Nat → Option Nat → Option (List (Nat × Nat))
  | _, none => some []
  | 0, some _ => none
  | fuel + 1, some item =>
    match m item with
    | none => none
    | some c =>
      match list_for_each_reverse_from m fuel c.previous with
      | none => none
      | some visited => some ((item, c.data) :: visited)

/-- The loop of `list_length` from the item `start` on. -/
def list_length_loop (m : heap) : Nat → Option Nat → Nat → Option Nat
  | _, none, length => some length
  | 0, some _, _ => none
  | fuel + 1, some item, length =>
    match m item with
    | none => none
    | some c => list_length_loop m fuel c.next (length + 1)

/-- The function `list_length`. -/
def list_length (m : heap) (fuel : Nat) (l : list) : Option Nat :=
  list_length_loop m fuel l.first 0

/-- The data sequence of a list: the data pointers of the items from `first`
on. -/
def list_data (m : heap) (fuel : Nat) (l : list) : Option (List Nat) :=
  (list_for_each_from m fuel l.first).map (List.map Prod.snd)

/-- The address of the first of the cells, `after` when there is none. -/
def first_of (cells : List (Nat × Nat)) (after : Option Nat) : Option Nat :=
  match cells with
  | [] => after
  | c :: _ => some c.1

/-- The address of the last of the cells, `before` when there is none. -/
def last_of (cells : List (Nat × Nat)) (before : Option Nat) : Option Nat :=
  match cells.getLast? with
  | none => before
  | some c => some c.1

/-- The cells, pairs of an address and a data pointer, are linked in memory in
this order: each item holds its data, points forward to the next cell and back
to the cell before it; `before` and `after` are the pointers at the two
ends. -/
def is_chain (m : heap) : Option Nat → List (Nat × Nat) → Option Nat → Prop
  | _, [], _ => True
  | before, c :: rest, after =>
    m c.1 = some ⟨c.2, first_of rest after, before⟩ ∧ is_chain m (some c.1) rest after

/-- The list `l` is well formed in the memory `m` and consists of the given
cells: pairwise distinct items linked in this order, with `NULL` at both ends,
and `first` and `last` point to the first and to the last of them. -/
structure is_list (m : heap) (l : list) (cells : List (Nat × Nat)) : Prop where
  nodup : (cells.map Prod.fst).Nodup
  first : l.first = first_of cells none
  last : l.last = last_of cells none
  chain : is_chain m none cells none

/-- A memory for the examples: one item at address 1 with the data 7. -/
def heap_one : heap :=
  store (fun _ => none) 1 ⟨7, none, none⟩

/-! ## console_switch.c -/

/-- A `struct vt_mode`, as far as `console_switch.c` sets it. -/
structure vt_mode where
  mode : Nat
  relsig : Nat
  acqsig : Nat
  frsig : Nat
deriving DecidableEq

/-- The mode `VT_AUTO`: the kernel switches consoles by itself. -/
def VT_AUTO : Nat := 0

/-- The mode `VT_PROCESS`: the process decides about console switches. -/
def VT_PROCESS : Nat := 1

/-- The signal numbers that `lock_console_switch` uses. -/
def SIGHUP : Nat := 1

/-- The signal `SIGUSR1`. -/
def SIGUSR1 : Nat := 10

/-- The signal `SIGUSR2`. -/
def SIGUSR2 : Nat := 12

/-- The handler of a signal. -/
inductive sighandler where
  | other
  | release_vt
  | acquire_vt
deriving DecidableEq

/-- The state that `console_switch.c` works on: its variables
`console_switch_locked`, `vtm`, `sa_usr1`, `sa_usr2`, the mode of the console
in the kernel and the installed handlers of `SIGUSR1` and `SIGUSR2`. -/
structure console where
  console_switch_locked : Bool
  vtm : vt_mode
  sa_usr1 : sighandler
  sa_usr2 : sighandler
  kernel_mode : vt_mode
  handler_usr1 : sighandler
  handler_usr2 : sighandler
deriving DecidableEq

/-- The state at program start: `console_switch_locked = false`. -/
def console_start (kernel_mode : vt_mode) : console :=
  ⟨false, ⟨0, 0, 0, 0⟩, .other, .other, kernel_mode, .other, .other⟩

/-- The function `lock_console_switch`; `getmode_ok` and `setmode_ok` tell
whether the two `ioctl` calls succeed. -/
def lock_console_switch (getmode_ok setmode_ok : Bool) (s : console) : Bool × console :=
  if getmode_ok = false then (false, s)
  else
    let s1 := { s with vtm := s.kernel_mode }
    let lock_vtm := s1.vtm
    let s2 := { s1 with sa_usr1 := s1.handler_usr1, handler_usr1 := .release_vt }
    let s3 := { s2 with sa_usr2 := s2.handler_usr2, handler_usr2 := .acquire_vt }
    let lock_vtm := { lock_vtm with mode := VT_PROCESS, relsig := SIGUSR1, acqsig := SIGUSR2,
                                    frsig := SIGHUP }
    if setmode_ok = false then
      (false, { s3 with handler_usr1 := s3.sa_usr1, handler_usr2 := s3.sa_usr2 })
    else
      (true, { s3 with kernel_mode := lock_vtm, console_switch_locked := true })

/-- The function `unlock_console_switch`; `setmode_ok` tells whether the
`ioctl` call succeeds. -/
def unlock_console_switch (setmode_ok : Bool) (s : console) : Bool × console :=
  if setmode_ok then
    (true, { s with kernel_mode := s.vtm, handler_usr1 := s.sa_usr1, handler_usr2 := s.sa_usr2 })
  else (false, s)

/-- Console switching is disabled: the console is in the mode `VT_PROCESS`
and the handler of the release signal is `release_vt`, which denies every
switch. -/
def switching_disabled (s : console) : Bool :=
  s.kernel_mode.mode = VT_PROCESS && s.handler_usr1 = .release_vt

/-! ## modules/new.c -/

/-- The library function `snprintf(str, size, ...)` for `size > 0` and no
output error: `formatted` is the complete output; the string left in `str` is
cut after `size - 1` characters, the return value is the length of the
complete output. -/
def snprintf (size : Nat) (formatted : List Char) : List Char × Int :=
  (formatted.take (size - 1), formatted.length)

/-- The size of the array `name` in `get_console_name` on Linux:
`sizeof VTNAME + 2`, where `VTNAME` is `"/dev/tty%d"`. -/
def sizeof_name : Nat := ("/dev/tty%d".length + 1) + 2

/-- The function `get_console_name` on Linux: the device name or `none` for
`NULL`. -/
def get_console_name (n : Int) : Option String :=
  if n ≤ 0 then none
  else
    let (name, namelen) := snprintf sizeof_name ("/dev/tty".data ++ Nat.toDigits 10 n.toNat)
    if namelen > (sizeof_name : Int) then none
    else if namelen < 0 then none
    else some (String.mk name)

/-- The device name of console `n`: `/dev/tty` followed by the decimal digits
of `n`. -/
def console_device_name (n : Int) : String :=
  "/dev/tty" ++ toString n

/-! ## util.c

A C string is the list of its characters before the terminating NUL. -/

/-- A `struct timespec`. -/
structure timespec where
  tv_sec : Int
  tv_nsec : Int
deriving DecidableEq

/-- The largest value of type `long`, with 64 bits. -/
def LONG_MAX : Int := 9223372036854775807

/-- The smallest value of type `long`, with 64 bits. -/
def LONG_MIN : Int := -9223372036854775808

/-- The library function `isspace` in the C locale. -/
def isspace (c : Char) : Bool :=
  c = ' ' || c = '\t' || c = '\n' || c = '\x0b' || c = '\x0c' || c = '\r'

/-- The number that a sequence of decimal digits denotes. -/
def digits_value (ds : List Char) : Int :=
  ds.foldl (fun v c => 10 * v + ((c.toNat - '0'.toNat : Nat) : Int)) 0

/-- The library function `strtol(s, &n, 10)`: the return value and the rest of
the string that `n` points to.  White space is skipped, a sign is optional,
the digits that follow are converted; without a digit nothing is consumed and
the value is 0; a value outside of the range of `long` is replaced by
`LONG_MAX` or `LONG_MIN`. -/
def strtol (s : List Char) : Int × List Char :=
  let s1 := s.dropWhile isspace
  let s2 := if s1.head? = some '-' ∨ s1.head? = some '+' then s1.tail else s1
  let digits := s2.takeWhile Char.isDigit
  if digits = [] then (0, s)
  else
    let v := if s1.head? = some '-' then - digits_value digits else digits_value digits
    (max LONG_MIN (min LONG_MAX v), s2.dropWhile Char.isDigit)

/-- The function `parse_seconds` (no allocation failure); `none` stands for
`NULL`, as argument and as result. -/
def parse_seconds (s : Option (List Char)) : Option timespec :=
  match s with
  | none => none
  | some s =>
    let t : timespec := ⟨(strtol s).1, 0⟩
    if (strtol s).2 ≠ [] ∨ t.tv_sec ≤ 0 then none else some t

/-- The integer that a string denotes when the whole string is a base-10
integer: white space, an optional sign and at least one digit, with nothing
after the digits.  The definition does not refer to `strtol`. -/
def integer_value (s : List Char) : Option Int :=
  let body := s.dropWhile isspace
  let unsigned := if body.head? = some '-' ∨ body.head? = some '+' then body.tail else body
  if unsigned ≠ [] ∧ unsigned.all Char.isDigit = true then
    some (if body.head? = some '-' then - digits_value unsigned else digits_value unsigned)
  else none

/-! ## script.c -/

/-- The characters of a C string stored in `data`: those before the first
NUL. -/
def c_string (data : List Char) : List Char :=
  data.takeWhile (fun c => c != '\x00')

/-- The library function `strtok_r` on the rest `s` of the string that is
still to be split: `none` when no token is left, else the token and the rest
after it.  Leading delimiters are skipped; the token ends before the next
delimiter, which is overwritten, or at the end of the string. -/
def strtok_r (delim : List Char) (s : List Char) : Option (List Char × List Char) :=
  let s1 := s.dropWhile (fun c => delim.contains c)
  if s1 = [] then none
  else
    some (s1.takeWhile (fun c => !delim.contains c),
      (s1.dropWhile (fun c => !delim.contains c)).tail)

/-- The loop of `parse_dependency` (no allocation failure); `none` stands for
running out of `fuel`. -/
def parse_dependency_loop :
    Nat → List Char → List String → Option (Bool × List String)
  | 0, _, _ => none
  | fuel + 1, s, dependency_list =>
    match strtok_r [' ', '\r', '\n'] s with
    | none => some (true, dependency_list)
    | some (token, rest) =>
      parse_dependency_loop fuel rest (dependency_list ++ [String.mk token])

/-- The function `parse_dependency`: the return value and the dependency list
afterwards. -/
def parse_dependency (data : List Char) (dependency_list : List String) :
    Option (Bool × List String) :=
  parse_dependency_loop ((c_string data).length + 1) (c_string data) dependency_list

/-- The separators between dependency names. -/
def is_separator (c : Char) : Bool :=
  c = ' ' || c = '\r' || c = '\n'

/-- The maximal non-empty runs of characters that are no separators, in their
order of occurrence.  The definition does not refer to `strtok_r`. -/
def separated_tokens (data : List Char) : List (List Char) :=
  (data.splitOnP is_separator).filter (fun t => !t.isEmpty)

/-! ## script.c: read_dependency -/

/-- The limit `LINE_MAX` of `limits.h`. -/
def LINE_MAX : Nat := 2048

/-- The value of `errno` that means "connection timed out". -/
def ETIMEDOUT : Nat := 110

/-- The value of `errno` that means "file too large". -/
def EFBIG : Nat := 27

/-- What happens in one iteration of the loop of `read_dependency`: whether
`select` returns 1, the microseconds that pass between the two calls of
`gettimeofday`, and the result of `read`, `none` for -1 and otherwise the
bytes read, at most `LINE_MAX - 1`. -/
structure read_event where
  select_ready : Bool
  elapsed : Int
  read : Option (List Char)

/-- The variables of `read_dependency`: the contents of the block `data`,
whose length is the size of the block, `data_length`, and `timeout` in
microseconds. -/
structure read_state where
  data : List Char
  data_length : Nat
  timeout : Int
deriving DecidableEq

/-- The library function `realloc`: the block has the new size and keeps its
contents up to the smaller of the two sizes. -/
def realloc (block : List Char) (size : Nat) : List Char :=
  block.take size ++ List.replicate (size - block.length) '\x00'

/-- The library function `strncpy(dest, src, n)`: the `n` bytes written, which
are the bytes of `src` before its first NUL, filled up with NUL. -/
def strncpy (src : List Char) (n : Nat) : List Char :=
  (c_string (src.take n)) ++ List.replicate (n - (c_string (src.take n)).length) '\x00'

/-- The bytes `bytes` are written into the block from the index `offset`
on. -/
def write_at (block : List Char) (offset : Nat) (bytes : List Char) : List Char :=
  block.take offset ++ bytes ++ block.drop (offset + bytes.length)

/-- The loop of `read_dependency` (no allocation failure): the state in which
the loop is left by `break`, or the `errno` with which it jumps to `error`.
When nothing more happens, `select` returns 0. -/
def read_dependency_loop : List read_event → read_state → Except Nat read_state
  | [], _ => .error ETIMEDOUT
  | e :: events, s =>
    if e.select_ready = false then .error ETIMEDOUT
    else if e.elapsed > s.timeout then .error ETIMEDOUT
    else
      let timeout := s.timeout - e.elapsed
      match e.read with
      | none => .ok { s with timeout := timeout }
      | some buffer =>
        let length := buffer.length
        if length = 0 then .ok { s with timeout := timeout }
        else if s.data_length + length + 1 > LINE_MAX then .error EFBIG
        else
          let data := realloc s.data (s.data_length + length)
          let data := write_at data s.data_length (strncpy buffer length)
          read_dependency_loop events ⟨data, s.data_length + length, timeout⟩

/-- What `read_dependency` returns: the `errno` of a failure or the bytes of
the block before the terminating NUL; and for the assignment
`data[data_length] = 0` its index and the size of the block at that time. -/
structure read_outcome where
  result : Except Nat (List Char)
  terminator : Option (Nat × Nat)

/-- The function `read_dependency` after a successful `create_child`. -/
def read_dependency (events : List read_event) : read_outcome :=
  match read_dependency_loop events ⟨['\x00'], 0, 1000000⟩ with
  | .error errno => ⟨.error errno, none⟩
  | .ok s => ⟨.ok (s.data.take s.data_length), some (s.data_length, s.data.length)⟩

/-- The script prints the given chunks, each read at once and without delay,
and then closes its output. -/
def prints (chunks : List (List Char)) : List read_event :=
  chunks.map (fun chunk => ⟨true, 0, some chunk⟩) ++ [⟨true, 0, some []⟩]

/-- Every `select` of the events returns 1 and the time that passes stays
within the timeout, which is reduced from event to event. -/
def within_budget : List read_event → Int → Bool
  | [], _ => true
  | e :: events, timeout =>
    e.select_ready && decide (e.elapsed ≤ timeout) && within_budget events (timeout - e.elapsed)

/-- The events are reads of non-empty chunks followed by the end of the
output: a last `read` that returns 0. -/
def ends_with_eof : List read_event → Bool
  | [] => false
  | [e] => e.read == some []
  | e :: events => (e.read.map (fun chunk => !chunk.isEmpty)).getD false && ends_with_eof events

/-- The number of bytes that the events deliver. -/
def total_length (events : List read_event) : Nat :=
  (events.map (fun e => (e.read.getD []).length)).sum

/-! ## process.c -/

/-- The special value `NO_REDIRECT` of a descriptor field. -/
def NO_REDIRECT : Int := -2

/-- The special value `REDIRECT_DEV_NULL` of a descriptor field. -/
def REDIRECT_DEV_NULL : Int := -3

/-- The special value `REDIRECT_PIPE` of a descriptor field. -/
def REDIRECT_PIPE : Int := -4

/-- The fields of a `struct child_process` that `create_child` writes or
tests in the parent. -/
structure child_process where
  stdin_fd : Int
  stdout_fd : Int
  stderr_fd : Int
  pid : Int
deriving DecidableEq

/-- What the system calls of one call of `create_child` return in the parent:
each `pipe` fails with an `errno` or returns two descriptors, `fork` fails with
an `errno` or returns the process id of the child, and the `read` from the
status pipe either returns a whole `errno`, which the child wrote after a
failed `execv`, or something else. -/
structure child_world where
  status_pipe : Except Nat (Int × Int)
  stdin_pipe : Except Nat (Int × Int)
  stdout_pipe : Except Nat (Int × Int)
  stderr_pipe : Except Nat (Int × Int)
  fork : Except Nat Int
  status_read : Option Nat

/-- What a call of `create_child` leaves: the return value, `errno`, the
struct `child` and the open descriptors of the process. -/
structure child_result where
  ok : Bool
  errno : Nat
  child : child_process
  open_fds : List Int
deriving DecidableEq

/-- The system call `close` on the set of open descriptors. -/
def close (fd : Int) (open_fds : List Int) : List Int :=
  open_fds.filter (fun x => x != fd)

/-- Both descriptors of a pipe are closed. -/
def close_pipe (p : Int × Int) (open_fds : List Int) : List Int :=
  close p.2 (close p.1 open_fds)

/-- The code of `create_child` from the label `stdin_pipe_failed` on. -/
def stdin_pipe_failed (errsv : Nat) (child : child_process) (status_pipe : Int × Int)
    (open_fds : List Int) : child_result :=
  ⟨false, errsv, child, close_pipe status_pipe open_fds⟩

/-- The code of `create_child` from the label `stdout_pipe_failed` on;
`stdin_pipe` is only read when it was set. -/
def stdout_pipe_failed (errsv : Nat) (child : child_process) (status_pipe stdin_pipe : Int × Int)
    (open_fds : List Int) : child_result :=
  stdin_pipe_failed errsv child status_pipe
    (if child.stdin_fd = REDIRECT_PIPE then close_pipe stdin_pipe open_fds else open_fds)

/-- The code of `create_child` from the label `stderr_pipe_failed` on. -/
def stderr_pipe_failed (errsv : Nat) (child : child_process)
    (status_pipe stdin_pipe stdout_pipe : Int × Int) (open_fds : List Int) : child_result :=
  stdout_pipe_failed errsv child status_pipe stdin_pipe
    (if child.stdout_fd = REDIRECT_PIPE then close_pipe stdout_pipe open_fds else open_fds)

/-- The code of `create_child` from the labels `child_failed` and
`fork_failed` on. -/
def fork_failed (errsv : Nat) (child : child_process)
    (status_pipe stdin_pipe stdout_pipe stderr_pipe : Int × Int) (open_fds : List Int) :
    child_result :=
  stderr_pipe_failed errsv child status_pipe stdin_pipe stdout_pipe
    (if child.stderr_fd = REDIRECT_PIPE then close_pipe stderr_pipe open_fds else open_fds)

/-- The call `pipe(p)` when the field has the value `REDIRECT_PIPE`: the array
`p` afterwards, which stays as it is when `pipe` is not called, and the open
descriptors; or the `errno` of the failure. -/
def pipe_if (field : Int) (result : Except Nat (Int × Int)) (open_fds : List Int) :
    Except Nat ((Int × Int) × List Int) :=
  if field = REDIRECT_PIPE then
    match result with
    | .error errno => .error errno
    | .ok p => .ok (p, p.1 :: p.2 :: open_fds)
  else .ok ((0, 0), open_fds)

/-- The function `create_child` in the parent process; `errno` is the value
on entry. -/
def create_child (w : child_world) (errno : Nat) (child : child_process)
    (open_fds : List Int) : child_result :=
  match w.status_pipe with
  | .error e => ⟨false, e, child, open_fds⟩
  | .ok status_pipe =>
    let fds := status_pipe.1 :: status_pipe.2 :: open_fds
    match pipe_if child.stdin_fd w.stdin_pipe fds with
    | .error errsv => stdin_pipe_failed errsv child status_pipe fds
    | .ok (stdin_pipe, fds) =>
      match pipe_if child.stdout_fd w.stdout_pipe fds with
      | .error errsv => stdout_pipe_failed errsv child status_pipe stdin_pipe fds
      | .ok (stdout_pipe, fds) =>
        match pipe_if child.stderr_fd w.stderr_pipe fds with
        | .error errsv => stderr_pipe_failed errsv child status_pipe stdin_pipe stdout_pipe fds
        | .ok (stderr_pipe, fds) =>
          match w.fork with
          | .error errsv =>
            fork_failed errsv { child with pid := -1 } status_pipe stdin_pipe stdout_pipe
              stderr_pipe fds
          | .ok pid =>
            let child := { child with pid := pid }
            let fds := close status_pipe.2 fds
            match w.status_read with
            | some child_errno =>
              fork_failed child_errno child status_pipe stdin_pipe stdout_pipe stderr_pipe fds
            | none =>
              let fds := close status_pipe.1 fds
              let (child, fds) :=
                if child.stdin_fd = REDIRECT_PIPE then
                  ({ child with stdin_fd := stdin_pipe.2 }, close stdin_pipe.1 fds)
                else (child, fds)
              let (child, fds) :=
                if child.stdout_fd = REDIRECT_PIPE then
                  ({ child with stdout_fd := stdout_pipe.1 }, close stdout_pipe.2 fds)
                else (child, fds)
              let (child, fds) :=
                if child.stderr_fd = REDIRECT_PIPE then
                  ({ child with stderr_fd := stderr_pipe.1 }, close stderr_pipe.2 fds)
                else (child, fds)
              ⟨true, errno, child, fds⟩

/-- The descriptors that a `pipe` call returns, none when it fails. -/
def pipe_fds (result : Except Nat (Int × Int)) : List Int :=
  match result with
  | .error _ => []
  | .ok p => [p.1, p.2]

/-- The descriptors that the `pipe` calls of the world return. -/
def new_fds (w : child_world) : List Int :=
  pipe_fds w.status_pipe ++ pipe_fds w.stdin_pipe ++ pipe_fds w.stdout_pipe
    ++ pipe_fds w.stderr_pipe

/-- The `errno` of a call that fails, none when it succeeds. -/
def error_of {α : Type} (result : Except Nat α) : Option Nat :=
  match result with
  | .error errno => some errno
  | .ok _ => none

/-- The steps of `create_child` that can fail, in their order: the `pipe` for
the status, the `pipe` for each field with the value `REDIRECT_PIPE`, `fork`,
and `execv` in the child; each with its `errno` when it fails. -/
def failing_steps (w : child_world) (child : child_process) : List (Option Nat) :=
  [error_of w.status_pipe,
   if child.stdin_fd = REDIRECT_PIPE then error_of w.stdin_pipe else none,
   if child.stdout_fd = REDIRECT_PIPE then error_of w.stdout_pipe else none,
   if child.stderr_fd = REDIRECT_PIPE then error_of w.stderr_pipe else none,
   error_of w.fork,
   w.status_read]

/-- The `errno` of the first step that fails. -/
def first_failure (steps : List (Option Nat)) : Option Nat :=
  match steps with
  | [] => none
  | some errno :: _ => some errno
  | none :: rest => first_failure rest

/-- A world for the examples: every `pipe` succeeds and `execv` fails in the
child with `ENOENT`. -/
def exec_fails : child_world :=
  ⟨.ok (3, 4), .ok (5, 6), .ok (7, 8), .ok (9, 10), .ok 100, some ENOENT⟩

/-! ## list.c at the level of items: find, delete, copy

The functions `list_find`, `list_delete` and `list_copy` on lists of items in
memory; the names under `Item` tell them from their counterparts on sequences
of data pointers at the beginning of the file. -/

/-- The loop of `list_find` from the item `start` on: the item found, `none`
for `NULL`.  The outer `none` stands for running out of `fuel` or a read
through a pointer to no item. -/
def Item.list_find_loop (m : heap) : Nat → Option Nat → Nat → Option (Option Nat)
  | _, none, _ => some none
  | 0, some _, _ => none
  | fuel + 1, some item, data =>
    match m item with
    | none => none
    | some c =>
      if c.data = data then some (some item) else Item.list_find_loop m fuel c.next data

/-- The function `list_find`. -/
def Item.list_find (m : heap) (fuel : Nat) (l : list) (data : Nat) : Option (Option Nat) :=
  Item.list_find_loop m fuel l.first data

/-- The library function `free` for an item. -/
def free (m : heap) (a : Nat) : heap :=
  fun x => if x = a then none else m x

/-- The statement `if (p != NULL) p->next = next`. -/
def set_next (m : heap) (p : Option Nat) (next : Option Nat) : Option heap :=
  match p with
  | none => some m
  | some p =>
    match m p with
    | none => none
    | some c => some (store m p { c with next := next })

/-- The statement `if (n != NULL) n->previous = previous`. -/
def set_previous (m : heap) (n : Option Nat) (previous : Option Nat) : Option heap :=
  match n with
  | none => some m
  | some n =>
    match m n with
    | none => none
    | some c => some (store m n { c with previous := previous })

/-- The function `list_delete_item`: the item returned, the memory and the
list afterwards; `none` stands for an access through a pointer to no item. -/
def Item.list_delete_item (m : heap) (l : list) (item : Nat) :
    Option (Option Nat × heap × list) :=
  match m item with
  | none => none
  | some c =>
    match set_next m c.previous c.next with
    | none => none
    | some m1 =>
      match m1 item with
      | none => none
      | some c1 =>
        match set_previous m1 c1.next c1.previous with
        | none => none
        | some m2 =>
          match m2 item with
          | none => none
          | some c2 =>
            let l1 : list := if l.first = some item then { l with first := c2.next } else l
            let l2 : list := if l1.last = some item then { l1 with last := c2.previous } else l1
            some (c.next, free m2 item, l2)

/-- The function `list_delete`: the memory and the list afterwards. -/
def Item.list_delete (m : heap) (fuel : Nat) (l : list) (data : Nat) : Option (heap × list) :=
  match Item.list_find m fuel l data with
  | none => none
  | some none => some (m, l)
  | some (some item) =>
    match Item.list_delete_item m l item with
    | none => none
    | some (_, m1, l1) => some (m1, l1)

/-- The loop of `list_free` from the item `start` on. -/
def Item.list_free_loop (m : heap) : Nat → Option Nat → Option heap
  | _, none => some m
  | 0, some _ => none
  | fuel + 1, some item =>
    match m item with
    | none => none
    | some c => Item.list_free_loop (free m item) fuel c.next

/-- The loop of `list_copy` from the item `start` of the list that is copied;
`mallocs` are the results of the calls of `malloc` to come.  The result is the
memory and the new list, `none` for `NULL`. -/
def Item.list_copy_loop (m : heap) :
    Nat → Option Nat → list → List (Option Nat) → Option (heap × Option list)
  | _, none, new_list, _ => some (m, some new_list)
  | 0, some _, _, _ => none
  | fuel + 1, some item, new_list, mallocs =>
    match m item with
    | none => none
    | some c =>
      match list_append m new_list (mallocs.headD none) c.data with
      | none => none
      | some (false, m1, new_list1) =>
        match Item.list_free_loop m1 (fuel + 1) new_list1.first with
        | none => none
        | some m2 => some (m2, none)
      | some (true, m1, new_list1) =>
        Item.list_copy_loop m1 fuel c.next new_list1 mallocs.tail

/-- The function `list_copy`; `list_new_ok` tells whether `list_new`
succeeds. -/
def Item.list_copy (m : heap) (fuel : Nat) (l : list) (list_new_ok : Bool)
    (mallocs : List (Option Nat)) : Option (heap × Option list) :=
  if list_new_ok = false then some (m, none)
  else Item.list_copy_loop m fuel l.first ⟨none, none⟩ mallocs

/-- A memory for the examples: the items at the addresses 1, 2, 3 with the
data 7, 8, 7, linked in this order. -/
def heap_three : heap :=
  store (store (store (fun _ => none) 1 ⟨7, some 2, none⟩) 2 ⟨8, some 3, some 1⟩) 3
    ⟨7, none, some 2⟩

/-! ## tsort.c at the level of items

The function `tsort` on lists of items in memory.  The data of a node item is
the node pointer; the data of an edge item is the address of a `struct edge`
in a second memory. -/

/-- The memory that holds the `struct edge` objects. -/
abbrev edge_heap := Nat → Option (edge Nat)

/-- The library function `free` for a `struct edge`. -/
def free_edge (em : edge_heap) (a : Nat) : edge_heap :=
  fun x => if x = a then none else em x

/-- The results of the allocations of one call of `tsort`: whether `list_new`
succeeds for `sorted_nodes` and for the copy of the nodes, the results of
`malloc` in `list_copy`, and the results of `malloc` in the loop. -/
structure tsort_allocs where
  sorted_nodes_ok : Bool
  zeros_ok : Bool
  copy_mallocs : List (Option Nat)
  mallocs : List (Option Nat)

/-- The loop of `get_zeros` from the item `edge_item` on; `bound` is the fuel
of the loops inside of it. -/
def Item.get_zeros_loop (em : edge_heap) (bound : Nat) :
    Nat → heap → Option Nat → list → Option (heap × list)
  | _, m, none, zeros => some (m, zeros)
  | 0, _, some _, _ => none
  | fuel + 1, m, some edge_item, zeros =>
    match m edge_item with
    | none => none
    | some c =>
      match em c.data with
      | none => none
      | some e =>
        match Item.list_delete m bound zeros e.successor with
        | none => none
        | some (m1, zeros1) =>
          match m1 edge_item with
          | none => none
          | some c1 => Item.get_zeros_loop em bound fuel m1 c1.next zeros1

/-- The function `get_zeros`: the memory and the list of zeros, `none` for
`NULL`. -/
def Item.get_zeros (m : heap) (em : edge_heap) (bound : Nat) (nodes edges : list)
    (list_new_ok : Bool) (copy_mallocs : List (Option Nat)) : Option (heap × Option list) :=
  match Item.list_copy m bound nodes list_new_ok copy_mallocs with
  | none => none
  | some (m1, none) => some (m1, none)
  | some (m1, some zeros) =>
    match Item.get_zeros_loop em bound bound m1 edges.first zeros with
    | none => none
    | some (m2, zeros2) => some (m2, some zeros2)

/-- The loop of `is_zero` from the item `edge_item` on. -/
def Item.is_zero_loop (m : heap) (em : edge_heap) : Nat → Option Nat → Nat → Option Bool
  | _, none, _ => some true
  | 0, some _, _ => none
  | fuel + 1, some edge_item, node =>
    match m edge_item with
    | none => none
    | some c =>
      match em c.data with
      | none => none
      | some e =>
        if e.successor = node then some false
        else Item.is_zero_loop m em fuel c.next node

/-- The function `is_zero`. -/
def Item.is_zero (m : heap) (em : edge_heap) (bound : Nat) (node : Nat) (edges : list) :
    Option Bool :=
  Item.is_zero_loop m em bound edges.first node

/-- The state of `tsort` after a loop: whether the loop ended without a jump
to `error`, the two memories, the lists `zeros`, `sorted_nodes` and `edges`,
and the results of `malloc` that are left. -/
structure tsort_state where
  ok : Bool
  m : heap
  em : edge_heap
  zeros : list
  sorted_nodes : list
  edges : list
  mallocs : List (Option Nat)

/-- The inner loop `list_for_each_manual(edges, edge_item)` of `tsort` for one
`zero`, from the item `edge_item` on. -/
def Item.delete_edges_loop (bound : Nat) (zero : Nat) :
    Nat → tsort_state → Option Nat → Option tsort_state
  | _, s, none => some s
  | 0, _, some _ => none
  | fuel + 1, s, some edge_item =>
    match s.m edge_item with
    | none => none
    | some c =>
      match s.em c.data with
      | none => none
      | some e =>
        if e.predecessor = zero then
          match Item.list_delete_item s.m s.edges edge_item with
          | none => none
          | some (next, m1, edges1) =>
            match Item.is_zero m1 s.em bound e.successor edges1 with
            | none => none
            | some true =>
              match list_append m1 s.zeros (s.mallocs.headD none) e.successor with
              | none => none
              | some (false, m2, zeros2) =>
                some { s with ok := false, m := m2, zeros := zeros2, edges := edges1,
                              mallocs := s.mallocs.tail }
              | some (true, m2, zeros2) =>
                Item.delete_edges_loop bound zero fuel
                  { s with m := m2, em := free_edge s.em c.data, zeros := zeros2,
                           edges := edges1, mallocs := s.mallocs.tail } next
            | some false =>
              Item.delete_edges_loop bound zero fuel
                { s with m := m1, em := free_edge s.em c.data, edges := edges1 } next
        else Item.delete_edges_loop bound zero fuel s c.next

/-- The loop `list_delete_for_each(zeros, zero_item)` of `tsort`, from the
item `zero_item` on. -/
def Item.tsort_loop (bound : Nat) : Nat → tsort_state → Option Nat → Option tsort_state
  | _, s, none => some s
  | 0, _, some _ => none
  | fuel + 1, s, some zero_item =>
    match s.m zero_item with
    | none => none
    | some c =>
      match list_append s.m s.sorted_nodes (s.mallocs.headD none) c.data with
      | none => none
      | some (false, m1, sorted1) =>
        some { s with ok := false, m := m1, sorted_nodes := sorted1,
                      mallocs := s.mallocs.tail }
      | some (true, m1, sorted1) =>
        match Item.delete_edges_loop bound c.data bound
            { s with m := m1, sorted_nodes := sorted1, mallocs := s.mallocs.tail }
            s.edges.first with
        | none => none
        | some s2 =>
          if s2.ok = false then some s2
          else
            match Item.list_delete_item s2.m s2.zeros zero_item with
            | none => none
            | some (next, m3, zeros3) =>
              Item.tsort_loop bound fuel { s2 with m := m3, zeros := zeros3 } next

/-- The function `list_free`: the memory after the items are freed. -/
def Item.list_free (m : heap) (bound : Nat) (l : list) : Option heap :=
  Item.list_free_loop m bound l.first

/-- The function `tsort`: the two memories, the list returned, `none` for
`NULL`, and the list `edges` afterwards.  The outer `none` stands for a loop
that runs out of the fuel `bound` or an access through a pointer to no
object. -/
def Item.tsort (m : heap) (em : edge_heap) (bound : Nat) (nodes edges : list)
    (a : tsort_allocs) : Option (heap × edge_heap × Option list × list) :=
  if a.sorted_nodes_ok = false then some (m, em, none, edges)
  else
    match Item.get_zeros m em bound nodes edges a.zeros_ok a.copy_mallocs with
    | none => none
    | some (m1, none) =>
      match Item.list_free m1 bound ⟨none, none⟩ with
      | none => none
      | some m2 => some (m2, em, none, edges)
    | some (m1, some zeros) =>
      match Item.tsort_loop bound bound ⟨true, m1, em, zeros, ⟨none, none⟩, edges, a.mallocs⟩
          zeros.first with
      | none => none
      | some s =>
        if s.ok = false then
          match Item.list_free s.m bound s.sorted_nodes with
          | none => none
          | some m2 =>
            match Item.list_free m2 bound s.zeros with
            | none => none
            | some m3 => some (m3, s.em, none, s.edges)
        else
          if s.edges.first ≠ none then
            match Item.list_free s.m bound s.sorted_nodes with
            | none => none
            | some m2 =>
              match Item.list_free m2 bound s.zeros with
              | none => none
              | some m3 => some (m3, s.em, none, s.edges)
          else
            match Item.list_free s.m bound s.zeros with
            | none => none
            | some m3 => some (m3, s.em, some s.sorted_nodes, s.edges)

/-- The cells of two lists have no item in common. -/
def separate (A B : List (Nat × Nat)) : Prop :=
  ∀ z, z ∈ A.map Prod.fst → z ∉ B.map Prod.fst

section ListFacts

variable {α : Type}

theorem list_copy_eq (l : List α) : list_copy l = l := by
  unfold list_copy
  have h : ∀ (xs acc : List α),
      xs.foldl (fun new_list data => new_list ++ [data]) acc = acc ++ xs := by
    intro xs
    induction xs with
    | nil => intro acc; simp
    | cons x xs ih => intro acc; simp [ih]
  simpa using h l []

variable [DecidableEq α]

theorem list_delete_eq_erase (l : List α) (data : α) : list_delete l data = l.erase data := by
  induction l with
  | nil => rfl
  | cons x xs ih =>
    by_cases h : x = data
    · simp [list_delete, h]
    · simp [list_delete, h, ih, List.erase_cons_tail]

theorem list_find_iff (l : List α) (data : α) : list_find l data = true ↔ data ∈ l := by
  induction l with
  | nil => simp [list_find]
  | cons x xs ih =>
    by_cases h : x = data
    · simp [list_find, h]
    · have h2 : ¬ data = x := fun h3 => h h3.symm
      simp [list_find, h, h2, ih]

theorem mem_of_mem_list_delete {l : List α} {a data : α} (h : a ∈ list_delete l data) : a ∈ l := by
  rw [list_delete_eq_erase] at h
  exact List.mem_of_mem_erase h

theorem mem_list_delete_of_ne {l : List α} {a data : α} (hne : a ≠ data) (h : a ∈ l) :
    a ∈ list_delete l data := by
  rw [list_delete_eq_erase]
  exact (List.mem_erase_of_ne hne).2 h

theorem nodup_list_delete {l : List α} (data : α) (h : l.Nodup) : (list_delete l data).Nodup := by
  rw [list_delete_eq_erase]
  exact h.erase data

theorem not_mem_list_delete_self {l : List α} (data : α) (h : l.Nodup) :
    data ∉ list_delete l data := by
  rw [list_delete_eq_erase]
  exact h.not_mem_erase

theorem length_list_delete_le (l : List α) (data : α) : (list_delete l data).length ≤ l.length := by
  rw [list_delete_eq_erase]
  exact List.length_erase_le data l

end ListFacts

/-! ## Facts about cycles -/

section CycleFacts

variable {α : Type}

theorem has_cycle_mono {E E' : List (edge α)} (hsub : ∀ e ∈ E', e ∈ E) (h : has_cycle E') :
    has_cycle E := by
  obtain ⟨n, hn⟩ := h
  exact ⟨n, Relation.TransGen.mono (fun a b hab => hsub _ hab) hn⟩

/-- A non-empty edge list in which the predecessor of every edge has an
incoming edge holds a cycle. -/
theorem has_cycle_of_no_source (E : List (edge α)) (hne : E ≠ [])
    (h : ∀ e ∈ E, ∃ e' ∈ E, e'.successor = e.predecessor) : has_cycle E := by
  by_contra hac
  have hirr : ∀ a, ¬ Relation.TransGen (fun a b => edge.mk a b ∈ E) a a :=
    fun a ha => hac ⟨a, ha⟩
  haveI : IsStrictOrder α (Relation.TransGen (fun a b => edge.mk a b ∈ E)) :=
    { irrefl := hirr, trans := fun _ _ _ h1 h2 => h1.trans h2 }
  have hfin : ({p | p ∈ E.map edge.predecessor} : Set α).Finite := List.finite_toSet _
  have hwf := Set.wellFoundedOn_iff.1
    (hfin.wellFoundedOn (r := Relation.TransGen (fun a b => edge.mk a b ∈ E)))
  obtain ⟨e0, he0⟩ := List.exists_mem_of_ne_nil E hne
  have hnonempty : ({p | p ∈ E.map edge.predecessor} : Set α).Nonempty :=
    ⟨e0.predecessor, List.mem_map.2 ⟨e0, he0, rfl⟩⟩
  obtain ⟨m, hm, hmin⟩ := hwf.has_min _ hnonempty
  obtain ⟨e, he, hem⟩ := List.mem_map.1 hm
  obtain ⟨e', he', hs⟩ := h e he
  have hx : e'.predecessor ∈ ({p | p ∈ E.map edge.predecessor} : Set α) :=
    List.mem_map.2 ⟨e', he', rfl⟩
  apply hmin e'.predecessor hx
  refine ⟨Relation.TransGen.single ?_, hx, hm⟩
  rw [← hem, ← hs]
  exact he'

end CycleFacts

/-! ## Facts about tsort.c -/

section TsortFacts

variable {α : Type} [DecidableEq α]

theorem is_zero_iff (node : α) (edges : List (edge α)) :
    is_zero node edges = true ↔ ∀ e ∈ edges, e.successor ≠ node := by
  induction edges with
  | nil => simp [is_zero]
  | cons e rest ih =>
    by_cases h : e.successor = node
    · simp [is_zero, h]
    · simp [is_zero, h, ih]

theorem is_zero_eq_false_iff (node : α) (edges : List (edge α)) :
    is_zero node edges = false ↔ ∃ e ∈ edges, e.successor = node := by
  rw [← Bool.not_eq_true, is_zero_iff]
  push_neg
  rfl

/-- The zeros computed by `get_zeros`, the fold unfolded. -/
theorem get_zeros_foldl (edges : List (edge α)) (zeros : List α) :
    (∀ n, n ∈ edges.foldl (fun zeros e => list_delete zeros e.successor) zeros → n ∈ zeros) ∧
    (∀ n, n ∈ zeros → (∀ e ∈ edges, e.successor ≠ n) →
      n ∈ edges.foldl (fun zeros e => list_delete zeros e.successor) zeros) ∧
    (zeros.Nodup → (edges.foldl (fun zeros e => list_delete zeros e.successor) zeros).Nodup ∧
      ∀ n, n ∈ edges.foldl (fun zeros e => list_delete zeros e.successor) zeros →
        ∀ e ∈ edges, e.successor ≠ n) ∧
    (edges.foldl (fun zeros e => list_delete zeros e.successor) zeros).length ≤ zeros.length := by
  induction edges generalizing zeros with
  | nil => simp
  | cons e rest ih =>
    obtain ⟨h1, h2, h3, h4⟩ := ih (list_delete zeros e.successor)
    simp only [List.foldl_cons]
    refine ⟨fun n hn => mem_of_mem_list_delete (h1 n hn), ?_, ?_, ?_⟩
    · intro n hn hz
      apply h2 n
      · exact mem_list_delete_of_ne (fun h => hz e (List.mem_cons_self _ _) h.symm) hn
      · intro e' he'
        exact hz e' (List.mem_cons_of_mem _ he')
    · intro hnd
      obtain ⟨h5, h6⟩ := h3 (nodup_list_delete _ hnd)
      refine ⟨h5, ?_⟩
      intro n hn e' he'
      rcases List.mem_cons.1 he' with rfl | he'
      · intro heq
        have := h1 n hn
        rw [← heq] at this
        exact not_mem_list_delete_self _ hnd this
      · exact h6 n hn e' he'
    · exact le_trans h4 (length_list_delete_le _ _)

theorem get_zeros_subset (nodes : List α) (edges : List (edge α)) :
    ∀ n, n ∈ get_zeros nodes edges → n ∈ nodes := by
  intro n hn
  have := (get_zeros_foldl edges (list_copy nodes)).1 n hn
  rwa [list_copy_eq] at this

theorem mem_get_zeros (nodes : List α) (edges : List (edge α)) (n : α) (hn : n ∈ nodes)
    (hz : ∀ e ∈ edges, e.successor ≠ n) : n ∈ get_zeros nodes edges := by
  apply (get_zeros_foldl edges (list_copy nodes)).2.1 n _ hz
  rwa [list_copy_eq]

theorem get_zeros_nodup (nodes : List α) (edges : List (edge α)) (h : nodes.Nodup) :
    (get_zeros nodes edges).Nodup ∧
    ∀ n, n ∈ get_zeros nodes edges → ∀ e ∈ edges, e.successor ≠ n := by
  apply (get_zeros_foldl edges (list_copy nodes)).2.2.1
  rwa [list_copy_eq]

theorem get_zeros_length_le (nodes : List α) (edges : List (edge α)) :
    (get_zeros nodes edges).length ≤ nodes.length := by
  have := (get_zeros_foldl edges (list_copy nodes)).2.2.2
  unfold get_zeros
  rwa [list_copy_eq] at this ⊢

/-- The edge list after the inner loop: the edges whose predecessor is `zero`
are gone, the others keep their order. -/
theorem delete_edges_fst (zero : α) (rest kept : List (edge α)) (zeros : List α) :
    (delete_edges zero kept rest zeros).1
      = kept ++ rest.filter (fun e => decide (e.predecessor ≠ zero)) := by
  induction rest generalizing kept zeros with
  | nil => simp [delete_edges]
  | cons e rest ih =>
    by_cases h : e.predecessor = zero
    · by_cases hz : is_zero e.successor (kept ++ rest) = true
      · simp [delete_edges, h, hz, ih]
      · simp [delete_edges, h, hz, ih]
    · simp [delete_edges, h, ih]

/-- The inner loop only appends to `zeros`. -/
theorem delete_edges_snd_append (zero : α) (rest kept : List (edge α)) (front zeros : List α) :
    (delete_edges zero kept rest (front ++ zeros)).2
      = front ++ (delete_edges zero kept rest zeros).2 := by
  induction rest generalizing kept zeros with
  | nil => simp [delete_edges]
  | cons e rest ih =>
    by_cases h : e.predecessor = zero
    · by_cases hz : is_zero e.successor (kept ++ rest) = true
      · simp only [delete_edges, h, hz, if_true]
        rw [List.append_assoc, ih]
      · simp only [delete_edges, h, hz, if_true]
        exact ih _ _
    · simp only [delete_edges, h, if_false]
      exact ih _ _

theorem delete_edges_tail (zero : α) (edges : List (edge α)) (rest : List α) :
    (delete_edges zero [] edges (zero :: rest)).2.tail = (delete_edges zero [] edges rest).2 := by
  have := delete_edges_snd_append zero edges [] [zero] rest
  simp only [List.singleton_append] at this
  rw [this]
  rfl

/-- Induction principle for the inner loop: a property of (edge list, zeros)
that survives each deletion holds at the end. -/
theorem delete_edges_induction (zero : α) (P : List (edge α) → List α → Prop)
    (hadd : ∀ kept e rest zeros, e.predecessor = zero → P (kept ++ e :: rest) zeros →
      is_zero e.successor (kept ++ rest) = true → P (kept ++ rest) (zeros ++ [e.successor]))
    (hskip : ∀ kept e rest zeros, e.predecessor = zero → P (kept ++ e :: rest) zeros →
      is_zero e.successor (kept ++ rest) = false → P (kept ++ rest) zeros)
    (rest kept : List (edge α)) (zeros : List α) (h : P (kept ++ rest) zeros) :
    P (delete_edges zero kept rest zeros).1 (delete_edges zero kept rest zeros).2 := by
  induction rest generalizing kept zeros with
  | nil => simpa [delete_edges] using h
  | cons e rest ih =>
    by_cases hp : e.predecessor = zero
    · by_cases hz : is_zero e.successor (kept ++ rest) = true
      · simp only [delete_edges, hp, hz, if_true]
        exact ih _ _ (hadd kept e rest zeros hp h hz)
      · simp only [delete_edges, hp, hz, if_true]
        exact ih _ _ (hskip kept e rest zeros hp h (by simpa using hz))
    · simp only [delete_edges, hp, if_false]
      apply ih
      simpa using h

/-- Every pass of the inner loop shortens `zeros` plus `edges` by at least the
number of appended zeros. -/
theorem delete_edges_length (zero : α) (rest kept : List (edge α)) (zeros : List α) :
    (delete_edges zero kept rest zeros).2.length + (delete_edges zero kept rest zeros).1.length
      ≤ zeros.length + (kept ++ rest).length := by
  refine delete_edges_induction zero
    (fun E Z => Z.length + E.length ≤ zeros.length + (kept ++ rest).length) ?_ ?_
    rest kept zeros (le_refl _)
  · intro k e r Z _ h _
    simp only [List.length_append, List.length_cons, List.length_nil] at h ⊢
    omega
  · intro k e r Z _ h _
    simp only [List.length_append, List.length_cons] at h ⊢
    omega

/-- The outer loop of `tsort` ends: `zeros.length + edges.length` bounds the
number of its iterations. -/
theorem tsort_loop_isSome (fuel : Nat) :
    ∀ (zeros sorted_nodes : List α) (edges : List (edge α)),
      zeros.length + edges.length ≤ fuel →
      (tsort_loop fuel zeros sorted_nodes edges).isSome = true := by
  induction fuel with
  | zero =>
    intro zeros sorted_nodes edges h
    cases zeros with
    | nil => simp [tsort_loop]
    | cons z rest => simp at h
  | succ fuel ih =>
    intro zeros sorted_nodes edges h
    cases zeros with
    | nil => simp [tsort_loop]
    | cons z rest =>
      simp only [tsort_loop]
      apply ih
      rw [delete_edges_tail]
      have := delete_edges_length z edges [] rest
      rw [delete_edges_fst] at this ⊢
      simp only [List.nil_append, List.length_cons] at this h ⊢
      omega

/-- Termination of `tsort`: it always returns. -/
theorem tsort_returns (nodes : List α) (edges : List (edge α)) :
    ∃ r, tsort nodes edges = some r := by
  have h := tsort_loop_isSome (nodes.length + edges.length) (get_zeros nodes edges) []
    edges (Nat.add_le_add_right (get_zeros_length_le nodes edges) _)
  obtain ⟨⟨s, e⟩, hs⟩ := Option.isSome_iff_exists.1 h
  unfold tsort
  rw [hs]
  by_cases he : e = []
  · refine ⟨⟨some s, e⟩, ?_⟩
    simp [he]
  · refine ⟨⟨none, e⟩, ?_⟩
    simp [he]

theorem tsortInv_init (N : List α) (E0 : List (edge α)) :
    TsortInv N E0 (get_zeros N E0) [] E0 where
  sub_edges := fun _ h => h
  removed := fun _ h => Or.inl h
  covered := by
    intro n hn
    by_cases h : ∃ e ∈ E0, e.successor = n
    · exact Or.inr (Or.inr h)
    · push_neg at h
      exact Or.inr (Or.inl (mem_get_zeros N E0 n hn h))
  sub_nodes := by
    intro n hn
    rcases hn with hn | hn
    · simp at hn
    · exact Or.inl (get_zeros_subset N E0 n hn)
  pending := by simp

theorem tsortOrd_init (N : List α) (E0 : List (edge α)) (hN : N.Nodup) :
    TsortOrd E0 (get_zeros N E0) [] E0 where
  zero := by
    intro n hn
    rcases hn with hn | hn
    · simp at hn
    · exact (get_zeros_nodup N E0 hN).2 n hn
  nodup := by simpa using (get_zeros_nodup N E0 hN).1
  order := by simp

theorem tsortInv_step {N : List α} {E0 : List (edge α)} {z : α} {rest S : List α}
    {E : List (edge α)} (h : TsortInv N E0 (z :: rest) S E) :
    TsortInv N E0 (delete_edges z [] E rest).2 (S ++ [z]) (delete_edges z [] E rest).1 := by
  have hP := delete_edges_induction z
    (fun E' Z' => (∀ n ∈ N, n ∈ S ++ [z] ∨ n ∈ Z' ∨ ∃ e ∈ E', e.successor = n) ∧
      (∀ n ∈ Z', n ∈ rest ∨ ∃ e ∈ E, e.successor = n) ∧ (∀ e ∈ E', e ∈ E))
    ?_ ?_ E [] rest ?_
  · obtain ⟨h1, h2, _⟩ := hP
    have hfst := delete_edges_fst z E [] rest
    simp only [List.nil_append] at hfst
    refine ⟨?_, ?_, h1, ?_, ?_⟩
    · intro e he
      rw [hfst] at he
      exact h.sub_edges e (List.mem_filter.1 he).1
    · intro e he
      rcases h.removed e he with h3 | h3
      · by_cases hp : e.predecessor = z
        · right; simp [hp]
        · left
          rw [hfst]
          exact List.mem_filter.2 ⟨h3, by simpa using hp⟩
      · right
        exact List.mem_append_left _ h3
    · intro n hn
      rcases hn with hn | hn
      · rcases List.mem_append.1 hn with hn | hn
        · exact h.sub_nodes n (Or.inl hn)
        · exact h.sub_nodes n (Or.inr (by simp at hn; simp [hn]))
      · rcases h2 n hn with h3 | ⟨e, he, h3⟩
        · exact h.sub_nodes n (Or.inr (List.mem_cons_of_mem _ h3))
        · exact Or.inr ⟨e, h.sub_edges e he, h3⟩
    · intro e he
      rw [hfst] at he
      obtain ⟨he1, he2⟩ := List.mem_filter.1 he
      intro hmem
      rcases List.mem_append.1 hmem with h3 | h3
      · exact h.pending e he1 h3
      · simp at h3 he2
        exact he2 h3
  · intro k e r Z hp ⟨h1, h2, h3⟩ hz
    refine ⟨?_, ?_, ?_⟩
    · intro n hn
      rcases h1 n hn with h4 | h4 | ⟨e', he', h4⟩
      · exact Or.inl h4
      · exact Or.inr (Or.inl (List.mem_append_left _ h4))
      · rcases List.mem_append.1 he' with h5 | h5
        · exact Or.inr (Or.inr ⟨e', List.mem_append_left _ h5, h4⟩)
        · rcases List.mem_cons.1 h5 with h6 | h6
          · subst h6
            exact Or.inr (Or.inl (by simp [h4]))
          · exact Or.inr (Or.inr ⟨e', List.mem_append_right _ h6, h4⟩)
    · intro n hn
      rcases List.mem_append.1 hn with h4 | h4
      · exact h2 n h4
      · simp at h4
        exact Or.inr ⟨e, h3 e (by simp), h4.symm⟩
    · intro e' he'
      apply h3
      rcases List.mem_append.1 he' with h5 | h5
      · exact List.mem_append_left _ h5
      · exact List.mem_append_right _ (List.mem_cons_of_mem _ h5)
  · intro k e r Z hp ⟨h1, h2, h3⟩ hz
    refine ⟨?_, h2, ?_⟩
    · intro n hn
      rcases h1 n hn with h4 | h4 | ⟨e', he', h4⟩
      · exact Or.inl h4
      · exact Or.inr (Or.inl h4)
      · rcases List.mem_append.1 he' with h5 | h5
        · exact Or.inr (Or.inr ⟨e', List.mem_append_left _ h5, h4⟩)
        · rcases List.mem_cons.1 h5 with h6 | h6
          · subst h6
            rw [h4] at hz
            exact Or.inr (Or.inr ((is_zero_eq_false_iff n _).1 hz))
          · exact Or.inr (Or.inr ⟨e', List.mem_append_right _ h6, h4⟩)
    · intro e' he'
      apply h3
      rcases List.mem_append.1 he' with h5 | h5
      · exact List.mem_append_left _ h5
      · exact List.mem_append_right _ (List.mem_cons_of_mem _ h5)
  · refine ⟨?_, fun n hn => Or.inl hn, fun e he => by simpa using he⟩
    intro n hn
    rcases h.covered n hn with h4 | h4 | h4
    · exact Or.inl (List.mem_append_left _ h4)
    · rcases List.mem_cons.1 h4 with h5 | h5
      · exact Or.inl (by simp [h5])
      · exact Or.inr (Or.inl h5)
    · exact Or.inr (Or.inr (by simpa using h4))

theorem tsortOrd_step {N : List α} {E0 : List (edge α)} {z : α} {rest S : List α}
    {E : List (edge α)} (h : TsortInv N E0 (z :: rest) S E) (ho : TsortOrd E0 (z :: rest) S E) :
    TsortOrd E0 (delete_edges z [] E rest).2 (S ++ [z]) (delete_edges z [] E rest).1 := by
  have hzS : z ∉ S := by
    intro hz
    have := ho.nodup
    rw [List.nodup_append] at this
    exact this.2.2 hz (List.mem_cons_self _ _)
  have hQ := delete_edges_induction z
    (fun E' Z' => (∀ n, n ∈ S ++ [z] ∨ n ∈ Z' → ∀ e ∈ E', e.successor ≠ n) ∧
      ((S ++ [z]) ++ Z').Nodup)
    ?_ ?_ E [] rest ?_
  · refine ⟨hQ.1, hQ.2, ?_⟩
    intro e he hs
    by_cases hsS : e.successor ∈ S
    · obtain ⟨h1, h2⟩ := ho.order e he hsS
      refine ⟨List.mem_append_left _ h1, ?_⟩
      rw [List.indexOf_append_of_mem h1, List.indexOf_append_of_mem hsS]
      exact h2
    · have hsz : e.successor = z := by
        rcases List.mem_append.1 hs with h1 | h1
        · exact absurd h1 hsS
        · simpa using h1
      have hnot : e ∉ E := fun h1 => ho.zero z (Or.inr (List.mem_cons_self _ _)) e h1 hsz
      have hp : e.predecessor ∈ S := by
        rcases h.removed e he with h1 | h1
        · exact absurd h1 hnot
        · exact h1
      refine ⟨List.mem_append_left _ hp, ?_⟩
      rw [List.indexOf_append_of_mem hp, hsz, List.indexOf_append_of_not_mem hzS]
      have := List.indexOf_lt_length.2 hp
      omega
  · intro k e r Z hp ⟨h1, h2⟩ hz
    have hsub : ∀ e' ∈ k ++ r, e' ∈ k ++ e :: r := by
      intro e' he'
      rcases List.mem_append.1 he' with h5 | h5
      · exact List.mem_append_left _ h5
      · exact List.mem_append_right _ (List.mem_cons_of_mem _ h5)
    have hnew : e.successor ∉ (S ++ [z]) ++ Z := by
      intro hmem
      have hor : e.successor ∈ S ++ [z] ∨ e.successor ∈ Z := List.mem_append.1 hmem
      exact h1 _ hor e (by simp) rfl
    refine ⟨?_, ?_⟩
    · intro n hn e' he'
      rcases hn with hn | hn
      · exact h1 n (Or.inl hn) e' (hsub e' he')
      · rcases List.mem_append.1 hn with hn | hn
        · exact h1 n (Or.inr hn) e' (hsub e' he')
        · have hn' : n = e.successor := by simpa using hn
          rw [hn']
          exact (is_zero_iff _ _).1 hz e' he'
    · rw [← List.append_assoc]
      exact List.Nodup.append h2 (List.nodup_singleton _) (by simpa using hnew)
  · intro k e r Z hp ⟨h1, h2⟩ hz
    refine ⟨?_, h2⟩
    intro n hn e' he'
    apply h1 n hn e'
    rcases List.mem_append.1 he' with h5 | h5
    · exact List.mem_append_left _ h5
    · exact List.mem_append_right _ (List.mem_cons_of_mem _ h5)
  · refine ⟨?_, ?_⟩
    · intro n hn e he
      apply ho.zero n _ e (by simpa using he)
      rcases hn with hn | hn
      · rcases List.mem_append.1 hn with hn | hn
        · exact Or.inl hn
        · exact Or.inr (by simp at hn; simp [hn])
      · exact Or.inr (List.mem_cons_of_mem _ hn)
    · simpa using ho.nodup

/-- The invariants hold when the outer loop of `tsort` ends. -/
theorem tsort_loop_inv (N : List α) (E0 : List (edge α)) (fuel : Nat) :
    ∀ (Z S : List α) (E : List (edge α)) (S' : List α) (E' : List (edge α)),
      TsortInv N E0 Z S E → tsort_loop fuel Z S E = some (S', E') →
      TsortInv N E0 [] S' E' ∧ (TsortOrd E0 Z S E → TsortOrd E0 [] S' E') := by
  induction fuel with
  | zero =>
    intro Z S E S' E' h hloop
    cases Z with
    | nil =>
      simp only [tsort_loop, Option.some.injEq, Prod.mk.injEq] at hloop
      obtain ⟨rfl, rfl⟩ := hloop
      exact ⟨h, fun ho => ho⟩
    | cons z rest => simp [tsort_loop] at hloop
  | succ fuel ih =>
    intro Z S E S' E' h hloop
    cases Z with
    | nil =>
      simp only [tsort_loop, Option.some.injEq, Prod.mk.injEq] at hloop
      obtain ⟨rfl, rfl⟩ := hloop
      exact ⟨h, fun ho => ho⟩
    | cons z rest =>
      simp only [tsort_loop] at hloop
      rw [delete_edges_tail, delete_edges_fst, ← delete_edges_fst z E [] rest] at hloop
      obtain ⟨h1, h2⟩ := ih _ _ _ S' E' (tsortInv_step h) hloop
      exact ⟨h1, fun ho => h2 (tsortOrd_step h ho)⟩

/-- What `tsort` returns, in terms of its outer loop. -/
theorem tsort_eq_some {nodes : List α} {edges : List (edge α)} {r : tsort_result α}
    (h : tsort nodes edges = some r) :
    ∃ S' E', tsort_loop (nodes.length + edges.length) (get_zeros nodes edges) [] edges
        = some (S', E') ∧ r.edges = E' ∧
      ((E' = [] ∧ r.sorted_nodes = some S') ∨ (E' ≠ [] ∧ r.sorted_nodes = none)) := by
  unfold tsort at h
  cases hl : tsort_loop (nodes.length + edges.length) (get_zeros nodes edges) [] edges with
  | none => simp [hl] at h
  | some p =>
    obtain ⟨S', E'⟩ := p
    refine ⟨S', E', rfl, ?_⟩
    rw [hl] at h
    by_cases he : E' = []
    · simp only [he, if_true, Option.some.injEq] at h
      subst h
      exact ⟨he.symm, Or.inl ⟨he, by simp [he]⟩⟩
    · simp only [he, if_false, Option.some.injEq] at h
      subst h
      exact ⟨rfl, Or.inr ⟨he, rfl⟩⟩

/-- The invariants at the return of `tsort`. -/
theorem tsort_final {nodes : List α} {edges : List (edge α)} {r : tsort_result α}
    (h : tsort nodes edges = some r) :
    ∃ S', TsortInv nodes edges [] S' r.edges ∧ (nodes.Nodup → TsortOrd edges [] S' r.edges) ∧
      ((r.edges = [] ∧ r.sorted_nodes = some S') ∨ (r.edges ≠ [] ∧ r.sorted_nodes = none)) := by
  obtain ⟨S', E', hl, he, hr⟩ := tsort_eq_some h
  obtain ⟨h1, h2⟩ := tsort_loop_inv nodes edges _ _ _ _ S' E' (tsortInv_init nodes edges) hl
  rw [he]
  exact ⟨S', h1, fun hN => h2 (tsortOrd_init nodes edges hN), hr⟩

/-- Along a path of edges the position in a topological order grows. -/
theorem index_lt_of_transGen {E : List (edge α)} {S : List α}
    (hord : ∀ e ∈ E, e.predecessor ∈ S ∧ e.successor ∈ S ∧
      S.indexOf e.predecessor < S.indexOf e.successor)
    {a b : α} (h : Relation.TransGen (fun a b => edge.mk a b ∈ E) a b) :
    S.indexOf a < S.indexOf b := by
  induction h with
  | single h1 => exact (hord _ h1).2.2
  | tail _ h2 ih => exact lt_trans ih (hord _ h2).2.2

/-- On success the output of `tsort` is duplicate-free and every edge goes
forward in it. -/
theorem tsort_sorted_of_success {N : List α} {E : List (edge α)} (hN : N.Nodup)
    (hE : ∀ e ∈ E, e.predecessor ∈ N ∧ e.successor ∈ N) {r : tsort_result α}
    (h : tsort N E = some r) {sorted : List α} (hs : r.sorted_nodes = some sorted) :
    sorted.Nodup ∧ ∀ e ∈ E, e.predecessor ∈ sorted ∧ e.successor ∈ sorted ∧
      sorted.indexOf e.predecessor < sorted.indexOf e.successor := by
  obtain ⟨S', hinv, hord, hr⟩ := tsort_final h
  rcases hr with ⟨he, hs'⟩ | ⟨_, hs'⟩
  · rw [hs] at hs'
    obtain rfl : sorted = S' := Option.some.inj hs'
    have ho := hord hN
    refine ⟨by simpa using ho.nodup, ?_⟩
    intro e hmem
    have hsucc : e.successor ∈ sorted := by
      rcases hinv.covered _ (hE e hmem).2 with h1 | h1 | ⟨e', he', _⟩
      · exact h1
      · simp at h1
      · rw [he] at he'
        simp at he'
    obtain ⟨h1, h2⟩ := ho.order e hmem hsucc
    exact ⟨h1, hsucc, h2⟩
  · rw [hs] at hs'
    simp at hs'

/-- When edges are left, the graph has a cycle. -/
theorem has_cycle_of_edges_left {N : List α} {E : List (edge α)}
    (hE : ∀ e ∈ E, e.predecessor ∈ N ∧ e.successor ∈ N) {r : tsort_result α}
    (h : tsort N E = some r) (hne : r.edges ≠ []) : has_cycle E := by
  obtain ⟨S', hinv, _, _⟩ := tsort_final h
  apply has_cycle_mono hinv.sub_edges
  apply has_cycle_of_no_source _ hne
  intro e he
  rcases hinv.covered _ (hE e (hinv.sub_edges e he)).1 with h1 | h1 | h1
  · exact absurd h1 (hinv.pending e he)
  · simp at h1
  · exact h1

end TsortFacts

/-! ## Facts about plugin.c and plugins.c -/

section PluginFacts

theorem after_last_slash_of_not_mem (l : List Char) (h : '/' ∉ l) : after_last_slash l = l := by
  cases l with
  | nil => rfl
  | cons c cs =>
    have h1 : '/' ∉ cs := fun hm => h (List.mem_cons_of_mem _ hm)
    have h2 : ¬ c = '/' := fun hc => h (by simp [hc])
    simp [after_last_slash, h1, h2]

theorem get_plugin_some {plugins : List plugin} {name : String} {q : plugin}
    (h : get_plugin plugins name = some q) : q ∈ plugins ∧ q.name = name := by
  induction plugins with
  | nil => simp [get_plugin] at h
  | cons p rest ih =>
    by_cases hn : name = p.name
    · simp only [get_plugin, hn, if_true, Option.some.injEq] at h
      subst h
      exact ⟨List.mem_cons_self _ _, hn.symm⟩
    · simp only [get_plugin, hn, if_false] at h
      exact ⟨List.mem_cons_of_mem _ (ih h).1, (ih h).2⟩

theorem get_plugin_eq_none_iff (plugins : List plugin) (name : String) :
    get_plugin plugins name = none ↔ ∀ q ∈ plugins, q.name ≠ name := by
  induction plugins with
  | nil => simp [get_plugin]
  | cons p rest ih =>
    by_cases hn : name = p.name
    · simp [get_plugin, hn]
    · have hn2 : ¬ p.name = name := fun h => hn h.symm
      simp [get_plugin, hn, hn2, ih]

theorem get_plugin_isSome_iff (plugins : List plugin) (name : String) :
    (get_plugin plugins name).isSome = true ↔ ∃ q ∈ plugins, q.name = name := by
  rw [Option.isSome_iff_ne_none, Ne, get_plugin_eq_none_iff]
  push_neg
  rfl

theorem get_plugin_append {plugins : List plugin} {name : String} {q : plugin}
    (h : get_plugin plugins name = some q) (more : List plugin) :
    get_plugin (plugins ++ more) name = some q := by
  induction plugins with
  | nil => simp [get_plugin] at h
  | cons p rest ih =>
    by_cases hn : name = p.name
    · simpa [get_plugin, hn] using h
    · simp only [get_plugin, hn, if_false, List.cons_append] at h ⊢
      exact ih h

/-- With pairwise distinct names `get_plugin` finds each plugin of the list
under its name. -/
theorem get_plugin_of_mem {plugins : List plugin} (hnd : (plugins.map plugin.name).Nodup)
    {q : plugin} (hq : q ∈ plugins) : get_plugin plugins q.name = some q := by
  induction plugins with
  | nil => simp at hq
  | cons p rest ih =>
    rw [List.map_cons, List.nodup_cons] at hnd
    rcases List.mem_cons.1 hq with rfl | hq
    · simp [get_plugin]
    · have hne : ¬ q.name = p.name := by
        intro h
        exact hnd.1 (h ▸ List.mem_map_of_mem _ hq)
      simp only [get_plugin, hne, if_false]
      exact ih hnd.2 hq

theorem new_plugin_ok {b : backend} {addr : Nat} {name : String} {type : plugin_type}
    {p : plugin} (h : new_plugin b addr name type = .ok p) :
    p.addr = addr ∧ p.name = String.mk (after_last_slash name.data) ∧ p.save_disabled = false := by
  unfold new_plugin at h
  cases type <;> simp only at h
  · cases hi : b.init_module (String.mk (after_last_slash name.data)) with
    | error e => simp [hi] at h
    | ok d =>
      simp only [hi, Except.ok.injEq] at h
      subst h
      exact ⟨rfl, rfl, rfl⟩
  · cases hi : b.init_script (String.mk (after_last_slash name.data)) with
    | error e => simp [hi] at h
    | ok d =>
      simp only [hi, Except.ok.injEq] at h
      subst h
      exact ⟨rfl, rfl, rfl⟩

theorem new_plugin_name_of_no_slash {b : backend} {addr : Nat} {name : String}
    {type : plugin_type} {p : plugin} (h : new_plugin b addr name type = .ok p)
    (hs : '/' ∉ name.data) : p.name = name := by
  rw [(new_plugin_ok h).2.1, after_last_slash_of_not_mem _ hs]

/-- The ways `__load_plugin` returns. -/
theorem load_plugin_cases (b : backend) (plugins : List plugin) (name : String) :
    (∃ p, get_plugin plugins name = some p ∧ __load_plugin b plugins name = (.ok p, plugins)) ∨
    (get_plugin plugins name = none ∧
      ((∃ p type, new_plugin b (fresh_addr plugins) name type = .ok p ∧
          __load_plugin b plugins name = (.ok p, plugins ++ [p])) ∨
       (∃ errno, __load_plugin b plugins name = (.error errno, plugins)))) := by
  unfold __load_plugin
  cases hg : get_plugin plugins name with
  | some p => exact Or.inl ⟨p, rfl, rfl⟩
  | none =>
    refine Or.inr ⟨rfl, ?_⟩
    cases hm : new_plugin b (fresh_addr plugins) name .module with
    | ok p => exact Or.inl ⟨p, .module, hm, rfl⟩
    | error errno =>
      by_cases he : errno = ENOENT
      · cases hs : new_plugin b (fresh_addr plugins) name .script with
        | ok p => exact Or.inl ⟨p, .script, hs, by simp [he]⟩
        | error errno2 => exact Or.inr ⟨errno2, by simp [he]⟩
      · exact Or.inr ⟨errno, by simp [he]⟩

/-- A successful `__load_plugin` only appends, returns a plugin of the list,
and for a name without slash a plugin of this name. -/
theorem load_plugin_ok {b : backend} {plugins plugins1 : List plugin} {name : String}
    {q : plugin} (h : __load_plugin b plugins name = (.ok q, plugins1)) :
    (∃ more, plugins1 = plugins ++ more) ∧ q ∈ plugins1 ∧ ('/' ∉ name.data → q.name = name) := by
  rcases load_plugin_cases b plugins name with ⟨p, hg, hl⟩ | ⟨_, ⟨p, type, hn, hl⟩ | ⟨errno, hl⟩⟩
  · rw [hl] at h
    simp only [Prod.mk.injEq, Except.ok.injEq] at h
    obtain ⟨rfl, rfl⟩ := h
    exact ⟨⟨[], by simp⟩, (get_plugin_some hg).1, fun _ => (get_plugin_some hg).2⟩
  · rw [hl] at h
    simp only [Prod.mk.injEq, Except.ok.injEq] at h
    obtain ⟨rfl, rfl⟩ := h
    exact ⟨⟨[p], rfl⟩, by simp, new_plugin_name_of_no_slash hn⟩
  · rw [hl] at h
    simp at h

theorem load_plugin_error {b : backend} {plugins plugins1 : List plugin} {name : String}
    {errno : Nat} (h : __load_plugin b plugins name = (.error errno, plugins1)) :
    plugins1 = plugins := by
  rcases load_plugin_cases b plugins name with ⟨p, hg, hl⟩ | ⟨_, ⟨p, type, hn, hl⟩ | ⟨errno, hl⟩⟩
  · rw [hl] at h; simp at h
  · rw [hl] at h; simp at h
  · rw [hl] at h
    simp only [Prod.mk.injEq] at h
    exact h.2.symm

theorem requirement_met_mono {plugins required_plugins : List plugin} {d : String}
    (h : requirement_met plugins required_plugins d) (more required1 : List plugin)
    (hsub : ∀ q ∈ required_plugins, q ∈ required1) :
    requirement_met (plugins ++ more) required1 d := by
  obtain ⟨q, h1, h2, h3⟩ := h
  exact ⟨q, List.mem_append_left _ h1, hsub q h2, h3⟩

theorem load_requires_ok (b : backend) (ds : List String) :
    ∀ (plugins required_plugins plugins1 required1 : List plugin),
      load_requires b ds plugins required_plugins = (.ok required1, plugins1) →
      (∃ more, plugins1 = plugins ++ more) ∧ (∀ q ∈ required_plugins, q ∈ required1) ∧
      (∀ d ∈ ds, requirement_met plugins1 required1 d) ∧
      ((∀ d ∈ ds, (get_plugin plugins d).isSome = true) → plugins1 = plugins) := by
  induction ds with
  | nil =>
    intro plugins required_plugins plugins1 required1 h
    simp only [load_requires, Prod.mk.injEq, Except.ok.injEq] at h
    obtain ⟨rfl, rfl⟩ := h
    exact ⟨⟨[], by simp⟩, fun _ hq => hq, by simp, fun _ => rfl⟩
  | cons d rest ih =>
    intro plugins required_plugins plugins1 required1 h
    simp only [load_requires] at h
    cases hl : __load_plugin b plugins d with
    | mk res plugins2 =>
      cases res with
      | error errno => simp [hl] at h
      | ok q =>
        simp only [hl] at h
        obtain ⟨⟨more1, hm1⟩, hq, hname⟩ := load_plugin_ok hl
        obtain ⟨⟨more2, hm2⟩, hsub, hmet, hsame⟩ := ih _ _ _ _ h
        refine ⟨⟨more1 ++ more2, by rw [hm2, hm1, List.append_assoc]⟩, ?_, ?_, ?_⟩
        · intro x hx
          exact hsub x (List.mem_append_left _ hx)
        · intro d1 hd1
          rcases List.mem_cons.1 hd1 with rfl | hd1
          · rw [hm2]
            exact ⟨q, List.mem_append_left _ hq, hsub q (by simp), hname⟩
          · exact hmet d1 hd1
        · intro hall
          have hd := hall d (List.mem_cons_self _ _)
          obtain ⟨p, hp⟩ := Option.isSome_iff_exists.1 hd
          rcases load_plugin_cases b plugins d with ⟨p1, hg, hl1⟩ | ⟨hg, _⟩
          · rw [hl1] at hl
            simp only [Prod.mk.injEq] at hl
            rw [← hl.2] at hsame
            exact hsame (fun d1 hd1 => hall d1 (List.mem_cons_of_mem _ hd1))
          · rw [hg] at hp
            simp at hp

theorem load_requires_error (b : backend) (ds : List String) :
    ∀ (plugins required_plugins plugins1 : List plugin) (errno : Nat),
      load_requires b ds plugins required_plugins = (.error errno, plugins1) →
      ∃ more, plugins1 = plugins ++ more := by
  induction ds with
  | nil =>
    intro plugins required_plugins plugins1 errno h
    simp [load_requires] at h
  | cons d rest ih =>
    intro plugins required_plugins plugins1 errno h
    simp only [load_requires] at h
    cases hl : __load_plugin b plugins d with
    | mk res plugins2 =>
      cases res with
      | error errno2 =>
        simp only [hl, Prod.mk.injEq] at h
        rw [← h.2, load_plugin_error hl]
        exact ⟨[], by simp⟩
      | ok q =>
        simp only [hl] at h
        obtain ⟨⟨more1, hm1⟩, _, _⟩ := load_plugin_ok hl
        obtain ⟨more2, hm2⟩ := ih _ _ _ _ h
        exact ⟨more1 ++ more2, by rw [hm2, hm1, List.append_assoc]⟩

theorem getElem?_append_length (visited rest : List plugin) :
    (visited ++ rest)[visited.length]? = rest.head? := by
  induction visited with
  | nil => cases rest <;> simp
  | cons v vs ih => simpa using ih

/-- The first pass: when it ends without failure, the list has only grown, and
every `requires` name of every plugin of the list is met. -/
theorem load_required_plugins_ok (b : backend) (fuel : Nat) :
    ∀ (visited rest required_plugins plugins1 required1 : List plugin),
      load_required_plugins b fuel visited.length (visited ++ rest) required_plugins
        = some (.ok required1, plugins1) →
      (∀ p ∈ visited, ∀ d ∈ p.dependencies.requires,
        requirement_met (visited ++ rest) required_plugins d) →
      (∃ more, plugins1 = visited ++ rest ++ more) ∧
      (∀ q ∈ required_plugins, q ∈ required1) ∧
      (∀ p ∈ plugins1, ∀ d ∈ p.dependencies.requires, requirement_met plugins1 required1 d) := by
  induction fuel with
  | zero =>
    intro visited rest required_plugins plugins1 required1 h hv
    cases rest with
    | nil =>
      simp only [load_required_plugins, getElem?_append_length, List.head?_nil, Option.some.injEq,
        Prod.mk.injEq, Except.ok.injEq] at h
      obtain ⟨rfl, rfl⟩ := h
      exact ⟨⟨[], by simp⟩, fun _ hq => hq, by simpa using hv⟩
    | cons p rest => simp [load_required_plugins, getElem?_append_length] at h
  | succ fuel ih =>
    intro visited rest required_plugins plugins1 required1 h hv
    cases rest with
    | nil =>
      simp only [load_required_plugins, getElem?_append_length, List.head?_nil, Option.some.injEq,
        Prod.mk.injEq, Except.ok.injEq] at h
      obtain ⟨rfl, rfl⟩ := h
      exact ⟨⟨[], by simp⟩, fun _ hq => hq, by simpa using hv⟩
    | cons p rest =>
      simp only [load_required_plugins, getElem?_append_length, List.head?_cons] at h
      cases hl : load_requires b p.dependencies.requires (visited ++ p :: rest) required_plugins with
      | mk res plugins2 =>
        cases res with
        | error errno => simp [hl] at h
        | ok required2 =>
          simp only [hl] at h
          obtain ⟨⟨more, hm⟩, hsub, hmet, _⟩ := load_requires_ok b _ _ _ _ _ hl
          have hsplit : plugins2 = (visited ++ [p]) ++ (rest ++ more) := by
            rw [hm]; simp
          have hlen : visited.length + 1 = (visited ++ [p]).length := by simp
          rw [hsplit, hlen] at h
          have hv2 : ∀ p1 ∈ visited ++ [p], ∀ d ∈ p1.dependencies.requires,
              requirement_met ((visited ++ [p]) ++ (rest ++ more)) required2 d := by
            intro p1 hp1 d hd
            rcases List.mem_append.1 hp1 with hp1 | hp1
            · have := requirement_met_mono (hv p1 hp1 d hd) more required2 hsub
              rw [← hsplit, hm]
              exact this
            · have hpp : p1 = p := by simpa using hp1
              rw [hpp] at hd
              rw [← hsplit]
              exact hmet d hd
          obtain ⟨⟨more2, hm2⟩, hsub2, hall⟩ := ih _ _ _ _ _ h hv2
          refine ⟨⟨more ++ more2, ?_⟩, fun q hq => hsub2 q (hsub q hq), hall⟩
          rw [hm2]; simp

theorem load_requires_noop (b : backend) (ds : List String) (plugins : List plugin) :
    ∀ (required_plugins : List plugin), (∀ d ∈ ds, (get_plugin plugins d).isSome = true) →
      ∃ required1, load_requires b ds plugins required_plugins = (.ok required1, plugins) := by
  induction ds with
  | nil => intro required_plugins _; exact ⟨required_plugins, rfl⟩
  | cons d rest ih =>
    intro required_plugins hall
    obtain ⟨p, hp⟩ := Option.isSome_iff_exists.1 (hall d (List.mem_cons_self _ _))
    rcases load_plugin_cases b plugins d with ⟨p1, _, hl1⟩ | ⟨hg, _⟩
    · obtain ⟨required1, h1⟩ := ih (required_plugins ++ [p1])
        (fun d1 hd1 => hall d1 (List.mem_cons_of_mem _ hd1))
      exact ⟨required1, by simp only [load_requires, hl1]; exact h1⟩
    · rw [hg] at hp
      simp at hp

/-- The first pass ends and loads nothing when every `requires` name of every
plugin still to visit is loaded already. -/
theorem load_required_plugins_noop (b : backend) (fuel : Nat) :
    ∀ (visited rest required_plugins : List plugin), rest.length ≤ fuel →
      (∀ p ∈ rest, ∀ d ∈ p.dependencies.requires,
        (get_plugin (visited ++ rest) d).isSome = true) →
      ∃ required1, load_required_plugins b fuel visited.length (visited ++ rest) required_plugins
        = some (.ok required1, visited ++ rest) := by
  induction fuel with
  | zero =>
    intro visited rest required_plugins hlen _
    cases rest with
    | nil => exact ⟨required_plugins, by simp [load_required_plugins, getElem?_append_length]⟩
    | cons p rest => simp at hlen
  | succ fuel ih =>
    intro visited rest required_plugins hlen hall
    cases rest with
    | nil => exact ⟨required_plugins, by simp [load_required_plugins, getElem?_append_length]⟩
    | cons p rest =>
      obtain ⟨required2, h2⟩ := load_requires_noop b p.dependencies.requires
        (visited ++ p :: rest) required_plugins (hall p (List.mem_cons_self _ _))
      have hsplit : visited ++ p :: rest = (visited ++ [p]) ++ rest := by simp
      have hlen2 : visited.length + 1 = (visited ++ [p]).length := by simp
      obtain ⟨required1, h1⟩ := ih (visited ++ [p]) rest required2
        (by simp at hlen; omega)
        (by
          intro p1 hp1 d hd
          rw [← hsplit]
          exact hall p1 (List.mem_cons_of_mem _ hp1) d hd)
      refine ⟨required1, ?_⟩
      simp only [load_required_plugins, getElem?_append_length, List.head?_cons, h2]
      rw [hlen2, hsplit]
      exact h1

theorem find_needs_some (plugins : List plugin) (ds : List String) :
    ∀ (required_plugins required1 : List plugin),
      find_needs plugins ds required_plugins = some required1 →
      (∀ q ∈ required_plugins, q ∈ required1) ∧
      (∀ d ∈ ds, ∃ q, get_plugin plugins d = some q ∧ q ∈ required1) := by
  induction ds with
  | nil =>
    intro required_plugins required1 h
    simp only [find_needs, Option.some.injEq] at h
    subst h
    exact ⟨fun _ hq => hq, by simp⟩
  | cons d rest ih =>
    intro required_plugins required1 h
    simp only [find_needs] at h
    cases hg : get_plugin plugins d with
    | none => simp [hg] at h
    | some q =>
      simp only [hg] at h
      obtain ⟨h1, h2⟩ := ih _ _ h
      refine ⟨fun x hx => h1 x (List.mem_append_left _ hx), ?_⟩
      intro d1 hd1
      rcases List.mem_cons.1 hd1 with rfl | hd1
      · exact ⟨q, hg, h1 q (by simp)⟩
      · exact h2 d1 hd1

theorem find_needs_of_loaded (plugins : List plugin) (ds : List String) :
    ∀ (required_plugins : List plugin), (∀ d ∈ ds, (get_plugin plugins d).isSome = true) →
      ∃ required1, find_needs plugins ds required_plugins = some required1 := by
  induction ds with
  | nil => intro required_plugins _; exact ⟨required_plugins, rfl⟩
  | cons d rest ih =>
    intro required_plugins hall
    obtain ⟨q, hq⟩ := Option.isSome_iff_exists.1 (hall d (List.mem_cons_self _ _))
    obtain ⟨required1, h1⟩ := ih (required_plugins ++ [q])
      (fun d1 hd1 => hall d1 (List.mem_cons_of_mem _ hd1))
    exact ⟨required1, by simp only [find_needs, hq]; exact h1⟩

/-- The second pass: when it succeeds, every `needs` name of every visited
plugin is loaded and the plugin found is in `required_plugins`. -/
theorem check_needs_some (plugins : List plugin) (items : List plugin) :
    ∀ (required_plugins required1 : List plugin),
      check_needs plugins items required_plugins = some required1 →
      (∀ q ∈ required_plugins, q ∈ required1) ∧
      (∀ p ∈ items, ∀ d ∈ p.dependencies.needs,
        ∃ q, get_plugin plugins d = some q ∧ q ∈ required1) := by
  induction items with
  | nil =>
    intro required_plugins required1 h
    simp only [check_needs, Option.some.injEq] at h
    subst h
    exact ⟨fun _ hq => hq, by simp⟩
  | cons p rest ih =>
    intro required_plugins required1 h
    simp only [check_needs] at h
    cases hf : find_needs plugins p.dependencies.needs required_plugins with
    | none => simp [hf] at h
    | some required2 =>
      simp only [hf] at h
      obtain ⟨h1, h2⟩ := find_needs_some _ _ _ _ hf
      obtain ⟨h3, h4⟩ := ih _ _ h
      refine ⟨fun x hx => h3 x (h1 x hx), ?_⟩
      intro p1 hp1 d hd
      rcases List.mem_cons.1 hp1 with rfl | hp1
      · obtain ⟨q, hq1, hq2⟩ := h2 d hd
        exact ⟨q, hq1, h3 q hq2⟩
      · exact h4 p1 hp1 d hd

theorem check_needs_of_loaded (plugins : List plugin) (items : List plugin) :
    ∀ (required_plugins : List plugin),
      (∀ p ∈ items, ∀ d ∈ p.dependencies.needs, (get_plugin plugins d).isSome = true) →
      ∃ required1, check_needs plugins items required_plugins = some required1 := by
  induction items with
  | nil => intro required_plugins _; exact ⟨required_plugins, rfl⟩
  | cons p rest ih =>
    intro required_plugins hall
    obtain ⟨required2, h2⟩ := find_needs_of_loaded plugins p.dependencies.needs required_plugins
      (hall p (List.mem_cons_self _ _))
    obtain ⟨required1, h1⟩ := ih required2 (fun p1 hp1 => hall p1 (List.mem_cons_of_mem _ hp1))
    exact ⟨required1, by simp only [check_needs, h2]; exact h1⟩

theorem missing_dependency_eq_none_iff (plugins : List plugin) (ds : List String) :
    missing_dependency plugins ds = none ↔ ∀ d ∈ ds, (get_plugin plugins d).isSome = true := by
  induction ds with
  | nil => simp [missing_dependency]
  | cons d rest ih =>
    cases hg : get_plugin plugins d with
    | none => simp [missing_dependency, hg]
    | some q => simp [missing_dependency, hg, ih]

/-- The third pass: when it succeeds, the items before `plugin_item` stay, the
others are thinned out in their order, and no plugin of `required_plugins` is
unloaded. -/
theorem unload_unsatisfied_ok (required_plugins : List plugin) (rest : List plugin) :
    ∀ (kept plugins3 : List plugin),
      unload_unsatisfied required_plugins kept rest = (true, plugins3) →
      ∃ rest1, plugins3 = kept ++ rest1 ∧ rest1.Sublist rest ∧
        ∀ q ∈ rest, q ∈ required_plugins → q ∈ rest1 := by
  induction rest with
  | nil =>
    intro kept plugins3 h
    simp only [unload_unsatisfied, Prod.mk.injEq, true_and] at h
    exact ⟨[], by simp [h], List.Sublist.refl _, by simp⟩
  | cons p rest ih =>
    intro kept plugins3 h
    simp only [unload_unsatisfied] at h
    cases hm : missing_dependency (kept ++ p :: rest) p.dependencies.depends with
    | none =>
      simp only [hm] at h
      obtain ⟨rest1, h1, h2, h3⟩ := ih _ _ h
      refine ⟨p :: rest1, by simp [h1], h2.cons₂ p, ?_⟩
      intro q hq hr
      rcases List.mem_cons.1 hq with rfl | hq
      · exact List.mem_cons_self _ _
      · exact List.mem_cons_of_mem _ (h3 q hq hr)
    | some d =>
      simp only [hm] at h
      by_cases hf : list_find required_plugins p = true
      · simp [hf] at h
      · simp only [hf] at h
        obtain ⟨rest1, h1, h2, h3⟩ := ih _ _ h
        refine ⟨rest1, h1, h2.cons p, ?_⟩
        intro q hq hr
        rcases List.mem_cons.1 hq with rfl | hq
        · exact absurd ((list_find_iff _ _).2 hr) hf
        · exact h3 q hq hr

/-- The third pass unloads nothing when every `depends` name of every plugin
is loaded. -/
theorem unload_unsatisfied_noop (required_plugins : List plugin) (rest : List plugin) :
    ∀ (kept : List plugin),
      (∀ p ∈ rest, ∀ d ∈ p.dependencies.depends, (get_plugin (kept ++ rest) d).isSome = true) →
      unload_unsatisfied required_plugins kept rest = (true, kept ++ rest) := by
  induction rest with
  | nil => intro kept _; simp [unload_unsatisfied]
  | cons p rest ih =>
    intro kept hall
    have hm := (missing_dependency_eq_none_iff (kept ++ p :: rest) p.dependencies.depends).2
      (hall p (List.mem_cons_self _ _))
    simp only [unload_unsatisfied, hm]
    have hsplit : kept ++ p :: rest = (kept ++ [p]) ++ rest := by simp
    rw [ih (kept ++ [p]) (by
      intro p1 hp1 d hd
      rw [← hsplit]
      exact hall p1 (List.mem_cons_of_mem _ hp1) d hd)]
    rw [hsplit]

theorem has_conflict_eq_false_iff (plugins : List plugin) (ds : List String) :
    has_conflict plugins ds = false ↔ ∀ d ∈ ds, get_plugin plugins d = none := by
  induction ds with
  | nil => simp [has_conflict]
  | cons d rest ih =>
    cases hg : get_plugin plugins d with
    | none => simp [has_conflict, hg, ih]
    | some q => simp [has_conflict, hg]

/-- The fourth pass succeeds exactly when no `conflicts` name of a visited
plugin is loaded. -/
theorem check_conflicts_iff (plugins : List plugin) (items : List plugin) :
    check_conflicts plugins items = true ↔
      ∀ p ∈ items, ∀ d ∈ p.dependencies.conflicts, get_plugin plugins d = none := by
  induction items with
  | nil => simp [check_conflicts]
  | cons p rest ih =>
    cases hc : has_conflict plugins p.dependencies.conflicts with
    | false =>
      have := (has_conflict_eq_false_iff _ _).1 hc
      simp only [check_conflicts, hc, List.mem_cons, forall_eq_or_imp]
      rw [if_neg (by simp), ih]
      exact ⟨fun h => ⟨this, h⟩, fun h => h.2⟩
    | true =>
      simp only [check_conflicts, hc, if_true, List.mem_cons, forall_eq_or_imp]
      constructor
      · intro h; simp at h
      · intro h
        have := (has_conflict_eq_false_iff _ _).2 h.1
        simp [hc] at this

theorem mem_succeeds_edges (plugins : List plugin) (p : plugin) (ds : List String)
    (e : edge plugin) :
    e ∈ succeeds_edges plugins p ds ↔
      ∃ d ∈ ds, get_plugin plugins d = some e.predecessor ∧ e.successor = p := by
  induction ds with
  | nil => simp [succeeds_edges]
  | cons d rest ih =>
    cases hg : get_plugin plugins d with
    | none => simp [succeeds_edges, hg, ih]
    | some q =>
      simp only [succeeds_edges, hg, List.mem_cons, ih, exists_eq_or_imp, Option.some.injEq]
      constructor
      · rintro (h | h)
        · subst h; exact Or.inl ⟨rfl, rfl⟩
        · exact Or.inr h
      · rintro (⟨h1, h2⟩ | h)
        · left; cases e; simp_all
        · exact Or.inr h

theorem mem_preceeds_edges (plugins : List plugin) (p : plugin) (ds : List String)
    (e : edge plugin) :
    e ∈ preceeds_edges plugins p ds ↔
      ∃ d ∈ ds, get_plugin plugins d = some e.successor ∧ e.predecessor = p := by
  induction ds with
  | nil => simp [preceeds_edges]
  | cons d rest ih =>
    cases hg : get_plugin plugins d with
    | none => simp [preceeds_edges, hg, ih]
    | some q =>
      simp only [preceeds_edges, hg, List.mem_cons, ih, exists_eq_or_imp, Option.some.injEq]
      constructor
      · rintro (h | h)
        · subst h; exact Or.inl ⟨rfl, rfl⟩
        · exact Or.inr h
      · rintro (⟨h1, h2⟩ | h)
        · left; cases e; simp_all
        · exact Or.inr h

theorem mem_get_edges_from (plugins items : List plugin) (e : edge plugin) :
    e ∈ get_edges_from plugins items ↔
      ∃ p ∈ items, e ∈ succeeds_edges plugins p p.dependencies.succeeds ∨
        e ∈ preceeds_edges plugins p p.dependencies.preceeds := by
  induction items with
  | nil => simp [get_edges_from]
  | cons p rest ih =>
    simp only [get_edges_from, List.mem_append, ih, List.mem_cons, exists_eq_or_imp]

/-- The edges of `get_edges`: one from each loaded plugin named in a
`succeeds` list to the owner of the list, one from the owner of a `preceeds`
list to each loaded plugin named in it. -/
theorem mem_get_edges (plugins : List plugin) (e : edge plugin) :
    e ∈ get_edges plugins ↔
      (e.successor ∈ plugins ∧ ∃ d ∈ e.successor.dependencies.succeeds,
        get_plugin plugins d = some e.predecessor) ∨
      (e.predecessor ∈ plugins ∧ ∃ d ∈ e.predecessor.dependencies.preceeds,
        get_plugin plugins d = some e.successor) := by
  unfold get_edges
  rw [mem_get_edges_from]
  constructor
  · rintro ⟨p, hp, h | h⟩
    · obtain ⟨d, hd, hg, hs⟩ := (mem_succeeds_edges _ _ _ _).1 h
      subst hs
      exact Or.inl ⟨hp, d, hd, hg⟩
    · obtain ⟨d, hd, hg, hs⟩ := (mem_preceeds_edges _ _ _ _).1 h
      subst hs
      exact Or.inr ⟨hp, d, hd, hg⟩
  · rintro (⟨hp, d, hd, hg⟩ | ⟨hp, d, hd, hg⟩)
    · exact ⟨_, hp, Or.inl ((mem_succeeds_edges _ _ _ _).2 ⟨d, hd, hg, rfl⟩)⟩
    · exact ⟨_, hp, Or.inr ((mem_preceeds_edges _ _ _ _).2 ⟨d, hd, hg, rfl⟩)⟩

theorem get_edges_endpoints (plugins : List plugin) :
    ∀ e ∈ get_edges plugins, e.predecessor ∈ plugins ∧ e.successor ∈ plugins := by
  intro e he
  rcases (mem_get_edges plugins e).1 he with ⟨hp, d, _, hg⟩ | ⟨hp, d, _, hg⟩
  · exact ⟨(get_plugin_some hg).1, hp⟩
  · exact ⟨hp, (get_plugin_some hg).1⟩

/-- What `sort_plugins` returns, in terms of `tsort`. -/
theorem sort_plugins_eq (plugins : List plugin) :
    ∃ r, tsort plugins (get_edges plugins) = some r ∧
      ((∃ sorted_plugins, r.sorted_nodes = some sorted_plugins ∧
          sort_plugins plugins = some ⟨true, 0, sorted_plugins⟩) ∨
        (r.sorted_nodes = none ∧ sort_plugins plugins = some ⟨false, 0, plugins⟩)) := by
  obtain ⟨r, hr⟩ := tsort_returns plugins (get_edges plugins)
  refine ⟨r, hr, ?_⟩
  unfold sort_plugins
  simp only [hr]
  cases hs : r.sorted_nodes with
  | none => exact Or.inr ⟨rfl, rfl⟩
  | some sorted_plugins => exact Or.inl ⟨sorted_plugins, rfl, rfl⟩

/-- A successful `sort_plugins` keeps the plugins; when they are pairwise
distinct, the new list has no duplicates and every edge goes forward in it. -/
theorem sort_plugins_ok {plugins : List plugin} {out : outcome}
    (h : sort_plugins plugins = some out) (hok : out.ok = true) :
    (∀ p, p ∈ out.plugins ↔ p ∈ plugins) ∧
    (plugins.Nodup → out.plugins.Nodup ∧ ∀ e ∈ get_edges plugins,
      out.plugins.indexOf e.predecessor < out.plugins.indexOf e.successor) := by
  obtain ⟨r, hr, ⟨sorted_plugins, hs, hsort⟩ | ⟨_, hsort⟩⟩ := sort_plugins_eq plugins
  · rw [hsort] at h
    obtain rfl : out = ⟨true, 0, sorted_plugins⟩ := (Option.some.inj h).symm
    obtain ⟨S, hinv, _, hfin⟩ := tsort_final hr
    rcases hfin with ⟨he, hs2⟩ | ⟨_, hs2⟩
    · rw [hs] at hs2
      obtain rfl : sorted_plugins = S := Option.some.inj hs2
      refine ⟨fun p => ⟨?_, ?_⟩, ?_⟩
      · intro hp
        rcases hinv.sub_nodes p (Or.inl hp) with h1 | ⟨e, he1, h1⟩
        · exact h1
        · rw [← h1]
          exact (get_edges_endpoints plugins e he1).2
      · intro hp
        rcases hinv.covered p hp with h1 | h1 | ⟨e, he1, _⟩
        · exact h1
        · simp at h1
        · rw [he] at he1
          simp at he1
      · intro hnd
        have := tsort_sorted_of_success hnd (get_edges_endpoints plugins) hr hs
        exact ⟨this.1, fun e he1 => (this.2 e he1).2.2⟩
    · rw [hs] at hs2
      simp at hs2
  · rw [hsort] at h
    obtain rfl : out = ⟨false, 0, plugins⟩ := (Option.some.inj h).symm
    simp at hok

/-- With acyclic edges `sort_plugins` succeeds. -/
theorem sort_plugins_of_acyclic (plugins : List plugin) (h : ¬ has_cycle (get_edges plugins)) :
    ∃ out, sort_plugins plugins = some out ∧ out.ok = true := by
  obtain ⟨r, hr, ⟨sorted_plugins, _, hsort⟩ | ⟨hs, _⟩⟩ := sort_plugins_eq plugins
  · exact ⟨_, hsort, rfl⟩
  · obtain ⟨S, _, _, hfin⟩ := tsort_final hr
    rcases hfin with ⟨_, hs2⟩ | ⟨he, _⟩
    · rw [hs] at hs2
      simp at hs2
    · exact absurd (has_cycle_of_edges_left (get_edges_endpoints plugins) hr he) h

/-- A successful `resolve_dependencies` went through all its passes. -/
theorem resolve_dependencies_ok {b : backend} {fuel : Nat} {plugins : List plugin}
    {out : outcome} (h : resolve_dependencies b fuel plugins = some out) (hok : out.ok = true) :
    ∃ required1 plugins1 required2 plugins3,
      load_required_plugins b fuel 0 plugins [] = some (.ok required1, plugins1) ∧
      check_needs plugins1 plugins1 required1 = some required2 ∧
      unload_unsatisfied required2 [] plugins1 = (true, plugins3) ∧
      check_conflicts plugins3 plugins3 = true ∧
      before_conflicts_check b fuel plugins = some (some plugins3) ∧
      sort_plugins plugins3 = some out := by
  unfold resolve_dependencies __resolve_depedencies at h
  unfold before_conflicts_check
  cases h1 : load_required_plugins b fuel 0 plugins [] with
  | none => simp [h1] at h
  | some r1 =>
    obtain ⟨res, plugins1⟩ := r1
    cases res with
    | error errno =>
      simp only [h1, Bool.false_eq_true, if_false, Option.some.injEq] at h
      subst h
      simp at hok
    | ok required1 =>
      simp only [h1] at h
      cases h2 : check_needs plugins1 plugins1 required1 with
      | none =>
        simp only [h2, Bool.false_eq_true, if_false, Option.some.injEq] at h
        subst h
        simp at hok
      | some required2 =>
        simp only [h2] at h
        cases h3 : unload_unsatisfied required2 [] plugins1 with
        | mk res3 plugins3 =>
          cases res3 with
          | false =>
            simp only [h3, Bool.false_eq_true, if_false, Option.some.injEq] at h
            subst h
            simp at hok
          | true =>
            simp only [h3] at h
            by_cases h4 : check_conflicts plugins3 plugins3 = true
            · simp only [h4, if_true] at h
              exact ⟨required1, plugins1, required2, plugins3, rfl, h2, h3, h4,
                by simp [h2, h3], h⟩
            · simp only [h4, Bool.false_eq_true, if_false, Option.some.injEq] at h
              subst h
              simp at hok

/-- The function `__resolve_depedencies` in terms of the registry that reaches
its conflicts check. -/
theorem resolve_depedencies_of_before_conflicts_check {b : backend} {fuel : Nat}
    {plugins plugins3 : List plugin}
    (h : before_conflicts_check b fuel plugins = some (some plugins3)) :
    __resolve_depedencies b fuel plugins
      = some ⟨check_conflicts plugins3 plugins3, 0, plugins3⟩ := by
  unfold before_conflicts_check at h
  unfold __resolve_depedencies
  cases h1 : load_required_plugins b fuel 0 plugins [] with
  | none => simp [h1] at h
  | some r1 =>
    obtain ⟨res, plugins1⟩ := r1
    cases res with
    | error errno => simp [h1] at h
    | ok required1 =>
      simp only [h1] at h ⊢
      cases h2 : check_needs plugins1 plugins1 required1 with
      | none => simp [h2] at h
      | some required2 =>
        simp only [h2] at h ⊢
        cases h3 : unload_unsatisfied required2 [] plugins1 with
        | mk res3 plugins4 =>
          cases res3 with
          | false => simp [h3] at h
          | true =>
            simp only [h3, Option.some.injEq] at h ⊢
            subst h
            cases check_conflicts plugins4 plugins4 <;> simp

/-- The state of the registry after a successful `resolve_dependencies`, in
terms of the list `plugins3` that reached the conflicts check. -/
theorem resolve_dependencies_facts {b : backend} {fuel : Nat} {plugins : List plugin}
    {out : outcome} (h : resolve_dependencies b fuel plugins = some out) (hok : out.ok = true) :
    ∃ plugins3, before_conflicts_check b fuel plugins = some (some plugins3) ∧
      sort_plugins plugins3 = some out ∧
      (∀ p ∈ plugins3, ∀ d ∈ p.dependencies.requires,
        ∃ q ∈ plugins3, '/' ∉ d.data → q.name = d) ∧
      (∀ p ∈ plugins3, ∀ d ∈ p.dependencies.needs, ∃ q ∈ plugins3, q.name = d) ∧
      (∀ p ∈ plugins3, ∀ d ∈ p.dependencies.conflicts, get_plugin plugins3 d = none) := by
  obtain ⟨required1, plugins1, required2, plugins3, h1, h2, h3, h4, h5, h6⟩ :=
    resolve_dependencies_ok h hok
  have h1' := load_required_plugins_ok b fuel [] plugins [] plugins1 required1
    (by simpa using h1) (by simp)
  obtain ⟨_, _, hreq⟩ := h1'
  obtain ⟨hsub2, hneeds⟩ := check_needs_some plugins1 plugins1 required1 required2 h2
  obtain ⟨rest1, hp3, hsl, hkeep⟩ := unload_unsatisfied_ok required2 plugins1 [] plugins3 h3
  simp only [List.nil_append] at hp3
  subst hp3
  refine ⟨plugins3, h5, h6, ?_, ?_, (check_conflicts_iff _ _).1 h4⟩
  · intro p hp d hd
    obtain ⟨q, hq1, hq2, hq3⟩ := hreq p (hsl.subset hp) d hd
    exact ⟨q, hkeep q hq1 (hsub2 q hq2), hq3⟩
  · intro p hp d hd
    obtain ⟨q, hq1, hq2⟩ := hneeds p (hsl.subset hp) d hd
    exact ⟨q, hkeep q (get_plugin_some hq1).1 hq2, (get_plugin_some hq1).2⟩

theorem le_fresh_addr (plugins : List plugin) : ∀ p ∈ plugins, p.addr < fresh_addr plugins := by
  unfold fresh_addr
  induction plugins with
  | nil => simp
  | cons q rest ih =>
    intro p hp
    simp only [List.map_cons, List.foldr_cons]
    rcases List.mem_cons.1 hp with rfl | hp
    · omega
    · have := ih p hp
      omega

theorem fresh_addr_not_mem (plugins : List plugin) :
    fresh_addr plugins ∉ plugins.map plugin.addr := by
  intro h
  obtain ⟨p, hp, hpa⟩ := List.mem_map.1 h
  have := le_fresh_addr plugins p hp
  omega

/-- The plugin objects stay pairwise distinct in `__load_plugin`: a new object
has a new address. -/
theorem load_plugin_addr_nodup {b : backend} {plugins plugins1 : List plugin} {name : String}
    {res : Except Nat plugin} (h : __load_plugin b plugins name = (res, plugins1))
    (hnd : (plugins.map plugin.addr).Nodup) : (plugins1.map plugin.addr).Nodup := by
  rcases load_plugin_cases b plugins name with ⟨p, _, hl⟩ | ⟨_, ⟨p, type, hn, hl⟩ | ⟨errno, hl⟩⟩
  · rw [hl] at h
    simp only [Prod.mk.injEq] at h
    rw [← h.2]
    exact hnd
  · rw [hl] at h
    simp only [Prod.mk.injEq] at h
    rw [← h.2, List.map_append, List.map_singleton]
    refine List.Nodup.append hnd (List.nodup_singleton _) ?_
    rw [List.disjoint_singleton, (new_plugin_ok hn).1]
    exact fresh_addr_not_mem plugins
  · rw [hl] at h
    simp only [Prod.mk.injEq] at h
    rw [← h.2]
    exact hnd

theorem load_requires_addr_nodup (b : backend) (ds : List String) :
    ∀ (plugins required_plugins plugins1 : List plugin) (res : Except Nat (List plugin)),
      load_requires b ds plugins required_plugins = (res, plugins1) →
      (plugins.map plugin.addr).Nodup → (plugins1.map plugin.addr).Nodup := by
  induction ds with
  | nil =>
    intro plugins required_plugins plugins1 res h hnd
    simp only [load_requires, Prod.mk.injEq] at h
    rw [← h.2]
    exact hnd
  | cons d rest ih =>
    intro plugins required_plugins plugins1 res h hnd
    simp only [load_requires] at h
    cases hl : __load_plugin b plugins d with
    | mk res2 plugins2 =>
      have hnd2 := load_plugin_addr_nodup hl hnd
      cases res2 with
      | error errno =>
        simp only [hl, Prod.mk.injEq] at h
        rw [← h.2]
        exact hnd2
      | ok q =>
        simp only [hl] at h
        exact ih _ _ _ _ h hnd2

theorem load_required_plugins_addr_nodup (b : backend) (fuel : Nat) :
    ∀ (i : Nat) (plugins required_plugins plugins1 : List plugin)
      (res : Except Nat (List plugin)),
      load_required_plugins b fuel i plugins required_plugins = some (res, plugins1) →
      (plugins.map plugin.addr).Nodup → (plugins1.map plugin.addr).Nodup := by
  induction fuel with
  | zero =>
    intro i plugins required_plugins plugins1 res h hnd
    simp only [load_required_plugins] at h
    cases hg : plugins[i]? with
    | none =>
      simp only [hg, Option.some.injEq, Prod.mk.injEq] at h
      rw [← h.2]
      exact hnd
    | some p => simp [hg] at h
  | succ fuel ih =>
    intro i plugins required_plugins plugins1 res h hnd
    simp only [load_required_plugins] at h
    cases hg : plugins[i]? with
    | none =>
      simp only [hg, Option.some.injEq, Prod.mk.injEq] at h
      rw [← h.2]
      exact hnd
    | some p =>
      simp only [hg] at h
      cases hl : load_requires b p.dependencies.requires plugins required_plugins with
      | mk res2 plugins2 =>
        have hnd2 := load_requires_addr_nodup b _ _ _ _ _ hl hnd
        cases res2 with
        | error errno =>
          simp only [hl, Option.some.injEq, Prod.mk.injEq] at h
          rw [← h.2]
          exact hnd2
        | ok required2 =>
          simp only [hl] at h
          exact ih _ _ _ _ _ h hnd2

theorem nodup_of_addr_nodup {plugins : List plugin} (h : (plugins.map plugin.addr).Nodup) :
    plugins.Nodup :=
  List.Nodup.of_map _ h

theorem nodup_of_name_nodup {plugins : List plugin} (h : (plugins.map plugin.name).Nodup) :
    plugins.Nodup :=
  List.Nodup.of_map _ h

/-- The registry that reaches the conflicts check holds pairwise distinct
plugin objects when the registry on entry does. -/
theorem before_conflicts_check_nodup {b : backend} {fuel : Nat} {plugins plugins3 : List plugin}
    (h : before_conflicts_check b fuel plugins = some (some plugins3))
    (hnd : (plugins.map plugin.addr).Nodup) : plugins3.Nodup := by
  unfold before_conflicts_check at h
  cases h1 : load_required_plugins b fuel 0 plugins [] with
  | none => simp [h1] at h
  | some r1 =>
    obtain ⟨res, plugins1⟩ := r1
    have hnd1 := nodup_of_addr_nodup (load_required_plugins_addr_nodup b fuel _ _ _ _ _ h1 hnd)
    cases res with
    | error errno => simp [h1] at h
    | ok required1 =>
      simp only [h1] at h
      cases h2 : check_needs plugins1 plugins1 required1 with
      | none => simp [h2] at h
      | some required2 =>
        simp only [h2] at h
        cases h3 : unload_unsatisfied required2 [] plugins1 with
        | mk res3 plugins4 =>
          cases res3 with
          | false => simp [h3] at h
          | true =>
            simp only [h3, Option.some.injEq] at h
            subst h
            obtain ⟨rest1, hp3, hsl, _⟩ := unload_unsatisfied_ok required2 plugins1 [] plugins4 h3
            simp only [List.nil_append] at hp3
            subst hp3
            exact hnd1.sublist hsl

/-- Two lists with the same plugins, whose names are pairwise distinct, give
the same answers to `get_plugin`. -/
theorem get_plugin_congr {l1 l2 : List plugin} (hmem : ∀ p, p ∈ l1 ↔ p ∈ l2)
    (hnd : (l2.map plugin.name).Nodup) (d : String) : get_plugin l1 d = get_plugin l2 d := by
  cases h1 : get_plugin l1 d with
  | none =>
    symm
    rw [get_plugin_eq_none_iff] at h1 ⊢
    exact fun q hq => h1 q ((hmem q).2 hq)
  | some q =>
    obtain ⟨hq, hname⟩ := get_plugin_some h1
    rw [← hname]
    exact (get_plugin_of_mem hnd ((hmem q).1 hq)).symm

theorem get_edges_congr {l1 l2 : List plugin} (hmem : ∀ p, p ∈ l1 ↔ p ∈ l2)
    (hnd : (l2.map plugin.name).Nodup) (e : edge plugin) :
    e ∈ get_edges l1 ↔ e ∈ get_edges l2 := by
  rw [mem_get_edges, mem_get_edges]
  simp only [hmem, get_plugin_congr hmem hnd]

/-- When `sort_plugins` succeeds on pairwise distinct plugins, their edges hold
no cycle. -/
theorem acyclic_of_sort_plugins_ok {plugins : List plugin} {out : outcome}
    (h : sort_plugins plugins = some out) (hok : out.ok = true) (hnd : plugins.Nodup) :
    ¬ has_cycle (get_edges plugins) := by
  intro ⟨n, hn⟩
  obtain ⟨r, hr, ⟨sorted_plugins, hs, _⟩ | ⟨_, hsort⟩⟩ := sort_plugins_eq plugins
  · have hord := (tsort_sorted_of_success hnd (get_edges_endpoints plugins) hr hs).2
    exact absurd (index_lt_of_transGen hord hn) (lt_irrefl _)
  · rw [hsort] at h
    obtain rfl : out = ⟨false, 0, plugins⟩ := (Option.some.inj h).symm
    simp at hok

/-- A registry in which every `requires`, `needs` and `depends` name is
loaded, no `conflicts` name is loaded and names are pairwise distinct passes
`__resolve_depedencies` unchanged. -/
theorem resolve_depedencies_noop (b : backend) (fuel : Nat) (plugins : List plugin)
    (hfuel : plugins.length ≤ fuel)
    (hreq : ∀ p ∈ plugins, ∀ d ∈ p.dependencies.requires, (get_plugin plugins d).isSome = true)
    (hneeds : ∀ p ∈ plugins, ∀ d ∈ p.dependencies.needs, (get_plugin plugins d).isSome = true)
    (hdep : ∀ p ∈ plugins, ∀ d ∈ p.dependencies.depends, (get_plugin plugins d).isSome = true)
    (hconf : ∀ p ∈ plugins, ∀ d ∈ p.dependencies.conflicts, get_plugin plugins d = none) :
    __resolve_depedencies b fuel plugins = some ⟨true, 0, plugins⟩ := by
  obtain ⟨required1, h1⟩ := load_required_plugins_noop b fuel [] plugins [] hfuel
    (by simpa using hreq)
  simp only [List.nil_append, List.length_nil] at h1
  obtain ⟨required2, h2⟩ := check_needs_of_loaded plugins plugins required1 hneeds
  have h3 := unload_unsatisfied_noop required2 plugins [] (by simpa using hdep)
  simp only [List.nil_append] at h3
  have h4 := (check_conflicts_iff plugins plugins).2 hconf
  unfold __resolve_depedencies
  simp [h1, h2, h3, h4]

/-- Order after resolution: when the plugin objects are pairwise distinct and
the names in the resolved registry are pairwise distinct, every `preceeds` and
`succeeds` constraint between two plugins of the registry holds in its
order. -/
theorem resolve_order_of_distinct_names {b : backend} {fuel : Nat} {plugins : List plugin}
    {out : outcome} (haddr : (plugins.map plugin.addr).Nodup)
    (h : resolve_dependencies b fuel plugins = some out) (hok : out.ok = true)
    (hnames : (out.plugins.map plugin.name).Nodup) :
    ∀ P ∈ out.plugins, ∀ Q ∈ out.plugins,
      (Q.name ∈ P.dependencies.preceeds → out.plugins.indexOf P < out.plugins.indexOf Q) ∧
      (Q.name ∈ P.dependencies.succeeds → out.plugins.indexOf Q < out.plugins.indexOf P) := by
  obtain ⟨plugins3, hb, hsort, _, _, _⟩ := resolve_dependencies_facts h hok
  obtain ⟨hmem, hord⟩ := sort_plugins_ok hsort hok
  obtain ⟨_, hedges⟩ := hord (before_conflicts_check_nodup hb haddr)
  intro P hP Q hQ
  have hP3 := (hmem P).1 hP
  have hgQ : get_plugin plugins3 Q.name = some Q := by
    rw [get_plugin_congr (fun p => (hmem p).symm) hnames]
    exact get_plugin_of_mem hnames hQ
  constructor
  · intro hpre
    exact hedges ⟨P, Q⟩ ((mem_get_edges _ _).2 (Or.inr ⟨hP3, Q.name, hpre, hgQ⟩))
  · intro hsucc
    exact hedges ⟨Q, P⟩ ((mem_get_edges _ _).2 (Or.inl ⟨hP3, Q.name, hsucc, hgQ⟩))

/-- Loading twice: for a name without slash that is loaded
already, `__load_plugin` returns a plugin of this name and appends nothing. -/
theorem load_plugin_again_of_no_slash {b : backend} {plugins plugins1 : List plugin}
    {name : String} {q : plugin} (h : __load_plugin b plugins name = (.ok q, plugins1))
    (hs : '/' ∉ name.data) :
    ∃ q1, __load_plugin b plugins1 name = (.ok q1, plugins1) ∧ q1.name = name := by
  obtain ⟨_, hq, hname⟩ := load_plugin_ok h
  rcases load_plugin_cases b plugins1 name with ⟨p, hg, hl⟩ | ⟨hg, _⟩
  · exact ⟨p, hl, (get_plugin_some hg).2⟩
  · exact absurd (hname hs) ((get_plugin_eq_none_iff _ _).1 hg q hq)

end PluginFacts
/-! ## Facts about the hook handlers -/

section HookFacts

theorem plugin_hook_vlock_start (env : hook_env) (s : process) :
    plugin_hook env "vlock_start" s = handle_vlock_start env "vlock_start" s := by
  simp [plugin_hook, hooks, plugin_hook_loop]

theorem plugin_hook_vlock_end (env : hook_env) (s : process) :
    plugin_hook env "vlock_end" s = handle_vlock_end env "vlock_end" s := by
  simp [plugin_hook, hooks, plugin_hook_loop]

theorem plugin_hook_vlock_save (env : hook_env) (s : process) :
    plugin_hook env "vlock_save" s = handle_vlock_save env "vlock_save" s := by
  simp [plugin_hook, hooks, plugin_hook_loop]

theorem plugin_hook_vlock_save_abort (env : hook_env) (s : process) :
    plugin_hook env "vlock_save_abort" s = handle_vlock_save_abort env "vlock_save_abort" s := by
  simp [plugin_hook, hooks, plugin_hook_loop]

/-- The hook `plugin_hook` calls one of the four handlers, or does nothing. -/
theorem plugin_hook_cases (env : hook_env) (hook_name : String) (s : process) :
    plugin_hook env hook_name s = handle_vlock_start env hook_name s ∨
    plugin_hook env hook_name s = handle_vlock_end env hook_name s ∨
    plugin_hook env hook_name s = handle_vlock_save env hook_name s ∨
    plugin_hook env hook_name s = handle_vlock_save_abort env hook_name s ∨
    plugin_hook env hook_name s = s := by
  unfold plugin_hook hooks
  simp only [plugin_hook_loop]
  by_cases h1 : hook_name = "vlock_start"
  · simp [h1]
  · by_cases h2 : hook_name = "vlock_end"
    · simp [h2]
    · by_cases h3 : hook_name = "vlock_save"
      · simp [h3]
      · by_cases h4 : hook_name = "vlock_save_abort"
        · simp [h4]
        · simp [h1, h2, h3, h4]

theorem vlock_end_loop_called (env : hook_env) (hook_name : String) (ps : List plugin) :
    ∀ trace, called (vlock_end_loop env hook_name ps trace)
      = called trace ++ ps.map (fun p => (p.addr, hook_name)) := by
  induction ps with
  | nil => intro trace; simp [vlock_end_loop]
  | cons p rest ih =>
    intro trace
    simp only [vlock_end_loop, call_hook, ih]
    simp [called]

theorem call_end_hooks_from_called (env : hook_env) (ps : List plugin) :
    ∀ trace, called (call_end_hooks_from env ps trace)
      = called trace ++ ps.map (fun p => (p.addr, "vlock_end")) := by
  induction ps with
  | nil => intro trace; simp [call_end_hooks_from]
  | cons p rest ih =>
    intro trace
    simp only [call_end_hooks_from, call_hook, ih]
    simp [called]

/-- The loop of `handle_vlock_start` when every hook succeeds. -/
theorem vlock_start_loop_all_succeed (env : hook_env) (hook_name : String) (ps : List plugin) :
    ∀ previous trace, all_succeed env hook_name ps trace = true →
      vlock_start_loop env hook_name previous ps trace
        = (true, trace ++ ps.map (fun p => ⟨p.addr, hook_name, true⟩)) := by
  induction ps with
  | nil => intro previous trace _; simp [vlock_start_loop]
  | cons p rest ih =>
    intro previous trace h
    simp only [all_succeed, Bool.and_eq_true] at h
    simp only [vlock_start_loop, call_hook, h.1]
    rw [ih _ _ h.2]
    simp

/-- The loop of `handle_vlock_start` when the hook of `p` is the first that
fails. -/
theorem vlock_start_loop_failure (env : hook_env) (hook_name : String) (pre : List plugin)
    (p : plugin) (post : List plugin) :
    ∀ previous trace, all_succeed env hook_name pre trace = true →
      env (trace ++ pre.map (fun q => ⟨q.addr, hook_name, true⟩)) p.addr hook_name = false →
      vlock_start_loop env hook_name previous (pre ++ p :: post) trace
        = (false, call_end_hooks_from env (pre.reverse ++ previous)
            (trace ++ pre.map (fun q => ⟨q.addr, hook_name, true⟩)
              ++ [⟨p.addr, hook_name, false⟩])) := by
  induction pre with
  | nil =>
    intro previous trace _ hp
    simp only [List.map_nil, List.append_nil] at hp
    simp [vlock_start_loop, call_hook, hp]
  | cons q rest ih =>
    intro previous trace h hp
    simp only [all_succeed, Bool.and_eq_true] at h
    have hrec := ih (q :: previous) _ h.2 (by simpa using hp)
    simp only [List.cons_append, vlock_start_loop, call_hook, h.1]
    simp only [List.append_eq]
    rw [hrec]
    simp

/-- The registered functions other than `call_end_hook` call no hook. -/
theorem run_exit_handlers_trace (env : hook_env) (handlers : List exit_handler) :
    ∀ s, exit_handler.call_end_hook ∉ handlers →
      (run_exit_handlers env handlers s).trace = s.trace := by
  induction handlers with
  | nil => intro s _; rfl
  | cons h rest ih =>
    intro s hn
    simp only [List.mem_cons, not_or] at hn
    simp only [run_exit_handlers]
    rw [ih _ hn.2]
    cases h with
    | display_auth_tries => rfl
    | unload_plugins => rfl
    | call_end_hook => exact absurd rfl hn.1
    | restore_terminal => rfl

theorem exit_trace (env : hook_env) (status : Nat) (s : process)
    (h : exit_handler.call_end_hook ∉ s.atexit) : (exit env status s).trace = s.trace := by
  unfold exit
  simp only
  exact run_exit_handlers_trace env _ s (by simpa using h)

/-- Induction principle for the loop of `handle_vlock_save`: a relation between
the items, the items afterwards and the calls made, that is kept by each of the
three ways an item is treated, holds for the loop. -/
theorem vlock_save_loop_induction (env : hook_env) (hook_name : String)
    (R : List plugin → List plugin → List call → Prop) (hnil : R [] [] [])
    (hskip : ∀ p rest out new, p.save_disabled = true → R rest out new →
      R (p :: rest) (p :: out) new)
    (hok : ∀ p rest out new, p.save_disabled = false → R rest out new →
      R (p :: rest) (p :: out) (⟨p.addr, hook_name, true⟩ :: new))
    (hfail : ∀ p rest out new res, p.save_disabled = false → R rest out new →
      R (p :: rest) ({ p with save_disabled := true } :: out)
        (⟨p.addr, hook_name, false⟩ :: ⟨p.addr, "vlock_save_abort", res⟩ :: new))
    (ps : List plugin) :
    ∀ trace, ∃ new, (vlock_save_loop env hook_name ps trace).2 = trace ++ new ∧
      R ps (vlock_save_loop env hook_name ps trace).1 new := by
  induction ps with
  | nil => intro trace; exact ⟨[], by simp [vlock_save_loop], hnil⟩
  | cons p rest ih =>
    intro trace
    by_cases hd : p.save_disabled = true
    · obtain ⟨new, h1, h2⟩ := ih trace
      refine ⟨new, ?_, ?_⟩
      · simp only [vlock_save_loop, hd, if_true]
        exact h1
      · simp only [vlock_save_loop, hd, if_true]
        exact hskip p rest _ new hd h2
    · have hd2 : p.save_disabled = false := by simpa using hd
      by_cases he : env trace p.addr hook_name = true
      · obtain ⟨new, h1, h2⟩ := ih (trace ++ [⟨p.addr, hook_name, true⟩])
        refine ⟨⟨p.addr, hook_name, true⟩ :: new, ?_, ?_⟩
        · simp only [vlock_save_loop, hd2, call_hook, he, Bool.false_eq_true, if_false]
          rw [h1]; simp
        · simp only [vlock_save_loop, hd2, call_hook, he, Bool.false_eq_true, if_false]
          exact hok p rest _ new hd2 h2
      · have he2 : env trace p.addr hook_name = false := by simpa using he
        obtain ⟨new, h1, h2⟩ := ih (trace ++ [⟨p.addr, hook_name, false⟩]
          ++ [⟨p.addr, "vlock_save_abort",
            env (trace ++ [⟨p.addr, hook_name, false⟩]) p.addr "vlock_save_abort"⟩])
        refine ⟨⟨p.addr, hook_name, false⟩ :: ⟨p.addr, "vlock_save_abort",
            env (trace ++ [⟨p.addr, hook_name, false⟩]) p.addr "vlock_save_abort"⟩ :: new,
          ?_, ?_⟩
        · simp only [vlock_save_loop, hd2, call_hook, he2, Bool.false_eq_true, if_false]
          rw [h1]; simp
        · simp only [vlock_save_loop, hd2, call_hook, he2, Bool.false_eq_true, if_false]
          exact hfail p rest _ new _ hd2 h2

/-- Induction principle for the loop of `handle_vlock_save_abort`. -/
theorem vlock_save_abort_loop_induction (env : hook_env) (hook_name : String)
    (R : List plugin → List plugin → List call → Prop) (hnil : R [] [] [])
    (hskip : ∀ p rest out new, p.save_disabled = true → R rest out new →
      R (p :: rest) (p :: out) new)
    (hok : ∀ p rest out new, p.save_disabled = false → R rest out new →
      R (p :: rest) (p :: out) (⟨p.addr, hook_name, true⟩ :: new))
    (hfail : ∀ p rest out new, p.save_disabled = false → R rest out new →
      R (p :: rest) ({ p with save_disabled := true } :: out)
        (⟨p.addr, hook_name, false⟩ :: new))
    (ps : List plugin) :
    ∀ trace, ∃ new, (vlock_save_abort_loop env hook_name ps trace).2 = trace ++ new ∧
      R ps (vlock_save_abort_loop env hook_name ps trace).1 new := by
  induction ps with
  | nil => intro trace; exact ⟨[], by simp [vlock_save_abort_loop], hnil⟩
  | cons p rest ih =>
    intro trace
    by_cases hd : p.save_disabled = true
    · obtain ⟨new, h1, h2⟩ := ih trace
      refine ⟨new, ?_, ?_⟩
      · simp only [vlock_save_abort_loop, hd, if_true]
        exact h1
      · simp only [vlock_save_abort_loop, hd, if_true]
        exact hskip p rest _ new hd h2
    · have hd2 : p.save_disabled = false := by simpa using hd
      by_cases he : env trace p.addr hook_name = true
      · obtain ⟨new, h1, h2⟩ := ih (trace ++ [⟨p.addr, hook_name, true⟩])
        refine ⟨⟨p.addr, hook_name, true⟩ :: new, ?_, ?_⟩
        · simp only [vlock_save_abort_loop, hd2, call_hook, he, Bool.false_eq_true, if_false]
          rw [h1]; simp
        · simp only [vlock_save_abort_loop, hd2, call_hook, he, Bool.false_eq_true, if_false]
          exact hok p rest _ new hd2 h2
      · have he2 : env trace p.addr hook_name = false := by simpa using he
        obtain ⟨new, h1, h2⟩ := ih (trace ++ [⟨p.addr, hook_name, false⟩])
        refine ⟨⟨p.addr, hook_name, false⟩ :: new, ?_, ?_⟩
        · simp only [vlock_save_abort_loop, hd2, call_hook, he2, Bool.false_eq_true, if_false]
          rw [h1]; simp
        · simp only [vlock_save_abort_loop, hd2, call_hook, he2, Bool.false_eq_true, if_false]
          exact hfail p rest _ new hd2 h2

theorem save_disabled_at_cons_of {p q : plugin} {rest out : List plugin} {a : Nat}
    (hq : q.addr = p.addr) (hflag : p.save_disabled = true → q.save_disabled = true)
    (hrest : save_disabled_at rest a → save_disabled_at out a)
    (h : save_disabled_at (p :: rest) a) : save_disabled_at (q :: out) a := by
  obtain ⟨x, hx, hxa, hxd⟩ := h
  rcases List.mem_cons.1 hx with rfl | hx
  · exact ⟨q, List.mem_cons_self _ _, hq.trans hxa, hflag hxd⟩
  · obtain ⟨y, hy, hya, hyd⟩ := hrest ⟨x, hx, hxa, hxd⟩
    exact ⟨y, List.mem_cons_of_mem _ hy, hya, hyd⟩

theorem save_disabled_at_tail {q : plugin} {out : List plugin} {a : Nat}
    (h : save_disabled_at out a) : save_disabled_at (q :: out) a := by
  obtain ⟨y, hy, hya, hyd⟩ := h
  exact ⟨y, List.mem_cons_of_mem _ hy, hya, hyd⟩

/-- With pairwise distinct addresses a plugin with a clear flag is not at the
address of a plugin with a set flag. -/
theorem not_save_disabled_at_of_enabled {plugins : List plugin}
    (hnd : (plugins.map plugin.addr).Nodup) {p : plugin} (hp : p ∈ plugins)
    (hflag : p.save_disabled = false) : ¬ save_disabled_at plugins p.addr := by
  intro ⟨q, hq, hqa, hqd⟩
  have : q = p := List.inj_on_of_nodup_map hnd hq hp hqa
  subst this
  rw [hflag] at hqd
  exact Bool.false_ne_true hqd

/-- What the loop of `handle_vlock_save` does: it calls hooks only on plugins
whose flag is clear, it keeps the addresses, it clears no flag, it sets the
flag of a plugin whose hook fails and calls the `vlock_save_abort` hook of
that plugin once. -/
theorem vlock_save_loop_spec (env : hook_env) (hook_name : String)
    (hne : hook_name ≠ "vlock_save_abort") (ps : List plugin) :
    ∀ trace, ∃ new, (vlock_save_loop env hook_name ps trace).2 = trace ++ new ∧
      (vlock_save_loop env hook_name ps trace).1.map plugin.addr = ps.map plugin.addr ∧
      (∀ c ∈ new, ∃ p ∈ ps, p.addr = c.addr ∧ p.save_disabled = false) ∧
      (∀ a, save_disabled_at ps a →
        save_disabled_at (vlock_save_loop env hook_name ps trace).1 a) ∧
      (∀ c ∈ new, c.hook = hook_name → c.result = false →
        save_disabled_at (vlock_save_loop env hook_name ps trace).1 c.addr) ∧
      ((ps.map plugin.addr).Nodup → ∀ c ∈ new, c.hook = hook_name → c.result = false →
        new.countP (fun x => decide (x.addr = c.addr ∧ x.hook = "vlock_save_abort")) = 1) := by
  apply vlock_save_loop_induction env hook_name (fun ps out new =>
      out.map plugin.addr = ps.map plugin.addr ∧
      (∀ c ∈ new, ∃ p ∈ ps, p.addr = c.addr ∧ p.save_disabled = false) ∧
      (∀ a, save_disabled_at ps a → save_disabled_at out a) ∧
      (∀ c ∈ new, c.hook = hook_name → c.result = false → save_disabled_at out c.addr) ∧
      ((ps.map plugin.addr).Nodup → ∀ c ∈ new, c.hook = hook_name → c.result = false →
        new.countP (fun x => decide (x.addr = c.addr ∧ x.hook = "vlock_save_abort")) = 1))
  · simp
  · intro p rest out new hd ⟨h1, h2, h3, h4, h5⟩
    refine ⟨by simp [h1], ?_, ?_, ?_, ?_⟩
    · intro c hc
      obtain ⟨q, hq, hqa, hqd⟩ := h2 c hc
      exact ⟨q, List.mem_cons_of_mem _ hq, hqa, hqd⟩
    · intro a ha
      exact save_disabled_at_cons_of rfl id (h3 a) ha
    · intro c hc hh hr
      exact save_disabled_at_tail (h4 c hc hh hr)
    · intro hnd c hc hh hr
      rw [List.map_cons, List.nodup_cons] at hnd
      exact h5 hnd.2 c hc hh hr
  · intro p rest out new hd ⟨h1, h2, h3, h4, h5⟩
    refine ⟨by simp [h1], ?_, ?_, ?_, ?_⟩
    · intro c hc
      rcases List.mem_cons.1 hc with rfl | hc
      · exact ⟨p, List.mem_cons_self _ _, rfl, hd⟩
      · obtain ⟨q, hq, hqa, hqd⟩ := h2 c hc
        exact ⟨q, List.mem_cons_of_mem _ hq, hqa, hqd⟩
    · intro a ha
      exact save_disabled_at_cons_of rfl id (h3 a) ha
    · intro c hc hh hr
      rcases List.mem_cons.1 hc with rfl | hc
      · simp at hr
      · exact save_disabled_at_tail (h4 c hc hh hr)
    · intro hnd c hc hh hr
      rw [List.map_cons, List.nodup_cons] at hnd
      rcases List.mem_cons.1 hc with rfl | hc
      · simp at hr
      · rw [List.countP_cons_of_neg]
        · exact h5 hnd.2 c hc hh hr
        · simp [hne]
  · intro p rest out new res hd ⟨h1, h2, h3, h4, h5⟩
    refine ⟨by simp [h1], ?_, ?_, ?_, ?_⟩
    · intro c hc
      rcases List.mem_cons.1 hc with rfl | hc
      · exact ⟨p, List.mem_cons_self _ _, rfl, hd⟩
      · rcases List.mem_cons.1 hc with rfl | hc
        · exact ⟨p, List.mem_cons_self _ _, rfl, hd⟩
        · obtain ⟨q, hq, hqa, hqd⟩ := h2 c hc
          exact ⟨q, List.mem_cons_of_mem _ hq, hqa, hqd⟩
    · intro a ha
      exact save_disabled_at_cons_of (p := p) rfl (fun _ => rfl) (h3 a) ha
    · intro c hc hh hr
      rcases List.mem_cons.1 hc with rfl | hc
      · exact ⟨_, List.mem_cons_self _ _, rfl, rfl⟩
      · rcases List.mem_cons.1 hc with rfl | hc
        · exact absurd hh.symm hne
        · exact save_disabled_at_tail (h4 c hc hh hr)
    · intro hnd c hc hh hr
      rw [List.map_cons, List.nodup_cons] at hnd
      have hrest : ∀ x ∈ new, x.addr ≠ p.addr := by
        intro x hx hxa
        obtain ⟨q, hq, hqa, _⟩ := h2 x hx
        exact hnd.1 (List.mem_map.2 ⟨q, hq, hqa.trans hxa⟩)
      rw [List.countP_cons_of_neg, List.countP_cons]
      · by_cases hcp : c.addr = p.addr
        · have hzero : new.countP
              (fun x => decide (x.addr = c.addr ∧ x.hook = "vlock_save_abort")) = 0 := by
            rw [List.countP_eq_zero]
            intro x hx
            simp only [decide_eq_true_eq, not_and]
            intro hxa
            exact absurd (hxa.trans hcp) (hrest x hx)
          rw [hzero]
          simp [hcp]
        · have hc2 : c ∈ new := by
            rcases List.mem_cons.1 hc with rfl | hc
            · exact absurd rfl hcp
            · rcases List.mem_cons.1 hc with rfl | hc
              · exact absurd rfl hcp
              · exact hc
          rw [h5 hnd.2 c hc2 hh hr]
          have : ¬ p.addr = c.addr := fun h => hcp h.symm
          simp [this]
      · simp [hne]

/-- What the loop of `handle_vlock_save_abort` does: it calls the hook only on
plugins whose flag is clear, it keeps the addresses and it clears no flag. -/
theorem vlock_save_abort_loop_spec (env : hook_env) (hook_name : String) (ps : List plugin) :
    ∀ trace, ∃ new, (vlock_save_abort_loop env hook_name ps trace).2 = trace ++ new ∧
      (vlock_save_abort_loop env hook_name ps trace).1.map plugin.addr = ps.map plugin.addr ∧
      (∀ c ∈ new, c.hook = hook_name ∧ ∃ p ∈ ps, p.addr = c.addr ∧ p.save_disabled = false) ∧
      (∀ a, save_disabled_at ps a →
        save_disabled_at (vlock_save_abort_loop env hook_name ps trace).1 a) := by
  apply vlock_save_abort_loop_induction env hook_name (fun ps out new =>
      out.map plugin.addr = ps.map plugin.addr ∧
      (∀ c ∈ new, c.hook = hook_name ∧ ∃ p ∈ ps, p.addr = c.addr ∧ p.save_disabled = false) ∧
      (∀ a, save_disabled_at ps a → save_disabled_at out a))
  · simp
  · intro p rest out new hd ⟨h1, h2, h3⟩
    refine ⟨by simp [h1], ?_, fun a ha => save_disabled_at_cons_of rfl id (h3 a) ha⟩
    intro c hc
    obtain ⟨hh, q, hq, hqa, hqd⟩ := h2 c hc
    exact ⟨hh, q, List.mem_cons_of_mem _ hq, hqa, hqd⟩
  · intro p rest out new hd ⟨h1, h2, h3⟩
    refine ⟨by simp [h1], ?_, fun a ha => save_disabled_at_cons_of rfl id (h3 a) ha⟩
    intro c hc
    rcases List.mem_cons.1 hc with rfl | hc
    · exact ⟨rfl, p, List.mem_cons_self _ _, rfl, hd⟩
    · obtain ⟨hh, q, hq, hqa, hqd⟩ := h2 c hc
      exact ⟨hh, q, List.mem_cons_of_mem _ hq, hqa, hqd⟩
  · intro p rest out new hd ⟨h1, h2, h3⟩
    refine ⟨by simp [h1], ?_,
      fun a ha => save_disabled_at_cons_of (p := p) rfl (fun _ => rfl) (h3 a) ha⟩
    intro c hc
    rcases List.mem_cons.1 hc with rfl | hc
    · exact ⟨rfl, p, List.mem_cons_self _ _, rfl, hd⟩
    · obtain ⟨hh, q, hq, hqa, hqd⟩ := h2 c hc
      exact ⟨hh, q, List.mem_cons_of_mem _ hq, hqa, hqd⟩

theorem save_disabled_at_reverse (plugins : List plugin) (a : Nat) :
    save_disabled_at plugins.reverse a ↔ save_disabled_at plugins a := by
  unfold save_disabled_at
  simp only [List.mem_reverse]

/-- One save cycle: the addresses stay, hooks are called only on plugins whose
flag was clear when the cycle began, no flag is cleared, and a plugin whose
`vlock_save` hook fails gets its flag set and its `vlock_save_abort` hook
called exactly once in the cycle. -/
theorem save_cycle_spec (env : hook_env) (s : process)
    (hnd : (s.plugins.map plugin.addr).Nodup) :
    (save_cycle env s).plugins.map plugin.addr = s.plugins.map plugin.addr ∧
    ∃ new, (save_cycle env s).trace = s.trace ++ new ∧
      (∀ c ∈ new, ¬ save_disabled_at s.plugins c.addr) ∧
      (∀ a, save_disabled_at s.plugins a → save_disabled_at (save_cycle env s).plugins a) ∧
      (∀ c ∈ new, c.hook = "vlock_save" → c.result = false →
        save_disabled_at (save_cycle env s).plugins c.addr ∧
        new.countP (fun x => decide (x.addr = c.addr ∧ x.hook = "vlock_save_abort")) = 1) := by
  obtain ⟨new1, ht1, ha1, hc1, hm1, hf1, hn1⟩ :=
    vlock_save_loop_spec env "vlock_save" (by decide) s.plugins s.trace
  obtain ⟨new2, ht2, ha2, hc2, hm2⟩ :=
    vlock_save_abort_loop_spec env "vlock_save_abort"
      (vlock_save_loop env "vlock_save" s.plugins s.trace).1.reverse
      (vlock_save_loop env "vlock_save" s.plugins s.trace).2
  have hplugins : (save_cycle env s).plugins
      = (vlock_save_abort_loop env "vlock_save_abort"
          (vlock_save_loop env "vlock_save" s.plugins s.trace).1.reverse
          (vlock_save_loop env "vlock_save" s.plugins s.trace).2).1.reverse := by
    simp [save_cycle, plugin_hook_vlock_save, plugin_hook_vlock_save_abort, handle_vlock_save,
      handle_vlock_save_abort]
  have htrace : (save_cycle env s).trace
      = (vlock_save_abort_loop env "vlock_save_abort"
          (vlock_save_loop env "vlock_save" s.plugins s.trace).1.reverse
          (vlock_save_loop env "vlock_save" s.plugins s.trace).2).2 := by
    simp [save_cycle, plugin_hook_vlock_save, plugin_hook_vlock_save_abort, handle_vlock_save,
      handle_vlock_save_abort]
  have hnd1 : ((vlock_save_loop env "vlock_save" s.plugins s.trace).1.map plugin.addr).Nodup := by
    rw [ha1]; exact hnd
  have hmono : ∀ a, save_disabled_at (vlock_save_loop env "vlock_save" s.plugins s.trace).1 a →
      save_disabled_at (save_cycle env s).plugins a := by
    intro a ha
    rw [hplugins, save_disabled_at_reverse]
    exact hm2 a ((save_disabled_at_reverse _ a).2 ha)
  have hnew2 : ∀ c ∈ new2, c.hook = "vlock_save_abort" ∧
      ¬ save_disabled_at (vlock_save_loop env "vlock_save" s.plugins s.trace).1 c.addr := by
    intro c hc
    obtain ⟨hh, q, hq, hqa, hqd⟩ := hc2 c hc
    refine ⟨hh, ?_⟩
    rw [← hqa]
    exact not_save_disabled_at_of_enabled hnd1 (List.mem_reverse.1 hq) hqd
  refine ⟨?_, new1 ++ new2, ?_, ?_, ?_, ?_⟩
  · rw [hplugins, List.map_reverse, ha2, List.map_reverse, List.reverse_reverse, ha1]
  · rw [htrace, ht2, ht1, List.append_assoc]
  · intro c hc
    rcases List.mem_append.1 hc with hc | hc
    · obtain ⟨q, hq, hqa, hqd⟩ := hc1 c hc
      rw [← hqa]
      exact not_save_disabled_at_of_enabled hnd hq hqd
    · exact fun hdis => (hnew2 c hc).2 (hm1 _ hdis)
  · intro a ha
    exact hmono a (hm1 a ha)
  · intro c hc hh hr
    have hc1' : c ∈ new1 := by
      rcases List.mem_append.1 hc with hc | hc
      · exact hc
      · have := (hnew2 c hc).1
        rw [hh] at this
        exact absurd this (by decide)
    have hdis := hf1 c hc1' hh hr
    refine ⟨hmono _ hdis, ?_⟩
    rw [List.countP_append, hn1 hnd c hc1' hh hr]
    have hzero : new2.countP
        (fun x => decide (x.addr = c.addr ∧ x.hook = "vlock_save_abort")) = 0 := by
      rw [List.countP_eq_zero]
      intro x hx
      simp only [decide_eq_true_eq, not_and]
      intro hxa
      exact absurd (hxa ▸ hdis) (hnew2 x hx).2
    rw [hzero]

theorem save_cycles_add (env : hook_env) (m n : Nat) :
    ∀ s, save_cycles env (m + n) s = save_cycles env n (save_cycles env m s) := by
  induction m with
  | zero => intro s; simp [save_cycles]
  | succ m ih =>
    intro s
    have : m + 1 + n = (m + n) + 1 := by omega
    rw [this]
    simp only [save_cycles]
    exact ih _

theorem save_cycles_succ (env : hook_env) (j : Nat) (s : process) :
    save_cycles env (j + 1) s = save_cycle env (save_cycles env j s) := by
  rw [save_cycles_add]
  simp [save_cycles, save_cycle]

theorem save_cycles_addr (env : hook_env) (j : Nat) (s : process)
    (hnd : (s.plugins.map plugin.addr).Nodup) :
    (save_cycles env j s).plugins.map plugin.addr = s.plugins.map plugin.addr := by
  induction j with
  | zero => simp [save_cycles]
  | succ j ih =>
    rw [save_cycles_succ, (save_cycle_spec env _ (by rw [ih]; exact hnd)).1, ih]

/-- A flag that is set stays set over any number of further save cycles. -/
theorem save_cycles_disabled_mono (env : hook_env) (s : process)
    (hnd : (s.plugins.map plugin.addr).Nodup) (j : Nat) (a : Nat)
    (h : save_disabled_at (save_cycles env j s).plugins a) :
    ∀ m, save_disabled_at (save_cycles env (j + m) s).plugins a := by
  intro m
  induction m with
  | zero => exact h
  | succ m ih =>
    have hndj : ((save_cycles env (j + m) s).plugins.map plugin.addr).Nodup := by
      rw [save_cycles_addr env _ s hnd]; exact hnd
    rw [← Nat.add_assoc, save_cycles_succ]
    exact (save_cycle_spec env _ hndj).2.choose_spec.2.2.1 a ih

/-- The calls of cycle `j`, as `save_cycle_spec` describes them. -/
theorem cycle_calls_spec (env : hook_env) (s : process)
    (hnd : (s.plugins.map plugin.addr).Nodup) (j : Nat) :
    (∀ c ∈ cycle_calls env s j, ¬ save_disabled_at (save_cycles env j s).plugins c.addr) ∧
    (∀ c ∈ cycle_calls env s j, c.hook = "vlock_save" → c.result = false →
      save_disabled_at (save_cycles env (j + 1) s).plugins c.addr ∧
      (cycle_calls env s j).countP
        (fun x => decide (x.addr = c.addr ∧ x.hook = "vlock_save_abort")) = 1) := by
  have hndj : ((save_cycles env j s).plugins.map plugin.addr).Nodup := by
    rw [save_cycles_addr env _ s hnd]; exact hnd
  obtain ⟨_, new, ht, h1, _, h3⟩ := save_cycle_spec env (save_cycles env j s) hndj
  have hcalls : cycle_calls env s j = new := by
    unfold cycle_calls
    rw [save_cycles_succ, ht, List.drop_left]
  rw [hcalls, save_cycles_succ]
  exact ⟨h1, h3⟩

/-- No hook handler clears a `save_disabled` flag. -/
theorem plugin_hook_disabled_mono (env : hook_env) (hook_name : String) (s : process) (a : Nat)
    (h : save_disabled_at s.plugins a) :
    save_disabled_at (plugin_hook env hook_name s).plugins a := by
  rcases plugin_hook_cases env hook_name s with h1 | h1 | h1 | h1 | h1
  · rw [h1]
    unfold handle_vlock_start
    cases vlock_start_loop env hook_name [] s.plugins s.trace with
    | mk res trace => cases res <;> exact h
  · rw [h1]
    exact h
  · rw [h1]
    obtain ⟨new, _, hm⟩ := vlock_save_loop_induction env hook_name
      (fun ps out _ => ∀ a, save_disabled_at ps a → save_disabled_at out a)
      (fun _ ha => ha)
      (fun p rest out new _ h3 a ha => save_disabled_at_cons_of rfl id (h3 a) ha)
      (fun p rest out new _ h3 a ha => save_disabled_at_cons_of rfl id (h3 a) ha)
      (fun p rest out new _ _ h3 a ha =>
        save_disabled_at_cons_of (p := p) rfl (fun _ => rfl) (h3 a) ha)
      s.plugins s.trace
    exact hm a h
  · rw [h1]
    obtain ⟨new, _, _, _, hm⟩ := vlock_save_abort_loop_spec env hook_name s.plugins.reverse s.trace
    unfold handle_vlock_save_abort
    simp only
    rw [save_disabled_at_reverse]
    exact hm a ((save_disabled_at_reverse _ a).2 h)
  · rw [h1]
    exact h

end HookFacts
/-! ## Further facts about tsort.c -/

section TsortFacts2

variable {α : Type} [DecidableEq α]

/-- When `tsort` returns a list for pairwise distinct nodes, the graph has no
cycle. -/
theorem acyclic_of_tsort_ok {N : List α} {E : List (edge α)} (hN : N.Nodup)
    (hE : ∀ e ∈ E, e.predecessor ∈ N ∧ e.successor ∈ N) (r : tsort_result α)
    (sorted : List α) (h : tsort N E = some r) (hs : r.sorted_nodes = some sorted) :
    ¬ has_cycle E := by
  intro ⟨n, hn⟩
  have hord := (tsort_sorted_of_success hN hE h hs).2
  exact absurd (index_lt_of_transGen hord hn) (lt_irrefl _)

/-- The output of the outer loop begins with the sorted nodes and the zeros
it started from, in this order. -/
theorem tsort_loop_prefix (fuel : Nat) :
    ∀ (Z S : List α) (E : List (edge α)) (S1 : List α) (E1 : List (edge α)),
      tsort_loop fuel Z S E = some (S1, E1) → ∃ T, S1 = S ++ Z ++ T := by
  induction fuel with
  | zero =>
    intro Z S E S1 E1 h
    cases Z with
    | nil =>
      simp only [tsort_loop, Option.some.injEq, Prod.mk.injEq] at h
      exact ⟨[], by simp [h.1]⟩
    | cons z rest => simp [tsort_loop] at h
  | succ fuel ih =>
    intro Z S E S1 E1 h
    cases Z with
    | nil =>
      simp only [tsort_loop, Option.some.injEq, Prod.mk.injEq] at h
      exact ⟨[], by simp [h.1]⟩
    | cons z rest =>
      simp only [tsort_loop] at h
      rw [delete_edges_tail] at h
      obtain ⟨T, hT⟩ := ih _ _ _ _ _ h
      have happ := delete_edges_snd_append z E [] rest []
      simp only [List.append_nil] at happ
      rw [happ] at hT
      exact ⟨(delete_edges z [] E []).2 ++ T, by rw [hT]; simp⟩

theorem foldl_list_delete_eq_filter (edges : List (edge α)) :
    ∀ (zeros : List α), zeros.Nodup →
      edges.foldl (fun zeros e => list_delete zeros e.successor) zeros
        = zeros.filter (fun n => is_zero n edges) := by
  induction edges with
  | nil =>
    intro zeros _
    simp [is_zero]
  | cons e rest ih =>
    intro zeros hnd
    simp only [List.foldl_cons]
    rw [ih _ (nodup_list_delete _ hnd), list_delete_eq_erase, hnd.erase_eq_filter,
      List.filter_filter]
    apply List.filter_congr
    intro n _
    by_cases h : e.successor = n
    · simp [is_zero, h]
    · have h2 : ¬ n = e.successor := fun h3 => h h3.symm
      simp [is_zero, h, h2]

/-- For pairwise distinct nodes the zeros are the nodes without incoming edge,
in the order of the node list. -/
theorem get_zeros_eq_filter (N : List α) (E : List (edge α)) (hN : N.Nodup) :
    get_zeros N E = N.filter (fun n => is_zero n E) := by
  unfold get_zeros
  rw [list_copy_eq]
  exact foldl_list_delete_eq_filter E N hN

/-- Filtering a list without duplicates keeps the relative order of the
elements that stay. -/
theorem indexOf_filter_lt_iff (p : α → Bool) (l : List α) (hnd : l.Nodup) {a b : α}
    (ha : a ∈ l) (hb : b ∈ l) (hpa : p a = true) (hpb : p b = true) :
    (l.filter p).indexOf a < (l.filter p).indexOf b ↔ l.indexOf a < l.indexOf b := by
  induction l with
  | nil => simp at ha
  | cons x xs ih =>
    rw [List.nodup_cons] at hnd
    by_cases hxa : x = a
    · subst hxa
      by_cases hxb : x = b
      · subst hxb
        simp [List.filter_cons, hpa]
      · have hb2 : b ∈ xs := by
          rcases List.mem_cons.1 hb with h | h
          · exact absurd h.symm hxb
          · exact h
        have hb3 : b ∈ xs.filter p := List.mem_filter.2 ⟨hb2, hpb⟩
        simp only [List.filter_cons, hpa, if_true, List.indexOf_cons_self]
        rw [List.indexOf_cons_ne _ hxb, List.indexOf_cons_ne _ hxb]
        simp
    · have ha2 : a ∈ xs := by
        rcases List.mem_cons.1 ha with h | h
        · exact absurd h.symm hxa
        · exact h
      by_cases hxb : x = b
      · subst hxb
        simp only [List.filter_cons, hpb, if_true, List.indexOf_cons_self]
        rw [List.indexOf_cons_ne _ hxa, List.indexOf_cons_ne _ hxa]
        simp
      · have hb2 : b ∈ xs := by
          rcases List.mem_cons.1 hb with h | h
          · exact absurd h.symm hxb
          · exact h
        rw [List.indexOf_cons_ne _ hxa, List.indexOf_cons_ne _ hxb]
        by_cases hpx : p x = true
        · simp only [List.filter_cons, hpx, if_true]
          rw [List.indexOf_cons_ne _ hxa, List.indexOf_cons_ne _ hxb]
          simpa using ih hnd.2 ha2 hb2
        · simp only [List.filter_cons, hpx, Bool.false_eq_true, if_false]
          simpa using ih hnd.2 ha2 hb2

/-- In the sorted nodes every path of edges that ends at a sorted node starts
at a sorted node further to the front. -/
theorem sorted_of_transGen {E0 E : List (edge α)} {Z S : List α} (ho : TsortOrd E0 Z S E)
    {a b : α} (h : Relation.TransGen (fun a b => edge.mk a b ∈ E0) a b) (hb : b ∈ S) :
    a ∈ S ∧ S.indexOf a < S.indexOf b := by
  induction h with
  | single h1 => exact ho.order _ h1 hb
  | tail _ h2 ih =>
    obtain ⟨h3, h4⟩ := ho.order _ h2 hb
    obtain ⟨h5, h6⟩ := ih h3
    exact ⟨h5, lt_trans h6 h4⟩

/-- No node on a cycle and no node reachable from a cycle is ever sorted. -/
theorem not_sorted_of_reachable_from_cycle {E0 E : List (edge α)} {Z S : List α}
    (ho : TsortOrd E0 Z S E) {v : α} (h : reachable_from_cycle E0 v) : v ∉ S := by
  obtain ⟨c, hc, hv⟩ := h
  have hcS : c ∉ S := fun hmem => absurd (sorted_of_transGen ho hc hmem).2 (lt_irrefl _)
  induction hv with
  | refl => exact hcS
  | tail _ h2 ih => exact fun hmem => ih (ho.order _ h2 hmem).1

end TsortFacts2

section CycleFacts2

variable {α : Type}

/-- In an edge list in which the predecessor of every edge has an incoming
edge, the predecessor of every edge lies on a cycle or can be reached from
one. -/
theorem reachable_from_cycle_of_no_source (E : List (edge α))
    (h : ∀ e ∈ E, ∃ e1 ∈ E, e1.successor = e.predecessor) (e0 : edge α) (he0 : e0 ∈ E) :
    reachable_from_cycle E e0.predecessor := by
  by_contra hno
  have hreach : ∀ {a b : α},
      Relation.TransGen (fun a b => edge.mk a b ∈ E ∧
        Relation.ReflTransGen (fun a b => edge.mk a b ∈ E) b e0.predecessor) a b →
      Relation.ReflTransGen (fun a b => edge.mk a b ∈ E) b e0.predecessor := by
    intro a b hab
    cases hab with
    | single h1 => exact h1.2
    | tail _ h2 => exact h2.2
  have hirr : ∀ a, ¬ Relation.TransGen (fun a b => edge.mk a b ∈ E ∧
      Relation.ReflTransGen (fun a b => edge.mk a b ∈ E) b e0.predecessor) a a := by
    intro a ha
    exact hno ⟨a, Relation.TransGen.mono (fun _ _ hab => hab.1) ha, hreach ha⟩
  haveI : IsStrictOrder α (Relation.TransGen (fun a b => edge.mk a b ∈ E ∧
      Relation.ReflTransGen (fun a b => edge.mk a b ∈ E) b e0.predecessor)) :=
    { irrefl := hirr, trans := fun _ _ _ h1 h2 => h1.trans h2 }
  have hfin : ({p | p ∈ E.map edge.predecessor} : Set α).Finite := List.finite_toSet _
  have hwf := Set.wellFoundedOn_iff.1
    (hfin.wellFoundedOn (r := Relation.TransGen (fun a b => edge.mk a b ∈ E ∧
      Relation.ReflTransGen (fun a b => edge.mk a b ∈ E) b e0.predecessor)))
  have hnonempty : ({v | v ∈ E.map edge.predecessor ∧
      Relation.ReflTransGen (fun a b => edge.mk a b ∈ E) v e0.predecessor} : Set α).Nonempty :=
    ⟨e0.predecessor, List.mem_map.2 ⟨e0, he0, rfl⟩, Relation.ReflTransGen.refl⟩
  obtain ⟨m, ⟨hm1, hm2⟩, hmin⟩ := hwf.has_min _ hnonempty
  obtain ⟨e, he, hem⟩ := List.mem_map.1 hm1
  obtain ⟨e1, he1, hs⟩ := h e he
  have hedge : edge.mk e1.predecessor m ∈ E := by
    rw [← hem, ← hs]
    exact he1
  have hx1 : e1.predecessor ∈ E.map edge.predecessor := List.mem_map.2 ⟨e1, he1, rfl⟩
  have hx2 : Relation.ReflTransGen (fun a b => edge.mk a b ∈ E) e1.predecessor
      e0.predecessor := Relation.ReflTransGen.head hedge hm2
  exact hmin e1.predecessor ⟨hx1, hx2⟩
    ⟨Relation.TransGen.single ⟨hedge, hm2⟩, hx1, hm1⟩

/-- No path starts at a node without outgoing edge. -/
theorem no_path_of_no_successor {E : List (edge α)} {a : α}
    (h : ∀ e ∈ E, e.predecessor ≠ a) (c : α) :
    ¬ Relation.TransGen (fun a b => edge.mk a b ∈ E) a c := by
  intro hp
  obtain ⟨b, hab, _⟩ := Relation.TransGen.head'_iff.1 hp
  exact h _ hab rfl

theorem reachable_from_cycle_mono {E E1 : List (edge α)} (hsub : ∀ e ∈ E1, e ∈ E) {v : α}
    (h : reachable_from_cycle E1 v) : reachable_from_cycle E v := by
  obtain ⟨c, hc, hv⟩ := h
  exact ⟨c, Relation.TransGen.mono (fun a b hab => hsub _ hab) hc,
    Relation.ReflTransGen.mono (fun a b hab => hsub _ hab) hv⟩

end CycleFacts2

section TsortFacts3

variable {α : Type} [DecidableEq α]

/-- The edges that `tsort` leaves are the edges whose predecessor lies on a
cycle or can be reached from one. -/
theorem tsort_edges_left_iff {N : List α} {E : List (edge α)} (hN : N.Nodup)
    (hE : ∀ e ∈ E, e.predecessor ∈ N ∧ e.successor ∈ N) {r : tsort_result α}
    (h : tsort N E = some r) :
    (∀ e ∈ r.edges, e ∈ E) ∧
    ∀ e ∈ E, (e ∈ r.edges ↔ reachable_from_cycle E e.predecessor) := by
  obtain ⟨S, hinv, hord, _⟩ := tsort_final h
  refine ⟨hinv.sub_edges, fun e he => ⟨?_, ?_⟩⟩
  · intro hleft
    apply reachable_from_cycle_mono hinv.sub_edges
    apply reachable_from_cycle_of_no_source r.edges _ e hleft
    intro e2 he2
    rcases hinv.covered _ (hE e2 (hinv.sub_edges e2 he2)).1 with h1 | h1 | h1
    · exact absurd h1 (hinv.pending e2 he2)
    · simp at h1
    · exact h1
  · intro hreach
    rcases hinv.removed e he with h1 | h1
    · exact h1
    · exact absurd h1 (not_sorted_of_reachable_from_cycle (hord hN) hreach)

end TsortFacts3

section NameFacts

/-- How `after_last_slash` splits a string: the result has no slash, and it is
either the whole string, which then has no slash, or what follows a slash of
the string. -/
theorem after_last_slash_spec (l : List Char) :
    '/' ∉ after_last_slash l ∧
    (('/' ∉ l ∧ after_last_slash l = l) ∨ ∃ front, l = front ++ '/' :: after_last_slash l) := by
  induction l with
  | nil => simp [after_last_slash]
  | cons c cs ih =>
    by_cases h1 : '/' ∈ cs
    · have hr : after_last_slash (c :: cs) = after_last_slash cs := by
        simp [after_last_slash, h1]
      rw [hr]
      refine ⟨ih.1, Or.inr ?_⟩
      rcases ih.2 with ⟨h2, _⟩ | ⟨front, h2⟩
      · exact absurd h1 h2
      · exact ⟨c :: front, by rw [List.cons_append, ← h2]⟩
    · by_cases h2 : c = '/'
      · have hr : after_last_slash (c :: cs) = cs := by
          simp [after_last_slash, h1, h2]
        rw [hr]
        exact ⟨h1, Or.inr ⟨[], by simp [h2]⟩⟩
      · have hr : after_last_slash (c :: cs) = c :: cs := by
          simp [after_last_slash, h1, h2]
        rw [hr]
        have h3 : '/' ∉ c :: cs := by
          simp only [List.mem_cons, not_or]
          exact ⟨fun h => h2 h.symm, h1⟩
        exact ⟨h3, Or.inl ⟨h3, rfl⟩⟩

theorem part_after_last_slash_of_not_mem (s : List Char) (h : '/' ∉ s) :
    part_after_last_slash s = s := by
  unfold part_after_last_slash
  rw [List.takeWhile_eq_self_iff.2, List.reverse_reverse]
  intro x hx
  have hne : x ≠ '/' := fun he => h (he ▸ List.mem_reverse.1 hx)
  simpa using hne

theorem part_after_last_slash_append (front s : List Char) (h : '/' ∉ s) :
    part_after_last_slash (front ++ '/' :: s) = s := by
  unfold part_after_last_slash
  have hall : ∀ x ∈ s.reverse, (fun c => c != '/') x = true := by
    intro x hx
    have hne : x ≠ '/' := fun he => h (he ▸ List.mem_reverse.1 hx)
    simpa using hne
  rw [List.reverse_append, List.reverse_cons, List.append_assoc,
    List.takeWhile_append_of_pos hall]
  simp

/-- The function `after_last_slash`, which follows the code, computes the part
after the last slash. -/
theorem after_last_slash_eq (l : List Char) :
    after_last_slash l = part_after_last_slash l := by
  rcases (after_last_slash_spec l).2 with ⟨h1, h2⟩ | ⟨front, h2⟩
  · rw [h2, part_after_last_slash_of_not_mem l h1]
  · have h3 := part_after_last_slash_append front _ (after_last_slash_spec l).1
    rw [← h2] at h3
    exact h3.symm

end NameFacts

section LoadFacts

/-- With the plugins of `slash_backend`, the first pass never finishes when it
starts from a list in which every plugin is a `b` that requires `x/b`. -/
theorem load_required_plugins_slash (fuel : Nat) :
    ∀ (i : Nat) (plugins required_plugins : List plugin),
      (∀ p ∈ plugins, p.name = "b" ∧ p.dependencies.requires = ["x/b"]) →
      i < plugins.length →
      load_required_plugins slash_backend fuel i plugins required_plugins = none := by
  induction fuel with
  | zero =>
    intro i plugins required_plugins _ hi
    simp [load_required_plugins, List.getElem?_eq_getElem hi]
  | succ fuel ih =>
    intro i plugins required_plugins hall hi
    have hreq := (hall _ (List.getElem_mem hi)).2
    have hget : get_plugin plugins "x/b" = none := by
      rw [get_plugin_eq_none_iff]
      intro p hp
      rw [(hall p hp).1]
      decide
    have hnew : new_plugin slash_backend (fresh_addr plugins) "x/b" .module
        = .ok ⟨fresh_addr plugins, "b", ⟨[], [], ["x/b"], [], [], []⟩, false, .module⟩ := rfl
    simp only [load_required_plugins, List.getElem?_eq_getElem hi, hreq, load_requires,
      __load_plugin, hget, hnew]
    apply ih
    · intro p hp
      rcases List.mem_append.1 hp with hp | hp
      · exact hall p hp
      · simp only [List.mem_singleton] at hp
        subst hp
        exact ⟨rfl, rfl⟩
    · simp only [List.length_append, List.length_singleton]
      omega

end LoadFacts

/-! ## Facts on the third pass and on the set of required plugins -/

section PruningFacts

end PruningFacts

section RequiredFacts

end RequiredFacts

/-! ## Facts on lists at the level of items -/

section ItemFacts

theorem first_of_append (cells : List (Nat × Nat)) (c : Nat × Nat) (after : Option Nat) :
    first_of (cells ++ [c]) after = first_of cells (some c.1) := by
  cases cells <;> simp [first_of]

theorem last_of_append (cells : List (Nat × Nat)) (c : Nat × Nat) (before : Option Nat) :
    last_of (cells ++ [c]) before = some c.1 := by
  simp [last_of]

theorem last_of_cons (c : Nat × Nat) (cells : List (Nat × Nat)) (before : Option Nat) :
    last_of (c :: cells) before = last_of cells (some c.1) := by
  cases cells with
  | nil => simp [last_of]
  | cons d rest =>
    simp only [last_of, List.getLast?_cons_cons]
    rw [List.getLast?_eq_getLast _ (List.cons_ne_nil d rest)]

/-- A chain that ends with the cell `c`: the cells before it are a chain that
points forward to `c`, and `c` points back to the last of them. -/
theorem is_chain_append (m : heap) (cells : List (Nat × Nat)) (c : Nat × Nat) :
    ∀ (before after : Option Nat),
      is_chain m before (cells ++ [c]) after ↔
        is_chain m before cells (some c.1) ∧ m c.1 = some ⟨c.2, after, last_of cells before⟩ := by
  induction cells with
  | nil =>
    intro before after
    simp [is_chain, first_of, last_of]
  | cons d rest ih =>
    intro before after
    show (m d.1 = some ⟨d.2, first_of (rest ++ [c]) after, before⟩ ∧
      is_chain m (some d.1) (rest ++ [c]) after) ↔ _
    rw [ih, first_of_append, last_of_cons]
    simp only [is_chain, and_assoc]

/-- A chain only depends on the items of its cells. -/
theorem is_chain_congr {m m1 : heap} (cells : List (Nat × Nat)) :
    ∀ (before after : Option Nat), (∀ c ∈ cells, m1 c.1 = m c.1) →
      is_chain m before cells after → is_chain m1 before cells after := by
  induction cells with
  | nil => intro _ _ _ _; trivial
  | cons d rest ih =>
    intro before after hsame h
    exact ⟨by rw [hsame d (List.mem_cons_self _ _)]; exact h.1,
      ih _ _ (fun c hc => hsame c (List.mem_cons_of_mem _ hc)) h.2⟩

theorem is_chain_allocated {m : heap} (cells : List (Nat × Nat)) :
    ∀ (before after : Option Nat), is_chain m before cells after →
      ∀ c ∈ cells, m c.1 ≠ none := by
  induction cells with
  | nil => intro _ _ _ c hc; simp at hc
  | cons d rest ih =>
    intro before after h c hc
    rcases List.mem_cons.1 hc with rfl | hc
    · rw [h.1]; simp
    · exact ih _ _ h.2 c hc

/-- The forward loop over a chain that ends with `NULL` visits its cells in
their order. -/
theorem list_for_each_from_chain (m : heap) (cells : List (Nat × Nat)) :
    ∀ (before : Option Nat) (fuel : Nat), is_chain m before cells none →
      cells.length ≤ fuel →
      list_for_each_from m fuel (first_of cells none) = some cells := by
  induction cells with
  | nil =>
    intro before fuel _ _
    cases fuel <;> simp [first_of, list_for_each_from]
  | cons d rest ih =>
    intro before fuel h hf
    cases fuel with
    | zero => simp at hf
    | succ fuel =>
      have h2 := ih (some d.1) fuel h.2 (by simpa using hf)
      show list_for_each_from m (fuel + 1) (some d.1) = _
      simp only [list_for_each_from, h.1, h2]

/-- The loop of `list_length` over a chain that ends with `NULL` counts its
cells. -/
theorem list_length_loop_chain (m : heap) (cells : List (Nat × Nat)) :
    ∀ (before : Option Nat) (fuel length : Nat), is_chain m before cells none →
      cells.length ≤ fuel →
      list_length_loop m fuel (first_of cells none) length = some (length + cells.length) := by
  induction cells with
  | nil =>
    intro before fuel length _ _
    cases fuel <;> simp [first_of, list_length_loop]
  | cons d rest ih =>
    intro before fuel length h hf
    cases fuel with
    | zero => simp at hf
    | succ fuel =>
      have h2 := ih (some d.1) fuel (length + 1) h.2 (by simpa using hf)
      show list_length_loop m (fuel + 1) (some d.1) length = _
      simp only [list_length_loop, h.1, h2, List.length_cons]
      congr 1
      omega

/-- The backward loop over a chain that begins with `NULL` visits its cells in
the reverse order. -/
theorem list_for_each_reverse_from_chain (m : heap) (cells : List (Nat × Nat)) :
    ∀ (after : Option Nat) (fuel : Nat), is_chain m none cells after →
      cells.length ≤ fuel →
      list_for_each_reverse_from m fuel (last_of cells none) = some cells.reverse := by
  induction cells using List.reverseRecOn with
  | nil =>
    intro after fuel _ _
    cases fuel <;> simp [last_of, list_for_each_reverse_from]
  | append_singleton rest d ih =>
    intro after fuel h hf
    obtain ⟨h1, h2⟩ := (is_chain_append m rest d none after).1 h
    cases fuel with
    | zero => simp at hf
    | succ fuel =>
      have h3 := ih (some d.1) fuel h1 (by simpa using hf)
      simp only [last_of_append, list_for_each_reverse_from, h2, h3, List.reverse_append,
        List.reverse_singleton, List.singleton_append]

end ItemFacts

section AppendFacts

theorem store_same (m : heap) (a : Nat) (i : list_item) : store m a i a = some i := by
  simp [store]

theorem store_other (m : heap) (a : Nat) (i : list_item) {x : Nat} (h : x ≠ a) :
    store m a i x = m x := by
  simp [store, h]

theorem first_of_cons_append (d : Nat × Nat) (cells : List (Nat × Nat)) (c : Nat × Nat)
    (after : Option Nat) : first_of (d :: cells ++ [c]) after = first_of (d :: cells) none := rfl

/-- A successful `list_append` with a new item keeps the list well formed and
adds one cell at its end. -/
theorem list_append_is_list {m : heap} {l : list} {cells : List (Nat × Nat)} {item : Nat}
    (x : Nat) (hl : is_list m l cells) (hfresh : m item = none) :
    ∃ m1 l1, list_append m l (some item) x = some (true, m1, l1) ∧
      is_list m1 l1 (cells ++ [(item, x)]) := by
  have hnotin : ∀ c ∈ cells, c.1 ≠ item := by
    intro c hc he
    exact is_chain_allocated cells _ _ hl.chain c hc (he ▸ hfresh)
  have hnd : ((cells ++ [(item, x)]).map Prod.fst).Nodup := by
    rw [List.map_append, List.nodup_append]
    refine ⟨hl.nodup, by simp, ?_⟩
    intro a ha hb
    simp only [List.map_cons, List.map_nil, List.mem_singleton] at hb
    obtain ⟨c, hc, hca⟩ := List.mem_map.1 ha
    exact hnotin c hc (hca.trans hb)
  obtain ⟨f, la⟩ := l
  have hf : f = first_of cells none := hl.first
  have hla : la = last_of cells none := hl.last
  have hsplit : cells = [] ∨ ∃ init d, cells = init ++ [d] := by
    rcases List.eq_nil_or_concat cells with h | ⟨init, d, h⟩
    · exact Or.inl h
    · exact Or.inr ⟨init, d, by rw [h, List.concat_eq_append]⟩
  rcases hsplit with rfl | ⟨init, d, rfl⟩
  · have hf2 : f = none := hf
    have hla2 : la = none := hla
    subst hf2 hla2
    refine ⟨store m item ⟨x, none, none⟩, ⟨some item, some item⟩, by simp [list_append], ?_⟩
    exact ⟨hnd, rfl, rfl, ⟨store_same _ _ _, trivial⟩⟩
  · obtain ⟨h1, h2⟩ := (is_chain_append m init d none none).1 hl.chain
    have hla2 : la = some d.1 := by rw [hla, last_of_append]
    have hfne : f ≠ none := by
      rw [hf]
      cases init <;> simp [first_of]
    have hd : d.1 ≠ item := hnotin d (by simp)
    subst hla2
    have hm1 : store m item ⟨x, none, some d.1⟩ d.1
        = some ⟨d.2, none, last_of init none⟩ := by
      rw [store_other _ _ _ hd, h2]
    refine ⟨store (store m item ⟨x, none, some d.1⟩) d.1 ⟨d.2, some item, last_of init none⟩,
      ⟨f, some item⟩, ?_, ?_⟩
    · simp only [list_append, hm1]
      simp [hfne]
    · refine ⟨hnd, ?_, ?_, ?_⟩
      · show f = first_of (init ++ [d] ++ [(item, x)]) none
        rw [hf]
        cases init <;> rfl
      · show some item = last_of (init ++ [d] ++ [(item, x)]) none
        rw [last_of_append]
      · apply (is_chain_append _ (init ++ [d]) (item, x) none none).2
        refine ⟨(is_chain_append _ init d none (some item)).2 ⟨?_, store_same _ _ _⟩, ?_⟩
        · apply is_chain_congr init none (some d.1) _ h1
          intro c hc
          have hcd : c.1 ≠ d.1 := by
            intro he
            have hnd2 := hl.nodup
            rw [List.map_append, List.nodup_append] at hnd2
            exact hnd2.2.2 (List.mem_map_of_mem Prod.fst hc) (by simp [he])
          have hci : c.1 ≠ item := hnotin c (by simp [hc])
          rw [store_other _ _ _ hcd]
          exact store_other _ _ _ hci
        · rw [store_other _ _ _ (Ne.symm hd), last_of_append]
          exact store_same _ _ _

end AppendFacts

/-! ## Facts on parse_seconds and parse_dependency -/

section ParseFacts

theorem takeWhile_isDigit_of_all (u : List Char) (h : u.all Char.isDigit = true) :
    u.takeWhile Char.isDigit = u := by
  rw [List.takeWhile_eq_self_iff]
  intro x hx
  exact List.all_eq_true.1 h x hx

theorem dropWhile_isDigit_eq_nil_iff (u : List Char) :
    u.dropWhile Char.isDigit = [] ↔ u.all Char.isDigit = true := by
  rw [List.dropWhile_eq_nil_iff, List.all_eq_true]

/-- The value that `strtol` returns for a positive number: the number itself
up to `LONG_MAX`. -/
theorem clamp_pos_iff (v : Int) :
    (0 < max LONG_MIN (min LONG_MAX v) ↔ 0 < v) ∧
    (0 < v → max LONG_MIN (min LONG_MAX v) = min v LONG_MAX) := by
  unfold LONG_MIN LONG_MAX
  constructor
  · constructor <;> intro h <;> omega
  · intro h
    omega

/-- What `strtol` does with a string, in terms of the part after white space
and sign. -/
theorem strtol_cases (s : List Char) :
    (integer_value s = none ∧ ((strtol s).2 ≠ [] ∨ (strtol s).1 ≤ 0)) ∨
    (∃ v, integer_value s = some v ∧ (strtol s).2 = [] ∧
      (strtol s).1 = max LONG_MIN (min LONG_MAX v)) := by
  unfold strtol integer_value
  dsimp only
  generalize s.dropWhile isspace = body
  generalize (if body.head? = some '-' ∨ body.head? = some '+' then body.tail else body) = u
  by_cases hd : u.takeWhile Char.isDigit = []
  · left
    have hnot : ¬ (u ≠ [] ∧ u.all Char.isDigit = true) := by
      rintro ⟨h1, h2⟩
      rw [takeWhile_isDigit_of_all u h2] at hd
      exact h1 hd
    rw [if_pos hd, if_neg hnot]
    exact ⟨rfl, Or.inr (le_refl _)⟩
  · by_cases hr : u.dropWhile Char.isDigit = []
    · right
      have hall := (dropWhile_isDigit_eq_nil_iff u).1 hr
      have htake := takeWhile_isDigit_of_all u hall
      have hne : u ≠ [] := by
        intro h
        rw [h] at hd
        simp at hd
      rw [if_neg hd, if_pos ⟨hne, hall⟩, htake]
      exact ⟨_, rfl, hr, rfl⟩
    · left
      have hall : ¬ (u ≠ [] ∧ u.all Char.isDigit = true) :=
        fun h => hr ((dropWhile_isDigit_eq_nil_iff u).2 h.2)
      rw [if_neg hd, if_neg hall]
      exact ⟨rfl, Or.inl hr⟩

/-- When `parse_seconds` returns a timespec. -/
theorem parse_seconds_some_iff (s : List Char) (t : timespec) :
    parse_seconds (some s) = some t ↔
      ∃ v, integer_value s = some v ∧ 0 < v ∧ t = ⟨min v LONG_MAX, 0⟩ := by
  unfold parse_seconds
  rcases strtol_cases s with ⟨h1, h2⟩ | ⟨v, h1, h2, h3⟩
  · simp [h1, h2]
  · simp only [h1, h2, h3, Option.some.injEq, ne_eq, not_true_eq_false, false_or]
    by_cases hv : 0 < v
    · have hc := (clamp_pos_iff v).2 hv
      have hpos : ¬ min v LONG_MAX ≤ 0 := by
        have := (clamp_pos_iff v).1.2 hv
        rw [hc] at this
        omega
      rw [hc]
      simp only [hpos, if_false, Option.some.injEq]
      constructor
      · intro h
        exact ⟨v, rfl, hv, h.symm⟩
      · rintro ⟨v1, rfl, _, rfl⟩
        rfl
    · have hnp : max LONG_MIN (min LONG_MAX v) ≤ 0 := by
        have := (clamp_pos_iff v).1
        by_contra hcon
        exact hv (this.1 (by omega))
      simp only [hnp, if_true]
      constructor
      · intro h
        simp at h
      · rintro ⟨v1, rfl, h, _⟩
        exact absurd h hv

end ParseFacts

section TokenFacts

theorem contains_delimiters (c : Char) : [' ', '\r', '\n'].contains c = is_separator c := by
  simp only [is_separator, List.contains, List.elem]
  by_cases h1 : c = ' '
  · simp [h1]
  · by_cases h2 : c = '\r'
    · simp [h2]
    · by_cases h3 : c = '\n'
      · simp [h3]
      · have e1 : (c == ' ') = false := by simpa using h1
        have e2 : (c == '\r') = false := by simpa using h2
        have e3 : (c == '\n') = false := by simpa using h3
        simp [h1, h2, h3, e1, e2, e3]

theorem dropWhile_cons_head {p : Char → Bool} {l : List Char} {d : Char} {r : List Char}
    (h : l.dropWhile p = d :: r) : p d = false := by
  have h1 := List.head?_dropWhile_not p l
  rw [h] at h1
  simpa using h1

theorem separated_tokens_nil : separated_tokens [] = [] := rfl

theorem separated_tokens_cons_separator (c : Char) (cs : List Char)
    (h : is_separator c = true) : separated_tokens (c :: cs) = separated_tokens cs := by
  simp [separated_tokens, List.splitOnP_cons, h]

theorem separated_tokens_dropWhile (s : List Char) :
    separated_tokens (s.dropWhile is_separator) = separated_tokens s := by
  induction s with
  | nil => rfl
  | cons c cs ih =>
    by_cases h : is_separator c = true
    · rw [List.dropWhile_cons_of_pos h, ih, separated_tokens_cons_separator c cs h]
    · rw [List.dropWhile_cons_of_neg h]

theorem separated_tokens_single (token : List Char) (hne : token ≠ [])
    (h : ∀ x ∈ token, ¬ is_separator x = true) : separated_tokens token = [token] := by
  unfold separated_tokens
  rw [List.splitOnP_eq_single is_separator token h]
  cases token with
  | nil => exact absurd rfl hne
  | cons a b => rfl

theorem separated_tokens_first (token : List Char) (hne : token ≠ [])
    (h : ∀ x ∈ token, ¬ is_separator x = true) (d : Char) (hd : is_separator d = true)
    (rest : List Char) :
    separated_tokens (token ++ d :: rest) = token :: separated_tokens rest := by
  unfold separated_tokens
  rw [List.splitOnP_first is_separator token h d hd]
  cases token with
  | nil => exact absurd rfl hne
  | cons a b => rfl

/-- One call of `strtok_r` with the delimiters of `parse_dependency`: either
no token is left, or the string is split into a first token and a shorter
rest. -/
theorem strtok_r_cases (s : List Char) :
    (strtok_r [' ', '\r', '\n'] s = none ∧ separated_tokens s = []) ∨
    (∃ token rest, strtok_r [' ', '\r', '\n'] s = some (token, rest) ∧
      separated_tokens s = token :: separated_tokens rest ∧ rest.length < s.length) := by
  have hfun : (fun c => [' ', '\r', '\n'].contains c) = is_separator :=
    funext contains_delimiters
  have hfun2 : (fun c => !([' ', '\r', '\n'].contains c)) = fun c => !is_separator c :=
    funext (fun c => by rw [contains_delimiters])
  unfold strtok_r
  dsimp only
  rw [hfun, hfun2, ← separated_tokens_dropWhile s]
  have hlen : (s.dropWhile is_separator).length ≤ s.length :=
    (List.dropWhile_sublist is_separator).length_le
  cases hs1 : s.dropWhile is_separator with
  | nil => exact Or.inl ⟨by simp, rfl⟩
  | cons a s2 =>
    rw [hs1] at hlen
    right
    have ha : is_separator a = false := dropWhile_cons_head hs1
    rw [if_neg (by simp)]
    refine ⟨_, _, rfl, ?_⟩
    have hsplit := List.takeWhile_append_dropWhile (fun c => !is_separator c) (a :: s2)
    have htok : ∀ x ∈ (a :: s2).takeWhile (fun c => !is_separator c),
        ¬ is_separator x = true := by
      intro x hx
      have := List.mem_takeWhile_imp hx
      simpa using this
    have hne : (a :: s2).takeWhile (fun c => !is_separator c) ≠ [] := by
      simp [List.takeWhile_cons, ha]
    cases hr : (a :: s2).dropWhile (fun c => !is_separator c) with
    | nil =>
      rw [hr, List.append_nil] at hsplit
      rw [hsplit]
      refine ⟨?_, by simp only [List.tail_nil, List.length_nil]; simp only [List.length_cons] at hlen; omega⟩
      rw [List.tail_nil, separated_tokens_nil]
      have h2 := separated_tokens_single _ hne htok
      rw [hsplit] at h2
      exact h2
    | cons d r =>
      have hd : is_separator d = true := by
        have := dropWhile_cons_head hr
        simpa using this
      rw [hr] at hsplit
      refine ⟨?_, ?_⟩
      · rw [List.tail_cons]
        have h2 := separated_tokens_first _ hne htok d hd r
        rw [hsplit] at h2
        exact h2
      · have h3 : ((a :: s2).dropWhile (fun c => !is_separator c)).length ≤ (a :: s2).length :=
          (List.dropWhile_sublist _).length_le
        rw [hr] at h3
        simp only [List.tail_cons, List.length_cons] at h3 hlen ⊢
        omega

/-- The loop of `parse_dependency` ends and appends the separated tokens. -/
theorem parse_dependency_loop_eq (fuel : Nat) :
    ∀ (s : List Char) (dependency_list : List String), s.length < fuel →
      parse_dependency_loop fuel s dependency_list
        = some (true, dependency_list ++ (separated_tokens s).map String.mk) := by
  induction fuel with
  | zero => intro s _ h; simp at h
  | succ fuel ih =>
    intro s dependency_list h
    rcases strtok_r_cases s with ⟨h1, h2⟩ | ⟨token, rest, h1, h2, h3⟩
    · simp [parse_dependency_loop, h1, h2]
    · simp only [parse_dependency_loop, h1]
      rw [ih rest _ (by omega), h2]
      simp

end TokenFacts

section SplitFacts

/-- No piece of a split holds a separating element, and the pieces together
are the list without its separating elements. -/
theorem splitOnP_pieces (p : Char → Bool) (l : List Char) :
    (∀ t ∈ l.splitOnP p, ∀ x ∈ t, p x = false) ∧
    (l.splitOnP p).flatten = l.filter (fun x => !p x) := by
  induction l with
  | nil => simp [List.splitOnP_nil]
  | cons c cs ih =>
    rw [List.splitOnP_cons]
    by_cases hc : p c = true
    · simp only [hc, if_true, List.flatten_cons, List.nil_append]
      refine ⟨?_, ?_⟩
      · intro t ht x hx
        rcases List.mem_cons.1 ht with ht | ht
        · rw [ht] at hx
          simp at hx
        · exact ih.1 t ht x hx
      · rw [ih.2, List.filter_cons_of_neg (by simp [hc])]
    · have hc2 : p c = false := by simpa using hc
      simp only [hc, if_false]
      cases hsplit : cs.splitOnP p with
      | nil => exact absurd hsplit (List.splitOnP_ne_nil p cs)
      | cons h tl =>
        rw [hsplit] at ih
        simp only [List.modifyHead_cons, List.flatten_cons]
        refine ⟨?_, ?_⟩
        · intro t ht x hx
          rcases List.mem_cons.1 ht with ht | ht
          · rw [ht] at hx
            rcases List.mem_cons.1 hx with hx | hx
            · rw [hx]
              exact hc2
            · exact ih.1 h (List.mem_cons_self _ _) x hx
          · exact ih.1 t (List.mem_cons_of_mem _ ht) x hx
        · rw [List.filter_cons_of_pos (by simp [hc2]), ← ih.2]
          simp

theorem flatten_filter_nonempty (L : List (List Char)) :
    (L.filter (fun t => !t.isEmpty)).flatten = L.flatten := by
  induction L with
  | nil => rfl
  | cons t tl ih =>
    cases t with
    | nil => simpa using ih
    | cons a b => simp [List.filter_cons, ih]

/-- The separated tokens: none is empty, none holds a separator, and together
they are the data without its separators. -/
theorem separated_tokens_spec (data : List Char) :
    (∀ t ∈ separated_tokens data, t ≠ [] ∧ ∀ c ∈ t, is_separator c = false) ∧
    (separated_tokens data).flatten = data.filter (fun c => !is_separator c) := by
  unfold separated_tokens
  refine ⟨?_, ?_⟩
  · intro t ht
    obtain ⟨h1, h2⟩ := List.mem_filter.1 ht
    refine ⟨?_, (splitOnP_pieces is_separator data).1 t h1⟩
    intro h
    rw [h] at h2
    simp at h2
  · rw [flatten_filter_nonempty, (splitOnP_pieces is_separator data).2]

theorem c_string_of_no_nul (data : List Char) (h : '\x00' ∉ data) : c_string data = data := by
  unfold c_string
  rw [List.takeWhile_eq_self_iff]
  intro x hx
  have hne : x ≠ '\x00' := fun he => h (he ▸ hx)
  simpa using hne

end SplitFacts

/-! ## Facts on read_dependency -/

section ReadFacts

theorem length_c_string_le (data : List Char) : (c_string data).length ≤ data.length :=
  (List.takeWhile_sublist _).length_le

theorem length_strncpy (src : List Char) (n : Nat) : (strncpy src n).length = n := by
  unfold strncpy
  have h1 := length_c_string_le (src.take n)
  have h2 : (src.take n).length ≤ n := by simp
  rw [List.length_append, List.length_replicate]
  omega

theorem length_realloc (block : List Char) (size : Nat) : (realloc block size).length = size := by
  unfold realloc
  rw [List.length_append, List.length_replicate, List.length_take]
  omega

theorem length_write_at (block : List Char) (offset : Nat) (bytes : List Char)
    (h : offset + bytes.length ≤ block.length) :
    (write_at block offset bytes).length = block.length := by
  unfold write_at
  rw [List.length_append, List.length_append, List.length_take, List.length_drop]
  omega

/-- The block after one more chunk was read has the size `data_length`. -/
theorem length_data_after_read (data buffer : List Char) (data_length : Nat) :
    (write_at (realloc data (data_length + buffer.length)) data_length
      (strncpy buffer buffer.length)).length = data_length + buffer.length := by
  rw [length_write_at _ _ _ (by rw [length_strncpy, length_realloc]), length_realloc]

theorem total_length_cons (e : read_event) (events : List read_event) :
    total_length (e :: events) = (e.read.getD []).length + total_length events := by
  simp [total_length]

/-- The loop of `read_dependency` for a script that prints chunks within the
time limit and then closes its output: the output is accepted when it is
shorter than `LINE_MAX`, and rejected with `EFBIG` otherwise.  When it is
accepted, the size of the block is `data_length`, or 1 when nothing was
read. -/
theorem read_dependency_loop_spec (events : List read_event) :
    ∀ (s : read_state), within_budget events s.timeout = true → ends_with_eof events = true →
      s.data_length + 1 ≤ LINE_MAX → s.data.length = max 1 s.data_length →
      (s.data_length + total_length events + 1 ≤ LINE_MAX →
        ∃ s1, read_dependency_loop events s = .ok s1 ∧
          s1.data_length = s.data_length + total_length events ∧
          s1.data.length = max 1 s1.data_length) ∧
      (LINE_MAX < s.data_length + total_length events + 1 →
        read_dependency_loop events s = .error EFBIG) := by
  induction events with
  | nil => intro s _ he; simp [ends_with_eof] at he
  | cons e events ih =>
    intro s hb he hs hsize
    simp only [within_budget, Bool.and_eq_true, decide_eq_true_eq] at hb
    obtain ⟨⟨hready, hel⟩, hb2⟩ := hb
    have hnot : ¬ e.elapsed > s.timeout := by omega
    cases events with
    | nil =>
      have hread : e.read = some [] := by simpa [ends_with_eof] using he
      have htotal : total_length [e] = 0 := by simp [total_length, hread]
      rw [htotal]
      refine ⟨fun _ => ⟨{ s with timeout := s.timeout - e.elapsed }, ?_, rfl, hsize⟩, ?_⟩
      · simp [read_dependency_loop, hready, hnot, hread]
      · intro h
        omega
    | cons e2 rest =>
      have he1 : (e.read.map (fun chunk => !chunk.isEmpty)).getD false = true ∧
          ends_with_eof (e2 :: rest) = true := by
        simpa [ends_with_eof] using he
      obtain ⟨hchunk, he2⟩ := he1
      cases hread : e.read with
      | none => simp [hread] at hchunk
      | some buffer =>
        have hne : buffer.length ≠ 0 := by
          intro h0
          rw [hread] at hchunk
          have : buffer = [] := List.length_eq_zero.1 h0
          simp [this] at hchunk
        rw [total_length_cons, hread]
        simp only [Option.getD_some]
        by_cases hbig : s.data_length + buffer.length + 1 > LINE_MAX
        · refine ⟨fun h => ?_, fun _ => ?_⟩
          · omega
          · simp [read_dependency_loop, hready, hnot, hread, hne, hbig]
        · have hstep : read_dependency_loop (e :: e2 :: rest) s
              = read_dependency_loop (e2 :: rest)
                  ⟨write_at (realloc s.data (s.data_length + buffer.length)) s.data_length
                    (strncpy buffer buffer.length), s.data_length + buffer.length,
                    s.timeout - e.elapsed⟩ := by
            simp [read_dependency_loop, hready, hnot, hread, hne, hbig]
          rw [hstep]
          have hsize2 : (write_at (realloc s.data (s.data_length + buffer.length)) s.data_length
              (strncpy buffer buffer.length)).length
              = max 1 (s.data_length + buffer.length) := by
            rw [length_data_after_read]
            omega
          obtain ⟨h1, h2⟩ := ih
            ⟨write_at (realloc s.data (s.data_length + buffer.length)) s.data_length
              (strncpy buffer buffer.length), s.data_length + buffer.length,
              s.timeout - e.elapsed⟩ hb2 he2
            (show s.data_length + buffer.length + 1 ≤ LINE_MAX by omega) hsize2
          refine ⟨fun h => ?_, fun h => ?_⟩
          · obtain ⟨s1, hs1, hlen, hsz⟩ := h1
              (show s.data_length + buffer.length + total_length (e2 :: rest) + 1 ≤ LINE_MAX
                by omega)
            refine ⟨s1, hs1, ?_, hsz⟩
            rw [hlen]
            show s.data_length + buffer.length + total_length (e2 :: rest) = _
            omega
          · exact h2
              (show LINE_MAX < s.data_length + buffer.length + total_length (e2 :: rest) + 1
                by omega)

/-- A script prints 2047 bytes and then some more: the output is rejected with
`EFBIG`. -/
theorem read_dependency_rejects (big small : List Char) (hbig : big.length = 2047)
    (hsmall : small ≠ []) :
    within_budget (prints [big, small]) 1000000 = true ∧
    total_length (prints [big, small]) = 2047 + small.length ∧
    (read_dependency (prints [big, small])).result = .error EFBIG := by
  have hbne : big ≠ [] := by
    intro h
    rw [h] at hbig
    simp at hbig
  have hb : within_budget (prints [big, small]) 1000000 = true := by
    simp [prints, within_budget]
  have ht : total_length (prints [big, small]) = 2047 + small.length := by
    simp [prints, total_length, hbig]
  have he : ends_with_eof (prints [big, small]) = true := by
    simp [prints, ends_with_eof, hbne, hsmall]
  have hpos : 0 < small.length := List.length_pos.2 hsmall
  have h := (read_dependency_loop_spec _ ⟨['\x00'], 0, 1000000⟩ hb he (by decide) rfl).2
    (by rw [ht]; show 2048 < 0 + (2047 + small.length) + 1; omega)
  exact ⟨hb, ht, by simp only [read_dependency, h]⟩

end ReadFacts

/-! ## Facts on create_child -/

section ChildFacts

theorem mem_close {fd x : Int} {l : List Int} : x ∈ close fd l ↔ x ∈ l ∧ x ≠ fd := by
  simp [close]

theorem close_of_not_mem {fd : Int} {l : List Int} (h : fd ∉ l) : close fd l = l := by
  unfold close
  rw [List.filter_eq_self]
  intro x hx
  have hne : x ≠ fd := fun he => h (he ▸ hx)
  simpa using hne

theorem close_cons_self (fd : Int) (l : List Int) : close fd (fd :: l) = close fd l := by
  simp [close]

theorem close_comm (a b : Int) (l : List Int) : close a (close b l) = close b (close a l) := by
  simp only [close, List.filter_filter]
  congr 1
  funext x
  exact Bool.and_comm _ _

theorem close_cons_other (fd x : Int) (l : List Int) :
    close fd (x :: l) = if x = fd then close fd l else x :: close fd l := by
  by_cases h : x = fd
  · rw [if_pos h, h, close_cons_self]
  · rw [if_neg h]
    simp [close, h]

/-- A pipe that was opened last is closed again: the open descriptors are as
before. -/
theorem close_pipe_push (p : Int × Int) (l : List Int) (h1 : p.1 ∉ l) (h2 : p.2 ∉ l) :
    close_pipe p (p.1 :: p.2 :: l) = l := by
  unfold close_pipe
  rw [close_cons_self, close_cons_other]
  by_cases h : p.2 = p.1
  · rw [if_pos h, close_of_not_mem h1, close_of_not_mem h2]
  · rw [if_neg h, close_of_not_mem h1, close_cons_self, close_of_not_mem h2]

theorem close_pipe_close (p : Int × Int) (x : Int) (l : List Int) :
    close_pipe p (close x l) = close x (close_pipe p l) := by
  unfold close_pipe
  rw [close_comm p.1 x, close_comm p.2 x]

/-- What a successful `pipe_if` leaves. -/
theorem pipe_if_ok {field : Int} {result : Except Nat (Int × Int)} {fds fds1 : List Int}
    {p : Int × Int} (h : pipe_if field result fds = .ok (p, fds1)) :
    (field = REDIRECT_PIPE ∧ result = .ok p ∧ fds1 = p.1 :: p.2 :: fds) ∨
    (field ≠ REDIRECT_PIPE ∧ fds1 = fds) := by
  unfold pipe_if at h
  by_cases hf : field = REDIRECT_PIPE
  · rw [if_pos hf] at h
    cases result with
    | error e => simp at h
    | ok q =>
      simp only [Except.ok.injEq, Prod.mk.injEq] at h
      obtain ⟨rfl, rfl⟩ := h
      exact Or.inl ⟨hf, rfl, rfl⟩
  · rw [if_neg hf] at h
    simp only [Except.ok.injEq, Prod.mk.injEq] at h
    exact Or.inr ⟨hf, h.2.symm⟩

theorem pipe_if_error {field : Int} {result : Except Nat (Int × Int)} {fds : List Int}
    {errno : Nat} (h : pipe_if field result fds = .error errno) :
    field = REDIRECT_PIPE ∧ result = .error errno := by
  unfold pipe_if at h
  by_cases hf : field = REDIRECT_PIPE
  · rw [if_pos hf] at h
    cases result with
    | error e =>
      simp only [Except.error.injEq] at h
      exact ⟨hf, by rw [h]⟩
    | ok q => simp at h
  · rw [if_neg hf] at h
    simp at h

/-- The descriptors after a successful `pipe_if` are those before and those of
the pipe. -/
theorem mem_of_pipe_if_ok {field : Int} {result : Except Nat (Int × Int)}
    {fds fds1 : List Int} {p : Int × Int} (h : pipe_if field result fds = .ok (p, fds1))
    {x : Int} (hx : x ∈ fds1) : x ∈ pipe_fds result ∨ x ∈ fds := by
  rcases pipe_if_ok h with ⟨_, hr, hf⟩ | ⟨_, hf⟩
  · rw [hf] at hx
    rw [hr]
    simp only [pipe_fds, List.mem_cons, List.mem_singleton, List.not_mem_nil, or_false]
    simp only [List.mem_cons] at hx
    tauto
  · rw [hf] at hx
    exact Or.inr hx

/-- The cleanup of one stage of `create_child` undoes the stage, also after
another descriptor was closed. -/
theorem undo_stage {field : Int} {result : Except Nat (Int × Int)} {fds fds1 : List Int}
    {p : Int × Int} (h : pipe_if field result fds = .ok (p, fds1))
    (hfresh : ∀ fd ∈ pipe_fds result, fd ∉ fds) (x : Int) :
    (if field = REDIRECT_PIPE then close_pipe p (close x fds1) else close x fds1)
      = close x fds := by
  rcases pipe_if_ok h with ⟨hf, hr, hfds⟩ | ⟨hf, hfds⟩
  · rw [if_pos hf, hfds, close_pipe_close]
    rw [hr] at hfresh
    rw [close_pipe_push p fds (hfresh p.1 (by simp [pipe_fds]))
      (hfresh p.2 (by simp [pipe_fds]))]
  · rw [if_neg hf, hfds]

theorem step_of_pipe_if_ok {field : Int} {result : Except Nat (Int × Int)}
    {fds fds1 : List Int} {p : Int × Int} (h : pipe_if field result fds = .ok (p, fds1)) :
    (if field = REDIRECT_PIPE then error_of result else none) = none := by
  rcases pipe_if_ok h with ⟨hf, hr, _⟩ | ⟨hf, _⟩
  · rw [if_pos hf, hr]
    rfl
  · rw [if_neg hf]

theorem step_of_pipe_if_error {field : Int} {result : Except Nat (Int × Int)}
    {fds : List Int} {errno : Nat} (h : pipe_if field result fds = .error errno) :
    (if field = REDIRECT_PIPE then error_of result else none) = some errno := by
  obtain ⟨hf, hr⟩ := pipe_if_error h
  rw [if_pos hf, hr]
  rfl

end ChildFacts

section ChildFacts2

theorem undo_stage_first {field : Int} {result : Except Nat (Int × Int)} {fds fds1 : List Int}
    {p : Int × Int} (h : pipe_if field result fds = .ok (p, fds1))
    (hfresh : ∀ fd ∈ pipe_fds result, fd ∉ fds) :
    (if field = REDIRECT_PIPE then close_pipe p fds1 else fds1) = fds := by
  rcases pipe_if_ok h with ⟨hf, hr, hfds⟩ | ⟨hf, hfds⟩
  · rw [if_pos hf, hfds]
    rw [hr] at hfresh
    exact close_pipe_push p fds (hfresh p.1 (by simp [pipe_fds])) (hfresh p.2 (by simp [pipe_fds]))
  · rw [if_neg hf, hfds]

/-- The descriptors of different `pipe` calls differ, and none of them was
open before. -/
theorem new_fds_facts {w : child_world} {open_fds : List Int} (hnew : (new_fds w).Nodup)
    (hfresh : ∀ fd ∈ new_fds w, fd ∉ open_fds) :
    (∀ fd ∈ pipe_fds w.status_pipe, fd ∉ open_fds) ∧
    (∀ fd ∈ pipe_fds w.stdin_pipe, fd ∉ pipe_fds w.status_pipe ∧ fd ∉ open_fds) ∧
    (∀ fd ∈ pipe_fds w.stdout_pipe,
      fd ∉ pipe_fds w.stdin_pipe ∧ fd ∉ pipe_fds w.status_pipe ∧ fd ∉ open_fds) ∧
    (∀ fd ∈ pipe_fds w.stderr_pipe, fd ∉ pipe_fds w.stdout_pipe ∧
      fd ∉ pipe_fds w.stdin_pipe ∧ fd ∉ pipe_fds w.status_pipe ∧ fd ∉ open_fds) := by
  unfold new_fds at hnew hfresh
  rw [List.nodup_append] at hnew
  obtain ⟨h3, _, d3⟩ := hnew
  rw [List.nodup_append] at h3
  obtain ⟨h2, _, d2⟩ := h3
  rw [List.nodup_append] at h2
  obtain ⟨_, _, d1⟩ := h2
  refine ⟨?_, ?_, ?_, ?_⟩
  · intro fd hfd
    exact hfresh fd (by simp [hfd])
  · intro fd hfd
    exact ⟨fun h => d1 h hfd, hfresh fd (by simp [hfd])⟩
  · intro fd hfd
    exact ⟨fun h => d2 (by simp [h]) hfd, fun h => d2 (by simp [h]) hfd,
      hfresh fd (by simp [hfd])⟩
  · intro fd hfd
    exact ⟨fun h => d3 (by simp [h]) hfd, fun h => d3 (by simp [h]) hfd,
      fun h => d3 (by simp [h]) hfd, hfresh fd (by simp [hfd])⟩

end ChildFacts2

section ChildFacts3

/-- What `create_child` leaves in the parent: it succeeds when no step fails,
and otherwise fails with the `errno` of the first step that fails, with the
open descriptors and the descriptor fields as on entry. -/
theorem create_child_spec (w : child_world) (errno : Nat) (child : child_process)
    (open_fds : List Int) (hnew : (new_fds w).Nodup)
    (hfresh : ∀ fd ∈ new_fds w, fd ∉ open_fds) (r : child_result)
    (hr : create_child w errno child open_fds = r) :
    (first_failure (failing_steps w child) = none ∧ r.ok = true) ∨
    (∃ e, first_failure (failing_steps w child) = some e ∧ r.ok = false ∧ r.errno = e ∧
      r.open_fds = open_fds ∧ r.child.stdin_fd = child.stdin_fd ∧
      r.child.stdout_fd = child.stdout_fd ∧ r.child.stderr_fd = child.stderr_fd) := by
  obtain ⟨fS, fI, fO, fE⟩ := new_fds_facts hnew hfresh
  unfold create_child at hr
  cases hs : w.status_pipe with
  | error e =>
    rw [hs] at hr
    subst hr
    exact Or.inr ⟨e, by simp [failing_steps, first_failure, hs, error_of],
      rfl, rfl, rfl, rfl, rfl, rfl⟩
  | ok sp =>
    rw [hs] at hr fS fI fO fE
    simp only [pipe_fds, List.mem_cons, List.mem_singleton, List.not_mem_nil, or_false,
      not_or] at fS fI fO fE
    have hsp : close_pipe sp (sp.1 :: sp.2 :: open_fds) = open_fds :=
      close_pipe_push sp open_fds (fS sp.1 (Or.inl rfl)) (fS sp.2 (Or.inr rfl))
    have e0 : error_of w.status_pipe = none := by rw [hs]; rfl
    dsimp only at hr
    cases h1 : pipe_if child.stdin_fd w.stdin_pipe (sp.1 :: sp.2 :: open_fds) with
    | error e =>
      rw [h1] at hr
      subst hr
      refine Or.inr ⟨e, ?_, rfl, rfl, hsp, rfl, rfl, rfl⟩
      simp only [failing_steps, e0, step_of_pipe_if_error h1, first_failure]
    | ok r1 =>
      obtain ⟨ip, F2⟩ := r1
      rw [h1] at hr
      dsimp only at hr
      have e1 := step_of_pipe_if_ok h1
      have hF1 : ∀ fd ∈ pipe_fds w.stdin_pipe, fd ∉ sp.1 :: sp.2 :: open_fds := by
        intro fd hfd hmem
        obtain ⟨⟨a, b⟩, c⟩ := fI fd hfd
        simp only [List.mem_cons] at hmem
        tauto
      have hmem2 : ∀ fd ∈ F2, fd ∈ pipe_fds w.stdin_pipe ∨ fd = sp.1 ∨ fd = sp.2 ∨
          fd ∈ open_fds := by
        intro fd hfd
        rcases mem_of_pipe_if_ok h1 hfd with h | h
        · exact Or.inl h
        · simp only [List.mem_cons] at h
          tauto
      have hF2 : ∀ fd ∈ pipe_fds w.stdout_pipe, fd ∉ F2 := by
        intro fd hfd hmem
        obtain ⟨a, ⟨b, c⟩, d⟩ := fO fd hfd
        rcases hmem2 fd hmem with h | h | h | h <;> tauto
      cases h2 : pipe_if child.stdout_fd w.stdout_pipe F2 with
      | error e =>
        rw [h2] at hr
        subst hr
        refine Or.inr ⟨e, ?_, rfl, rfl, ?_, rfl, rfl, rfl⟩
        · simp only [failing_steps, e0, e1, step_of_pipe_if_error h2, first_failure]
        · show close_pipe sp (if child.stdin_fd = REDIRECT_PIPE then close_pipe ip F2 else F2)
            = open_fds
          rw [undo_stage_first h1 hF1, hsp]
      | ok r2 =>
        obtain ⟨op, F3⟩ := r2
        rw [h2] at hr
        dsimp only at hr
        have e2 := step_of_pipe_if_ok h2
        have hmem3 : ∀ fd ∈ F3, fd ∈ pipe_fds w.stdout_pipe ∨ fd ∈ pipe_fds w.stdin_pipe ∨
            fd = sp.1 ∨ fd = sp.2 ∨ fd ∈ open_fds := by
          intro fd hfd
          rcases mem_of_pipe_if_ok h2 hfd with h | h
          · exact Or.inl h
          · exact Or.inr (hmem2 fd h)
        have hF3 : ∀ fd ∈ pipe_fds w.stderr_pipe, fd ∉ F3 := by
          intro fd hfd hmem
          obtain ⟨a, b, ⟨c, d⟩, e⟩ := fE fd hfd
          rcases hmem3 fd hmem with h | h | h | h | h <;> tauto
        cases h3 : pipe_if child.stderr_fd w.stderr_pipe F3 with
        | error e =>
          rw [h3] at hr
          subst hr
          refine Or.inr ⟨e, ?_, rfl, rfl, ?_, rfl, rfl, rfl⟩
          · simp only [failing_steps, e0, e1, e2, step_of_pipe_if_error h3, first_failure]
          · show close_pipe sp (if child.stdin_fd = REDIRECT_PIPE then close_pipe ip
                (if child.stdout_fd = REDIRECT_PIPE then close_pipe op F3 else F3)
              else (if child.stdout_fd = REDIRECT_PIPE then close_pipe op F3 else F3))
              = open_fds
            rw [undo_stage_first h2 hF2, undo_stage_first h1 hF1, hsp]
        | ok r3 =>
          obtain ⟨ep, F4⟩ := r3
          rw [h3] at hr
          dsimp only at hr
          have e3 := step_of_pipe_if_ok h3
          cases hf : w.fork with
          | error e =>
            rw [hf] at hr
            subst hr
            have e4 : error_of w.fork = some e := by rw [hf]; rfl
            refine Or.inr ⟨e, ?_, rfl, rfl, ?_, rfl, rfl, rfl⟩
            · simp only [failing_steps, e0, e1, e2, e3, e4, first_failure]
            · show close_pipe sp (if child.stdin_fd = REDIRECT_PIPE then close_pipe ip
                  (if child.stdout_fd = REDIRECT_PIPE then close_pipe op
                    (if child.stderr_fd = REDIRECT_PIPE then close_pipe ep F4 else F4)
                  else (if child.stderr_fd = REDIRECT_PIPE then close_pipe ep F4 else F4))
                else (if child.stdout_fd = REDIRECT_PIPE then close_pipe op
                    (if child.stderr_fd = REDIRECT_PIPE then close_pipe ep F4 else F4)
                  else (if child.stderr_fd = REDIRECT_PIPE then close_pipe ep F4 else F4)))
                = open_fds
              rw [undo_stage_first h3 hF3, undo_stage_first h2 hF2, undo_stage_first h1 hF1,
                hsp]
          | ok pid =>
            rw [hf] at hr
            dsimp only at hr
            have e4 : error_of w.fork = none := by rw [hf]; rfl
            cases hrd : w.status_read with
            | some e =>
              rw [hrd] at hr
              subst hr
              refine Or.inr ⟨e, ?_, rfl, rfl, ?_, rfl, rfl, rfl⟩
              · simp only [failing_steps, e0, e1, e2, e3, e4, hrd, first_failure]
              · show close_pipe sp (if child.stdin_fd = REDIRECT_PIPE then close_pipe ip
                    (if child.stdout_fd = REDIRECT_PIPE then close_pipe op
                      (if child.stderr_fd = REDIRECT_PIPE then close_pipe ep (close sp.2 F4)
                        else close sp.2 F4)
                    else (if child.stderr_fd = REDIRECT_PIPE then close_pipe ep (close sp.2 F4)
                        else close sp.2 F4))
                  else (if child.stdout_fd = REDIRECT_PIPE then close_pipe op
                      (if child.stderr_fd = REDIRECT_PIPE then close_pipe ep (close sp.2 F4)
                        else close sp.2 F4)
                    else (if child.stderr_fd = REDIRECT_PIPE then close_pipe ep (close sp.2 F4)
                        else close sp.2 F4)))
                  = open_fds
                rw [undo_stage h3 hF3, undo_stage h2 hF2, undo_stage h1 hF1, close_pipe_close,
                  hsp, close_of_not_mem (fS sp.2 (Or.inr rfl))]
            | none =>
              rw [hrd] at hr
              subst hr
              refine Or.inl ⟨?_, ?_⟩
              · simp only [failing_steps, e0, e1, e2, e3, e4, hrd, first_failure]
              · dsimp only

end ChildFacts3

section ConsoleFacts

/-- The bound 10000 is the size of the buffer: a number of five digits, which
no console of Linux has, does not fit, and one of six digits is rejected. -/
theorem get_console_name_five_digits :
    get_console_name 9999 = some (console_device_name 9999) ∧
    get_console_name 10000 = some "/dev/tty1000" ∧
    get_console_name 100000 = none :=
  ⟨by decide, by decide, by decide⟩

end ConsoleFacts

/-! ## Facts on find, delete and copy at the level of items -/

section ItemFacts2

theorem first_of_app (A B : List (Nat × Nat)) (after : Option Nat) :
    first_of (A ++ B) after = first_of A (first_of B after) := by
  cases A <;> rfl

theorem last_of_nil (before : Option Nat) : last_of [] before = before := rfl

theorem first_of_nil (after : Option Nat) : first_of [] after = after := rfl

theorem first_of_cons (c : Nat × Nat) (cells : List (Nat × Nat)) (after : Option Nat) :
    first_of (c :: cells) after = some c.1 := rfl

theorem last_of_app (A B : List (Nat × Nat)) (before : Option Nat) :
    last_of (A ++ B) before = last_of B (last_of A before) := by
  induction A generalizing before with
  | nil => rfl
  | cons d A ih => rw [List.cons_append, last_of_cons, last_of_cons, ih]

/-- A chain of two parts: the first part points forward to the second, the
second back to the first. -/
theorem is_chain_app (m : heap) (A B : List (Nat × Nat)) :
    ∀ (before after : Option Nat),
      is_chain m before (A ++ B) after ↔
        is_chain m before A (first_of B after) ∧ is_chain m (last_of A before) B after := by
  induction A with
  | nil =>
    intro before after
    simp [is_chain, last_of_nil]
  | cons d A ih =>
    intro before after
    show (m d.1 = some ⟨d.2, first_of (A ++ B) after, before⟩ ∧
      is_chain m (some d.1) (A ++ B) after) ↔ _
    rw [ih, first_of_app, last_of_cons]
    simp only [is_chain, and_assoc]

/-- The loop of `list_find` over a chain that ends with `NULL` returns the
first cell with the data. -/
theorem list_find_loop_chain (m : heap) (cells : List (Nat × Nat)) (data : Nat) :
    ∀ (before : Option Nat) (fuel : Nat), is_chain m before cells none →
      cells.length ≤ fuel →
      Item.list_find_loop m fuel (first_of cells none) data
        = some ((cells.find? (fun c => c.2 == data)).map Prod.fst) := by
  induction cells with
  | nil =>
    intro before fuel _ _
    cases fuel <;> simp [first_of, Item.list_find_loop]
  | cons d rest ih =>
    intro before fuel h hf
    cases fuel with
    | zero => simp at hf
    | succ fuel =>
      have h2 := ih (some d.1) fuel h.2 (by simpa using hf)
      show Item.list_find_loop m (fuel + 1) (some d.1) data = _
      by_cases hd : d.2 = data
      · simp [Item.list_find_loop, h.1, hd]
      · have hd2 : ¬ (d.2 == data) = true := by simpa using hd
        have hfind : List.find? (fun c => c.2 == data) (d :: rest)
            = List.find? (fun c => c.2 == data) rest := List.find?_cons_of_neg _ hd2
        simp only [Item.list_find_loop, h.1, hd, if_false, h2, hfind]

/-- The pointer `next` of the last cell of a chain is set. -/
theorem relink_next {m : heap} {front : List (Nat × Nat)} {after : Option Nat}
    (next : Option Nat) (h : is_chain m none front after)
    (hnd : (front.map Prod.fst).Nodup) :
    ∃ m1, set_next m (last_of front none) next = some m1 ∧ is_chain m1 none front next ∧
      ∀ z, z ∉ front.map Prod.fst → m1 z = m z := by
  have hsplit : front = [] ∨ ∃ init d, front = init ++ [d] := by
    rcases List.eq_nil_or_concat front with h | ⟨init, d, h⟩
    · exact Or.inl h
    · exact Or.inr ⟨init, d, by rw [h, List.concat_eq_append]⟩
  rcases hsplit with rfl | ⟨init, d, rfl⟩
  · exact ⟨m, rfl, trivial, fun _ _ => rfl⟩
  · obtain ⟨h1, h2⟩ := (is_chain_append m init d none after).1 h
    refine ⟨store m d.1 ⟨d.2, next, last_of init none⟩, ?_, ?_, ?_⟩
    · rw [last_of_append]
      simp only [set_next, h2]
    · apply (is_chain_append _ init d none next).2
      refine ⟨?_, store_same _ _ _⟩
      apply is_chain_congr init none (some d.1) _ h1
      intro c hc
      apply store_other
      intro he
      rw [List.map_append, List.nodup_append] at hnd
      exact hnd.2.2 (List.mem_map_of_mem Prod.fst hc) (by simp [he])
    · intro z hz
      apply store_other
      intro he
      exact hz (by simp [he])

/-- The pointer `previous` of the first cell of a chain is set. -/
theorem relink_previous {m : heap} {rest : List (Nat × Nat)} {before : Option Nat}
    (previous : Option Nat) (h : is_chain m before rest none)
    (hnd : (rest.map Prod.fst).Nodup) :
    ∃ m1, set_previous m (first_of rest none) previous = some m1 ∧
      is_chain m1 previous rest none ∧ ∀ z, z ∉ rest.map Prod.fst → m1 z = m z := by
  cases rest with
  | nil => exact ⟨m, rfl, trivial, fun _ _ => rfl⟩
  | cons d tl =>
    refine ⟨store m d.1 ⟨d.2, first_of tl none, previous⟩, ?_, ?_, ?_⟩
    · simp only [first_of_cons, set_previous, h.1]
    · refine ⟨store_same _ _ _, ?_⟩
      apply is_chain_congr tl (some d.1) none _ h.2
      intro c hc
      apply store_other
      intro he
      rw [List.map_cons, List.nodup_cons] at hnd
      exact hnd.1 (by rw [← he]; exact List.mem_map_of_mem Prod.fst hc)
    · intro z hz
      apply store_other
      intro he
      exact hz (by simp [he])

theorem free_same (m : heap) (a : Nat) : free m a a = none := by
  simp [free]

theorem free_other (m : heap) (a : Nat) {x : Nat} (h : x ≠ a) : free m a x = m x := by
  simp [free, h]

end ItemFacts2

section DeleteFacts

theorem first_of_mem {cells : List (Nat × Nat)} (h : cells ≠ []) :
    ∃ c ∈ cells, ∀ after, first_of cells after = some c.1 := by
  cases cells with
  | nil => exact absurd rfl h
  | cons c rest => exact ⟨c, List.mem_cons_self _ _, fun _ => rfl⟩

theorem last_of_mem {cells : List (Nat × Nat)} (h : cells ≠ []) :
    ∃ c ∈ cells, ∀ before, last_of cells before = some c.1 := by
  have hsplit : ∃ init d, cells = init ++ [d] := by
    rcases List.eq_nil_or_concat cells with h1 | ⟨init, d, h1⟩
    · exact absurd h1 h
    · exact ⟨init, d, by rw [h1, List.concat_eq_append]⟩
  obtain ⟨init, d, rfl⟩ := hsplit
  exact ⟨d, by simp, fun _ => last_of_append _ _ _⟩

/-- The function `list_delete_item` for an item of a well-formed list: the
other cells stay linked in their order, the item is freed, the item behind it
is returned, and no other memory changes. -/
theorem list_delete_item_is_list {m : heap} {l : list} {front rest : List (Nat × Nat)}
    {a x : Nat} (hl : is_list m l (front ++ (a, x) :: rest)) :
    ∃ m1 l1, Item.list_delete_item m l a = some (first_of rest none, m1, l1) ∧
      is_list m1 l1 (front ++ rest) ∧ m1 a = none ∧
      ∀ z, z ∉ (front ++ (a, x) :: rest).map Prod.fst → m1 z = m z := by
  obtain ⟨f, la⟩ := l
  have hf : f = first_of front (some a) := by
    have := hl.first
    rw [first_of_app] at this
    exact this
  have hla : la = last_of rest (some a) := by
    have := hl.last
    rw [last_of_app, last_of_cons] at this
    exact this
  obtain ⟨hfront, hmid⟩ := (is_chain_app m front ((a, x) :: rest) none none).1 hl.chain
  have hfront : is_chain m none front (some a) := hfront
  obtain ⟨hcell, hrest⟩ := hmid
  have hcell : m a = some ⟨x, first_of rest none, last_of front none⟩ := hcell
  have hrest : is_chain m (some a) rest none := hrest
  have hnd := hl.nodup
  rw [List.map_append, List.map_cons, List.nodup_append, List.nodup_cons] at hnd
  obtain ⟨hndF, ⟨haR, hndR⟩, hdis⟩ := hnd
  have haR : a ∉ rest.map Prod.fst := haR
  have hdis : ∀ {z}, z ∈ front.map Prod.fst → z ∈ a :: rest.map Prod.fst → False :=
    fun h1 h2 => hdis h1 h2
  have haF : a ∉ front.map Prod.fst := fun h => hdis h (List.mem_cons_self _ _)
  have hFR : ∀ c ∈ front, c.1 ∉ rest.map Prod.fst := fun c hc h =>
    hdis (List.mem_map_of_mem Prod.fst hc) (List.mem_cons_of_mem _ h)
  have hRF : ∀ c ∈ rest, c.1 ∉ front.map Prod.fst := fun c hc h =>
    hdis h (List.mem_cons_of_mem _ (List.mem_map_of_mem Prod.fst hc))
  have hFa : ∀ c ∈ front, c.1 ≠ a := fun c hc he =>
    haF (by rw [← he]; exact List.mem_map_of_mem Prod.fst hc)
  have hRa : ∀ c ∈ rest, c.1 ≠ a := fun c hc he =>
    haR (by rw [← he]; exact List.mem_map_of_mem Prod.fst hc)
  obtain ⟨m1, hs1, hc1, hfr1⟩ := relink_next (first_of rest none) hfront hndF
  have hm1a : m1 a = some ⟨x, first_of rest none, last_of front none⟩ := by
    rw [hfr1 a haF, hcell]
  have hrest1 : is_chain m1 (some a) rest none :=
    is_chain_congr rest _ _ (fun c hc => hfr1 c.1 (hRF c hc)) hrest
  obtain ⟨m2, hs2, hc2, hfr2⟩ := relink_previous (last_of front none) hrest1 hndR
  have hm2a : m2 a = some ⟨x, first_of rest none, last_of front none⟩ := by
    rw [hfr2 a haR, hm1a]
  have hfront2 : is_chain m2 none front (first_of rest none) :=
    is_chain_congr front _ _ (fun c hc => hfr2 c.1 (hFR c hc)) hc1
  have hfront3 : is_chain (free m2 a) none front (first_of rest none) :=
    is_chain_congr front _ _ (fun c hc => free_other _ _ (hFa c hc)) hfront2
  have hrest3 : is_chain (free m2 a) (last_of front none) rest none :=
    is_chain_congr rest _ _ (fun c hc => free_other _ _ (hRa c hc)) hc2
  have hfirst : (if f = some a then first_of rest none else f)
      = first_of (front ++ rest) none := by
    rw [first_of_app, hf]
    cases front with
    | nil => simp [first_of_nil]
    | cons d tl =>
      have hda : d.1 ≠ a := hFa d (List.mem_cons_self _ _)
      simp [first_of_cons, hda]
  have hlast : (if la = some a then last_of front none else la)
      = last_of (front ++ rest) none := by
    rw [last_of_app, hla]
    by_cases hr : rest = []
    · rw [hr]
      simp [last_of_nil]
    · obtain ⟨c, hc, hlast⟩ := last_of_mem hr
      rw [hlast, hlast]
      have hca : c.1 ≠ a := hRa c hc
      simp [hca]
  refine ⟨free m2 a, ⟨if f = some a then first_of rest none else f,
    if la = some a then last_of front none else la⟩, ?_, ?_, free_same _ _, ?_⟩
  · simp only [Item.list_delete_item, hcell, hs1, hm1a, hs2, hm2a]
    congr 3
    by_cases h1 : f = some a <;> by_cases h2 : la = some a <;> simp [h1, h2]
  · refine ⟨?_, hfirst, hlast, (is_chain_app _ front rest none none).2 ⟨hfront3, hrest3⟩⟩
    rw [List.map_append, List.nodup_append]
    exact ⟨hndF, hndR, fun z h1 h2 => hdis h1 (List.mem_cons_of_mem _ h2)⟩
  · intro z hz
    rw [List.map_append, List.map_cons, List.mem_append, List.mem_cons] at hz
    have hza : z ≠ a := fun h => hz (Or.inr (Or.inl h))
    rw [free_other _ _ hza, hfr2 z (fun h => hz (Or.inr (Or.inr h))),
      hfr1 z (fun h => hz (Or.inl h))]

end DeleteFacts

section DeleteFacts2

/-- The function `list_find` on a well-formed list returns the first cell with
the data. -/
theorem list_find_eq {m : heap} {l : list} {cells : List (Nat × Nat)} (data : Nat)
    {fuel : Nat} (hl : is_list m l cells) (hfuel : cells.length ≤ fuel) :
    Item.list_find m fuel l data
      = some ((cells.find? (fun c => c.2 == data)).map Prod.fst) := by
  unfold Item.list_find
  rw [hl.first]
  exact list_find_loop_chain m cells data none fuel hl.chain hfuel

/-- The function `list_delete` on a well-formed list: either no cell has the
data and nothing changes, or the first cell with the data is taken out and
freed, and no memory outside of the list changes. -/
theorem list_delete_spec {m : heap} {l : list} {cells : List (Nat × Nat)} (data : Nat)
    {fuel : Nat} (hl : is_list m l cells) (hfuel : cells.length ≤ fuel) :
    ((∀ c ∈ cells, c.2 ≠ data) ∧ Item.list_delete m fuel l data = some (m, l)) ∨
    (∃ front a rest m1 l1, cells = front ++ (a, data) :: rest ∧ (∀ c ∈ front, c.2 ≠ data) ∧
      Item.list_delete m fuel l data = some (m1, l1) ∧ is_list m1 l1 (front ++ rest) ∧
      m1 a = none ∧ ∀ z, z ∉ cells.map Prod.fst → m1 z = m z) := by
  have hfind := list_find_eq data hl hfuel
  cases hc : cells.find? (fun c => c.2 == data) with
  | none =>
    left
    rw [hc] at hfind
    refine ⟨?_, by simp only [Item.list_delete, hfind, Option.map_none']⟩
    intro c hmem
    have := List.find?_eq_none.1 hc c hmem
    simpa using this
  | some c =>
    right
    rw [hc] at hfind
    obtain ⟨hp, front, rest, hsplit, hfront⟩ := List.find?_eq_some.1 hc
    have hdata : c.2 = data := by simpa using hp
    have hcell : c = (c.1, data) := by rw [← hdata]
    rw [hcell] at hsplit
    rw [hsplit] at hl
    obtain ⟨m1, l1, hdel, hl1, hfree, hframe⟩ := list_delete_item_is_list hl
    refine ⟨front, c.1, rest, m1, l1, hsplit, ?_, ?_, hl1, hfree, ?_⟩
    · intro c1 hc1
      have := hfront c1 hc1
      simpa using this
    · simp only [Item.list_delete, hfind, Option.map_some', hdel]
    · rw [hsplit]
      exact hframe

/-- The function `list_append` changes the memory only at the new item and at
the last item of the list. -/
theorem list_append_frame {m m1 : heap} {l l1 : list} {item x : Nat} {b : Bool}
    (h : list_append m l (some item) x = some (b, m1, l1)) :
    ∀ z, z ≠ item → l.last ≠ some z → m1 z = m z := by
  intro z hz hlast
  unfold list_append at h
  dsimp only at h
  cases hl : l.last with
  | none =>
    rw [hl] at h
    simp only [Option.some.injEq, Prod.mk.injEq] at h
    rw [← h.2.1]
    exact store_other _ _ _ hz
  | some last =>
    rw [hl] at h hlast
    have hzl : z ≠ last := fun he => hlast (by rw [he])
    cases hm : store m item ⟨x, none, some last⟩ last with
    | none => simp [hm] at h
    | some c =>
      simp only [hm, Option.some.injEq, Prod.mk.injEq] at h
      rw [← h.2.1, store_other _ _ _ hzl]
      exact store_other _ _ _ hz

theorem last_of_mem_or {cells : List (Nat × Nat)} {z : Nat}
    (h : last_of cells none = some z) : z ∈ cells.map Prod.fst := by
  by_cases hc : cells = []
  · rw [hc] at h
    simp [last_of] at h
  · obtain ⟨c, hmem, hlast⟩ := last_of_mem hc
    rw [hlast] at h
    have : c.1 = z := Option.some.inj h
    rw [← this]
    exact List.mem_map_of_mem Prod.fst hmem

end DeleteFacts2

section CopyFacts

theorem is_list_allocated {m : heap} {l : list} {cells : List (Nat × Nat)}
    (hl : is_list m l cells) {z : Nat} (hz : z ∈ cells.map Prod.fst) : m z ≠ none := by
  obtain ⟨c, hc, rfl⟩ := List.mem_map.1 hz
  exact is_chain_allocated cells _ _ hl.chain c hc

/-- A well-formed list stays well formed when the memory of its items does not
change. -/
theorem is_list_congr {m m1 : heap} {l : list} {cells : List (Nat × Nat)}
    (hl : is_list m l cells) (h : ∀ z, z ∈ cells.map Prod.fst → m1 z = m z) :
    is_list m1 l cells :=
  ⟨hl.nodup, hl.first, hl.last,
    is_chain_congr cells _ _ (fun c hc => h c.1 (List.mem_map_of_mem Prod.fst hc)) hl.chain⟩

/-- The loop of `list_copy` over the rest of a chain, with new items at the
addresses `news`: it ends and has appended one cell for each cell of the
chain, with the same data in the same order; the memory changes only at the
new items and at the items of the new list. -/
theorem list_copy_loop_spec (rest : List (Nat × Nat)) :
    ∀ (news : List Nat) (m : heap) (before : Option Nat) (new_list : list)
      (copied : List (Nat × Nat)) (fuel : Nat),
      is_chain m before rest none → is_list m new_list copied →
      news.length = rest.length → news.Nodup → (∀ a ∈ news, m a = none) →
      (∀ c ∈ rest, c.1 ∉ copied.map Prod.fst) → rest.length ≤ fuel →
      ∃ m1 copy, Item.list_copy_loop m fuel (first_of rest none) new_list (news.map some)
          = some (m1, some copy) ∧
        is_list m1 copy (copied ++ news.zip (rest.map Prod.snd)) ∧
        ∀ z, z ∉ news → z ∉ copied.map Prod.fst → m1 z = m z := by
  induction rest with
  | nil =>
    intro news m before new_list copied fuel _ hcopied hlen _ _ _ _
    have hnews : news = [] := List.length_eq_zero.1 hlen
    subst hnews
    refine ⟨m, new_list, ?_, by simpa using hcopied, fun _ _ _ => rfl⟩
    cases fuel <;> simp [first_of, Item.list_copy_loop]
  | cons c rest ih =>
    intro news m before new_list copied fuel hchain hcopied hlen hnd hfresh hdis hfuel
    cases news with
    | nil => simp at hlen
    | cons n news =>
      cases fuel with
      | zero => simp at hfuel
      | succ fuel =>
        have hn : m n = none := hfresh n (List.mem_cons_self _ _)
        obtain ⟨m2, l2, happ, hl2⟩ := list_append_is_list c.2 hcopied hn
        have hframe2 : ∀ z, z ≠ n → z ∉ copied.map Prod.fst → m2 z = m z := by
          intro z hz hzc
          apply list_append_frame happ z hz
          intro hlast
          rw [hcopied.last] at hlast
          exact hzc (last_of_mem_or hlast)
        have hrest_alloc : ∀ d ∈ rest, m d.1 ≠ none :=
          is_chain_allocated rest _ _ hchain.2
        have hrest_n : ∀ d ∈ rest, d.1 ≠ n := by
          intro d hd he
          exact hrest_alloc d hd (by rw [he]; exact hn)
        have hchain2 : is_chain m2 (some c.1) rest none := by
          apply is_chain_congr rest _ _ _ hchain.2
          intro d hd
          exact hframe2 d.1 (hrest_n d hd) (hdis d (List.mem_cons_of_mem _ hd))
        rw [List.nodup_cons] at hnd
        have hfresh2 : ∀ a ∈ news, m2 a = none := by
          intro a ha
          have hma : m a = none := hfresh a (List.mem_cons_of_mem _ ha)
          rw [hframe2 a (fun he => hnd.1 (he ▸ ha))
            (fun hmem => is_list_allocated hcopied hmem hma)]
          exact hma
        have hdis2 : ∀ d ∈ rest, d.1 ∉ (copied ++ [(n, c.2)]).map Prod.fst := by
          intro d hd hmem
          rw [List.map_append, List.mem_append] at hmem
          rcases hmem with h | h
          · exact hdis d (List.mem_cons_of_mem _ hd) h
          · simp only [List.map_cons, List.map_nil, List.mem_singleton] at h
            exact hrest_n d hd h
        obtain ⟨m1, copy, hloop, hcopy, hframe⟩ := ih news m2 (some c.1) l2
          (copied ++ [(n, c.2)]) fuel hchain2 hl2 (by simpa using hlen) hnd.2 hfresh2 hdis2
          (by simpa using hfuel)
        refine ⟨m1, copy, ?_, ?_, ?_⟩
        · show Item.list_copy_loop m (fuel + 1) (some c.1) new_list
            (some n :: news.map some) = _
          simp only [Item.list_copy_loop, hchain.1, List.headD_cons, happ, List.tail_cons]
          exact hloop
        · have hcells : copied ++ (n :: news).zip ((c :: rest).map Prod.snd)
              = copied ++ [(n, c.2)] ++ news.zip (rest.map Prod.snd) := by
            simp
          rw [hcells]
          exact hcopy
        · intro z hz hzc
          rw [List.mem_cons, not_or] at hz
          rw [hframe z hz.2 (by
            rw [List.map_append, List.mem_append, not_or]
            exact ⟨hzc, by simpa using hz.1⟩)]
          exact hframe2 z hz.1 hzc

end CopyFacts

section TraverseFacts

/-- The data sequence of a well-formed list is the data of its cells. -/
theorem list_data_eq {m : heap} {l : list} {cells : List (Nat × Nat)} {fuel : Nat}
    (hl : is_list m l cells) (hfuel : cells.length ≤ fuel) :
    list_data m fuel l = some (cells.map Prod.snd) := by
  unfold list_data
  rw [hl.first, list_for_each_from_chain m cells none fuel hl.chain hfuel]
  rfl

/-- The length of a well-formed list is the number of its cells. -/
theorem list_length_eq {m : heap} {l : list} {cells : List (Nat × Nat)} {fuel : Nat}
    (hl : is_list m l cells) (hfuel : cells.length ≤ fuel) :
    list_length m fuel l = some cells.length := by
  unfold list_length
  rw [hl.first, list_length_loop_chain m cells none fuel 0 hl.chain hfuel, Nat.zero_add]

theorem heap_three_is_list :
    is_list heap_three ⟨some 1, some 3⟩ [(1, 7), (2, 8), (3, 7)] :=
  ⟨by decide, rfl, rfl, ⟨rfl, rfl, rfl, trivial⟩⟩

end TraverseFacts

section SeparateFacts

theorem separate_symm {A B : List (Nat × Nat)} (h : separate A B) : separate B A :=
  fun z hb ha => h z ha hb

theorem separate_append_right {A B C : List (Nat × Nat)} (h1 : separate A B)
    (h2 : separate A C) : separate A (B ++ C) := by
  intro z hz hm
  rw [List.map_append, List.mem_append] at hm
  rcases hm with hm | hm
  · exact h1 z hz hm
  · exact h2 z hz hm

theorem separate_append_left {A B C : List (Nat × Nat)} (h1 : separate A C)
    (h2 : separate B C) : separate (A ++ B) C :=
  separate_symm (separate_append_right (separate_symm h1) (separate_symm h2))

end SeparateFacts

section TsortMemFacts

variable {m : heap} {nodes zeros sorted_nodes edges : list}
  {Nc Zc Sc Ec : List (Nat × Nat)} {news : List Nat}

end TsortMemFacts

section IsZeroFacts

end IsZeroFacts

section DeleteEdgesFacts

end DeleteEdgesFacts

section TsortLoopFacts

end TsortLoopFacts

section GetZerosFacts

end GetZerosFacts

section TsortItemFacts

end TsortItemFacts

section TsortRefinement

end TsortRefinement

section TsortPermutation

variable {α : Type} [DecidableEq α]

end TsortPermutation

section GraphExample

end GraphExample
/-! ## Claims on tsort -/

section TsortClaims

variable {α : Type} [DecidableEq α]

/-- C1: for pairwise distinct nodes `N` and edges `E` with all endpoints in `N`,
`tsort` returns, and when it returns a list, the predecessor of every edge that
was in `E` on entry occurs in the list strictly before the successor (the list
has no duplicates, so positions are unique). -/
theorem tsort_predecessor_before_successor (N : List α) (E : List (edge α)) (hN : N.Nodup)
    (hE : ∀ e ∈ E, e.predecessor ∈ N ∧ e.successor ∈ N) :
    ∃ r, tsort N E = some r ∧ ∀ sorted, r.sorted_nodes = some sorted →
      sorted.Nodup ∧ ∀ e ∈ E, e.predecessor ∈ sorted ∧ e.successor ∈ sorted ∧
        sorted.indexOf e.predecessor < sorted.indexOf e.successor := by
  obtain ⟨r, hr⟩ := tsort_returns N E
  exact ⟨r, hr, fun sorted hs => tsort_sorted_of_success hN hE hr hs⟩

/-- C2: for pairwise distinct nodes `N` and edges `E` with all endpoints in `N`,
`tsort` returns a non-null list and leaves `E` empty if and only if the graph
has no cycle; when the graph has a cycle it returns null and `E` is non-empty
on return. -/
theorem tsort_success_iff_acyclic (N : List α) (E : List (edge α)) (hN : N.Nodup)
    (hE : ∀ e ∈ E, e.predecessor ∈ N ∧ e.successor ∈ N) :
    ∃ r, tsort N E = some r ∧
      ((r.sorted_nodes ≠ none ∧ r.edges = []) ↔ ¬ has_cycle E) ∧
      (has_cycle E → r.sorted_nodes = none ∧ r.edges ≠ []) := by
  obtain ⟨r, hr⟩ := tsort_returns N E
  have hcyc : has_cycle E → r.sorted_nodes = none ∧ r.edges ≠ [] := by
    intro ⟨n, hn⟩
    obtain ⟨S', _, _, hfin⟩ := tsort_final hr
    rcases hfin with ⟨_, hs⟩ | ⟨he, hs⟩
    · have hord := (tsort_sorted_of_success hN hE hr hs).2
      exact absurd (index_lt_of_transGen hord hn) (lt_irrefl _)
    · exact ⟨hs, he⟩
  refine ⟨r, hr, ⟨?_, ?_⟩, hcyc⟩
  · intro ⟨h1, _⟩ hc
    exact h1 (hcyc hc).1
  · intro hac
    obtain ⟨S', _, _, hfin⟩ := tsort_final hr
    rcases hfin with ⟨he, hs⟩ | ⟨he, _⟩
    · exact ⟨by simp [hs], he⟩
    · exact absurd (has_cycle_of_edges_left hE hr he) hac

/-- Witness for C1: three nodes with the edges 3 → 1 and 1 → 2; the list
returned is 3, 1, 2. -/
theorem tsort_predecessor_before_successor_witness :
    ([1, 2, 3] : List Nat).Nodup ∧
    (∀ e ∈ ([⟨3, 1⟩, ⟨1, 2⟩] : List (edge Nat)),
      e.predecessor ∈ [1, 2, 3] ∧ e.successor ∈ [1, 2, 3]) ∧
    tsort [1, 2, 3] [⟨3, 1⟩, ⟨1, 2⟩] = some ⟨some [3, 1, 2], []⟩ ∧
    ∃ r, tsort [1, 2, 3] [⟨3, 1⟩, ⟨1, 2⟩] = some r ∧ ∀ sorted, r.sorted_nodes = some sorted →
      sorted.Nodup ∧ ∀ e ∈ ([⟨3, 1⟩, ⟨1, 2⟩] : List (edge Nat)),
        e.predecessor ∈ sorted ∧ e.successor ∈ sorted ∧
        sorted.indexOf e.predecessor < sorted.indexOf e.successor :=
  ⟨by decide, by decide, by decide,
    tsort_predecessor_before_successor [1, 2, 3] [⟨3, 1⟩, ⟨1, 2⟩] (by decide) (by decide)⟩

/-- Witness for C2: the graph of the unit test, without and with the cycle
A → B → E → F → A. -/
theorem tsort_success_iff_acyclic_witness :
    tsort [1, 2, 3, 4, 5, 6, 7, 8] [⟨1, 2⟩, ⟨1, 3⟩, ⟨1, 4⟩, ⟨2, 5⟩, ⟨7, 8⟩]
      = some ⟨some [1, 6, 7, 2, 3, 4, 8, 5], []⟩ ∧
    tsort [1, 2, 3, 4, 5, 6, 7, 8]
        [⟨1, 2⟩, ⟨1, 3⟩, ⟨1, 4⟩, ⟨2, 5⟩, ⟨5, 6⟩, ⟨6, 1⟩, ⟨7, 8⟩]
      = some ⟨none, [⟨1, 2⟩, ⟨1, 3⟩, ⟨1, 4⟩, ⟨2, 5⟩, ⟨5, 6⟩, ⟨6, 1⟩]⟩ ∧
    (∃ r, tsort [1, 2, 3, 4, 5, 6, 7, 8] [⟨1, 2⟩, ⟨1, 3⟩, ⟨1, 4⟩, ⟨2, 5⟩, ⟨7, 8⟩] = some r ∧
      ((r.sorted_nodes ≠ none ∧ r.edges = []) ↔
        ¬ has_cycle ([⟨1, 2⟩, ⟨1, 3⟩, ⟨1, 4⟩, ⟨2, 5⟩, ⟨7, 8⟩] : List (edge Nat))) ∧
      (has_cycle ([⟨1, 2⟩, ⟨1, 3⟩, ⟨1, 4⟩, ⟨2, 5⟩, ⟨7, 8⟩] : List (edge Nat)) →
        r.sorted_nodes = none ∧ r.edges ≠ [])) ∧
    (∃ r, tsort [1, 2, 3, 4, 5, 6, 7, 8]
        [⟨1, 2⟩, ⟨1, 3⟩, ⟨1, 4⟩, ⟨2, 5⟩, ⟨5, 6⟩, ⟨6, 1⟩, ⟨7, 8⟩] = some r ∧
      ((r.sorted_nodes ≠ none ∧ r.edges = []) ↔
        ¬ has_cycle ([⟨1, 2⟩, ⟨1, 3⟩, ⟨1, 4⟩, ⟨2, 5⟩, ⟨5, 6⟩, ⟨6, 1⟩, ⟨7, 8⟩] :
          List (edge Nat))) ∧
      (has_cycle ([⟨1, 2⟩, ⟨1, 3⟩, ⟨1, 4⟩, ⟨2, 5⟩, ⟨5, 6⟩, ⟨6, 1⟩, ⟨7, 8⟩] :
          List (edge Nat)) →
        r.sorted_nodes = none ∧ r.edges ≠ [])) :=
  ⟨by decide, by decide,
    tsort_success_iff_acyclic [1, 2, 3, 4, 5, 6, 7, 8]
      [⟨1, 2⟩, ⟨1, 3⟩, ⟨1, 4⟩, ⟨2, 5⟩, ⟨7, 8⟩] (by decide) (by decide),
    tsort_success_iff_acyclic [1, 2, 3, 4, 5, 6, 7, 8]
      [⟨1, 2⟩, ⟨1, 3⟩, ⟨1, 4⟩, ⟨2, 5⟩, ⟨5, 6⟩, ⟨6, 1⟩, ⟨7, 8⟩] (by decide) (by decide)⟩

end TsortClaims





/-! ## Claims on dependency resolution -/

section ResolveClaims

/-- C3: after a successful `resolve_dependencies`, for every plugin `P` of the
registry and every name `N` of its `requires` or `needs` list that contains no
slash, the registry holds a plugin named `N`. -/
theorem resolve_requires_and_needs_loaded (b : backend) (fuel : Nat) (plugins : List plugin)
    (out : outcome) (h : resolve_dependencies b fuel plugins = some out)
    (hok : out.ok = true) :
    ∀ P ∈ out.plugins, ∀ N,
      N ∈ P.dependencies.requires ∨ N ∈ P.dependencies.needs → '/' ∉ N.data →
      ∃ Q ∈ out.plugins, Q.name = N := by
  obtain ⟨plugins3, _, hsort, hreq, hneeds, _⟩ := resolve_dependencies_facts h hok
  have hmem := (sort_plugins_ok hsort hok).1
  intro P hP N hN hslash
  rcases hN with hN | hN
  · obtain ⟨Q, hQ, hname⟩ := hreq P ((hmem P).1 hP) N hN
    exact ⟨Q, (hmem Q).2 hQ, hname hslash⟩
  · obtain ⟨Q, hQ, hname⟩ := hneeds P ((hmem P).1 hP) N hN
    exact ⟨Q, (hmem Q).2 hQ, hname⟩

/-- Witness for C3: `R` requires `Q` and needs `X`; `vlock X R` loads `Q` on
its own. -/
theorem resolve_requires_and_needs_loaded_witness :
    resolve_dependencies example_backend 3 (load_plugins example_backend ["X", "R"] []).2
      = some resolved_X_R ∧ resolved_X_R.ok = true ∧
    ∀ P ∈ resolved_X_R.plugins, ∀ N,
      N ∈ P.dependencies.requires ∨ N ∈ P.dependencies.needs → '/' ∉ N.data →
      ∃ Q ∈ resolved_X_R.plugins, Q.name = N :=
  ⟨by decide, by decide,
    resolve_requires_and_needs_loaded example_backend 3
      (load_plugins example_backend ["X", "R"] []).2 resolved_X_R (by decide) (by decide)⟩

/-- C4: `resolve_dependencies` succeeds only when no conflict is active.
After a successful call no plugin of the registry has the name of a plugin of
the registry in its `conflicts` list; and when the registry that reaches the
conflicts check holds a plugin listing the name of a loaded plugin, the call
returns failure. -/
theorem resolve_no_active_conflict (b : backend) (fuel : Nat) (plugins : List plugin) :
    (∀ out, resolve_dependencies b fuel plugins = some out → out.ok = true →
      ∀ P ∈ out.plugins, ∀ N ∈ P.dependencies.conflicts, ∀ Q ∈ out.plugins, Q.name ≠ N) ∧
    (∀ plugins3, before_conflicts_check b fuel plugins = some (some plugins3) →
      (∃ P ∈ plugins3, ∃ N ∈ P.dependencies.conflicts, ∃ W ∈ plugins3, W.name = N) →
      ∃ out, resolve_dependencies b fuel plugins = some out ∧ out.ok = false) := by
  constructor
  · intro out h hok P hP N hN Q hQ
    obtain ⟨plugins3, _, hsort, _, _, hconf⟩ := resolve_dependencies_facts h hok
    have hmem := (sort_plugins_ok hsort hok).1
    exact (get_plugin_eq_none_iff _ _).1 (hconf P ((hmem P).1 hP) N hN) Q ((hmem Q).1 hQ)
  · intro plugins3 hb ⟨P, hP, N, hN, W, hW, hname⟩
    have h4 : check_conflicts plugins3 plugins3 = false := by
      rw [← Bool.not_eq_true, check_conflicts_iff]
      intro hall
      exact (get_plugin_eq_none_iff _ _).1 (hall P hP N hN) W hW hname
    refine ⟨⟨false, 0, plugins3⟩, ?_, rfl⟩
    unfold resolve_dependencies
    rw [resolve_depedencies_of_before_conflicts_check hb, h4]
    simp

/-- Witness for C4: `vlock X Y` resolves and holds no conflict; `Z` with
`conflicts = [W]` loaded together with `W` makes the call fail. -/
theorem resolve_no_active_conflict_witness :
    (∀ P ∈ resolved_X_Y.plugins, ∀ N ∈ P.dependencies.conflicts,
      ∀ Q ∈ resolved_X_Y.plugins, Q.name ≠ N) ∧
    (∃ out, resolve_dependencies example_backend 2
        (load_plugins example_backend ["Z", "W"] []).2 = some out ∧ out.ok = false) :=
  ⟨(resolve_no_active_conflict example_backend 2
        (load_plugins example_backend ["X", "Y"] []).2).1 resolved_X_Y (by decide) (by decide),
    (resolve_no_active_conflict example_backend 2
        (load_plugins example_backend ["Z", "W"] []).2).2
      (load_plugins example_backend ["Z", "W"] []).2 (by decide)
      ⟨⟨1, "Z", ⟨[], [], [], [], [], ["W"]⟩, false, .module⟩, by decide, "W", by decide,
        ⟨2, "W", ⟨[], [], [], [], [], []⟩, false, .module⟩, by decide, by decide⟩⟩

/-- C5, evaluated at `vlock b x/b a`: the registry holds two plugins named
`b` (the second load of `b`, as `x/b`, is not recognised), `a` has `b` in its
`preceeds` list and resolution succeeds, yet one `b` stands before `a`. -/
theorem resolve_order_with_duplicate_name :
    resolve_dependencies example_backend 3 (load_plugins example_backend ["b", "x/b", "a"] []).2
      = some resolved_b_b_a ∧ resolved_b_b_a.ok = true ∧
    ∃ P ∈ resolved_b_b_a.plugins, ∃ Q ∈ resolved_b_b_a.plugins,
      Q.name ∈ P.dependencies.preceeds ∧
      resolved_b_b_a.plugins.indexOf Q < resolved_b_b_a.plugins.indexOf P :=
  ⟨by decide, by decide, ⟨3, "a", ⟨[], ["b"], [], [], [], []⟩, false, .module⟩, by decide,
    ⟨2, "b", ⟨[], [], [], [], [], []⟩, false, .module⟩, by decide, by decide, by decide⟩

/-- C9, evaluated at the name `x/b`: both calls of `load_plugin` succeed, the
second one appends a second plugin, and the registry holds two plugins with the
name `b`. -/
theorem load_plugin_twice_with_slash :
    (load_plugin example_backend [] "x/b").1 = true ∧
    (load_plugin example_backend (load_plugin example_backend [] "x/b").2 "x/b").1 = true ∧
    (load_plugin example_backend [] "x/b").2.map plugin.name = ["b"] ∧
    (load_plugin example_backend (load_plugin example_backend [] "x/b").2 "x/b").2.map
      plugin.name = ["b", "b"] :=
  ⟨by decide, by decide, by decide, by decide⟩

/-- C10 fails as stated: after `vlock s y z` the first `resolve_dependencies`
leaves the order z, s, y, and a second call succeeds but leaves another list
(the order z, y, s). -/
theorem resolve_twice_reorders :
    resolve_dependencies example_backend 3 (load_plugins example_backend ["s", "y", "z"] []).2
      = some resolved_s_y_z ∧ resolved_s_y_z.ok = true ∧
    ∃ out2, resolve_dependencies example_backend 3 resolved_s_y_z.plugins = some out2 ∧
      out2.ok = true ∧ out2.plugins ≠ resolved_s_y_z.plugins :=
  ⟨by decide, by decide,
    ⟨true, 0, [⟨3, "z", ⟨[], ["y"], [], [], [], []⟩, false, .module⟩,
      ⟨2, "y", ⟨[], [], [], [], [], []⟩, false, .module⟩,
      ⟨1, "s", ⟨["z"], [], [], [], [], []⟩, false, .module⟩]⟩, by decide, by decide, by decide⟩

/-- C10 as amended: let `resolve_dependencies` succeed on a registry of
pairwise distinct plugin objects, and let the registry it leaves have pairwise
distinct names, no slash in a `requires` name and every `depends` name loaded.
Then a second call succeeds and leaves the same plugins, in an order (not
always the same one) in which every `preceeds` and `succeeds` constraint
holds. -/
theorem resolve_twice_same_plugins (b : backend) (fuel fuel2 : Nat) (plugins : List plugin)
    (out : outcome) (haddr : (plugins.map plugin.addr).Nodup)
    (h : resolve_dependencies b fuel plugins = some out) (hok : out.ok = true)
    (hnames : (out.plugins.map plugin.name).Nodup)
    (hslash : ∀ P ∈ out.plugins, ∀ N ∈ P.dependencies.requires, '/' ∉ N.data)
    (hdep : ∀ P ∈ out.plugins, ∀ N ∈ P.dependencies.depends, ∃ Q ∈ out.plugins, Q.name = N)
    (hfuel : out.plugins.length ≤ fuel2) :
    ∃ out2, resolve_dependencies b fuel2 out.plugins = some out2 ∧ out2.ok = true ∧
      out2.plugins.Perm out.plugins ∧
      ∀ P ∈ out2.plugins, ∀ Q ∈ out2.plugins,
        (Q.name ∈ P.dependencies.preceeds →
          out2.plugins.indexOf P < out2.plugins.indexOf Q) ∧
        (Q.name ∈ P.dependencies.succeeds →
          out2.plugins.indexOf Q < out2.plugins.indexOf P) := by
  obtain ⟨plugins3, hb, hsort, hreq, hneeds, hconf⟩ := resolve_dependencies_facts h hok
  have hmem := (sort_plugins_ok hsort hok).1
  have hnd3 : plugins3.Nodup := before_conflicts_check_nodup hb haddr
  have hnd5 : out.plugins.Nodup := nodup_of_name_nodup hnames
  -- the first four passes change nothing
  have hres : __resolve_depedencies b fuel2 out.plugins = some ⟨true, 0, out.plugins⟩ := by
    apply resolve_depedencies_noop b fuel2 out.plugins hfuel
    · intro P hP N hN
      obtain ⟨Q, hQ, hname⟩ := hreq P ((hmem P).1 hP) N hN
      exact (get_plugin_isSome_iff _ _).2 ⟨Q, (hmem Q).2 hQ, hname (hslash P hP N hN)⟩
    · intro P hP N hN
      obtain ⟨Q, hQ, hname⟩ := hneeds P ((hmem P).1 hP) N hN
      exact (get_plugin_isSome_iff _ _).2 ⟨Q, (hmem Q).2 hQ, hname⟩
    · intro P hP N hN
      exact (get_plugin_isSome_iff _ _).2 (hdep P hP N hN)
    · intro P hP N hN
      rw [get_plugin_eq_none_iff]
      intro Q hQ
      exact (get_plugin_eq_none_iff _ _).1 (hconf P ((hmem P).1 hP) N hN) Q ((hmem Q).1 hQ)
  -- the edges are those of the first call, which hold no cycle
  have hacyc : ¬ has_cycle (get_edges out.plugins) := by
    intro hc
    apply acyclic_of_sort_plugins_ok hsort hok hnd3
    exact has_cycle_mono (fun e he => (get_edges_congr (fun p => (hmem p).symm) hnames e).2 he) hc
  obtain ⟨out2, hsort2, hok2⟩ := sort_plugins_of_acyclic out.plugins hacyc
  obtain ⟨hmem2, hord2⟩ := sort_plugins_ok hsort2 hok2
  obtain ⟨hnd2, hedges2⟩ := hord2 hnd5
  refine ⟨out2, ?_, hok2, ?_, ?_⟩
  · unfold resolve_dependencies
    rw [hres]
    simpa using hsort2
  · exact (List.perm_ext_iff_of_nodup hnd2 hnd5).2 hmem2
  · intro P hP Q hQ
    have hP5 := (hmem2 P).1 hP
    have hQ5 := (hmem2 Q).1 hQ
    have hgQ := get_plugin_of_mem hnames hQ5
    constructor
    · intro hpre
      exact hedges2 ⟨P, Q⟩ ((mem_get_edges _ _).2 (Or.inr ⟨hP5, Q.name, hpre, hgQ⟩))
    · intro hsucc
      exact hedges2 ⟨Q, P⟩ ((mem_get_edges _ _).2 (Or.inl ⟨hP5, Q.name, hsucc, hgQ⟩))

/-- Witness for the amended C10: the registry left after `vlock s y z`. -/
theorem resolve_twice_same_plugins_witness :
    ∃ out2, resolve_dependencies example_backend 3 resolved_s_y_z.plugins = some out2 ∧
      out2.ok = true ∧ out2.plugins.Perm resolved_s_y_z.plugins ∧
      ∀ P ∈ out2.plugins, ∀ Q ∈ out2.plugins,
        (Q.name ∈ P.dependencies.preceeds →
          out2.plugins.indexOf P < out2.plugins.indexOf Q) ∧
        (Q.name ∈ P.dependencies.succeeds →
          out2.plugins.indexOf Q < out2.plugins.indexOf P) :=
  resolve_twice_same_plugins example_backend 3 3
    (load_plugins example_backend ["s", "y", "z"] []).2 resolved_s_y_z
    (by decide) (by decide) (by decide) (by decide) (by decide) (by decide) (by decide)

end ResolveClaims

/-! ## Claims on the hook handlers -/

section HookClaims

/-- C6: let `p` be the first plugin of the registry `pre ++ p :: post` whose
`vlock_start` hook fails, in a process that has not registered
`call_end_hook`.  Then `plugin_hook("vlock_start")` calls `vlock_start` on the
plugins of `pre` in list order and on `p`, then `vlock_end` once on each plugin
of `pre` in reverse order, and nothing else; it ends the process with the
non-zero status `EXIT_FAILURE`, and `exit` calls no further hook.  This is
what `main` does after a successful `resolve_dependencies`. -/
theorem vlock_start_failure_rolls_back (env : hook_env) (s : process)
    (pre post : List plugin) (p : plugin) (hs : s.plugins = pre ++ p :: post)
    (hatexit : exit_handler.call_end_hook ∉ s.atexit)
    (hpre : all_succeed env "vlock_start" pre s.trace = true)
    (hp : env (s.trace ++ pre.map (fun q => ⟨q.addr, "vlock_start", true⟩)) p.addr
      "vlock_start" = false) :
    called (plugin_hook env "vlock_start" s).trace
      = called s.trace ++ pre.map (fun q => (q.addr, "vlock_start"))
        ++ [(p.addr, "vlock_start")] ++ pre.reverse.map (fun q => (q.addr, "vlock_end")) ∧
    (plugin_hook env "vlock_start" s).status = some EXIT_FAILURE ∧ EXIT_FAILURE ≠ 0 ∧
    (exit env EXIT_FAILURE (plugin_hook env "vlock_start" s)).trace
      = (plugin_hook env "vlock_start" s).trace ∧
    (exit env EXIT_FAILURE (plugin_hook env "vlock_start" s)).status = some EXIT_FAILURE ∧
    ∀ (b : backend) (fuel : Nat) (argv : List String) (stdin_is_tty : Bool) (cycles : Nat)
      (plugins1 : List plugin) (r : outcome),
      load_plugins b argv [] = (true, plugins1) →
      resolve_dependencies b fuel plugins1 = some r → r.ok = true →
      s = ⟨r.plugins, [], [.display_auth_tries, .unload_plugins], none⟩ →
      main b env fuel argv stdin_is_tty cycles
        = some (exit env EXIT_FAILURE (plugin_hook env "vlock_start" s)) := by
  have hloop := vlock_start_loop_failure env "vlock_start" pre p post [] s.trace hpre hp
  have hstart : plugin_hook env "vlock_start" s
      = { s with
          trace := call_end_hooks_from env pre.reverse
            (s.trace ++ pre.map (fun q => ⟨q.addr, "vlock_start", true⟩)
              ++ [⟨p.addr, "vlock_start", false⟩])
          status := some EXIT_FAILURE } := by
    rw [plugin_hook_vlock_start]
    unfold handle_vlock_start
    rw [hs, hloop]
    simp
  have hstatus : (plugin_hook env "vlock_start" s).status = some EXIT_FAILURE := by
    rw [hstart]
  have hat : (plugin_hook env "vlock_start" s).atexit = s.atexit := by
    rw [hstart]
  refine ⟨?_, hstatus, by decide, ?_, rfl, ?_⟩
  · rw [hstart]
    simp only
    rw [call_end_hooks_from_called]
    simp [called]
  · exact exit_trace env _ _ (by rw [hat]; exact hatexit)
  · intro b fuel argv stdin_is_tty cycles plugins1 r hload hres hok hsr
    subst hsr
    unfold main
    simp [hload, ensure_atexit, hres, hok, hstatus]

/-- Witness for C6: after `vlock X Y` the `vlock_start` hook of `Y` fails. -/
theorem vlock_start_failure_rolls_back_witness :
    called (plugin_hook (fail_start_at 2) "vlock_start" process_X_Y).trace
      = [(1, "vlock_start"), (2, "vlock_start"), (1, "vlock_end")] ∧
    (exit (fail_start_at 2) EXIT_FAILURE
        (plugin_hook (fail_start_at 2) "vlock_start" process_X_Y)).trace
      = (plugin_hook (fail_start_at 2) "vlock_start" process_X_Y).trace ∧
    main example_backend (fail_start_at 2) 2 ["X", "Y"] true 0
      = some (exit (fail_start_at 2) EXIT_FAILURE
          (plugin_hook (fail_start_at 2) "vlock_start" process_X_Y)) :=
  have h := vlock_start_failure_rolls_back (fail_start_at 2) process_X_Y
    [⟨1, "X", ⟨[], ["Y"], [], [], [], []⟩, false, .module⟩] []
    ⟨2, "Y", ⟨[], [], [], [], [], []⟩, false, .module⟩
    (by decide) (by decide) (by decide) (by decide)
  ⟨h.1, h.2.2.2.1,
    h.2.2.2.2.2 example_backend 2 ["X", "Y"] true 0
      (load_plugins example_backend ["X", "Y"] []).2 resolved_X_Y
      (by decide) (by decide) (by decide) (by decide)⟩

/-- C7: when every `vlock_start` hook succeeds, `plugin_hook("vlock_start")`
calls the start hook of each plugin once, in list order, and leaves the
process running; `plugin_hook("vlock_end")` calls the end hook of every plugin
once, in the reverse order, whatever the hooks return. -/
theorem vlock_start_and_end_order (env : hook_env) (s : process)
    (hall : all_succeed env "vlock_start" s.plugins s.trace = true) :
    (plugin_hook env "vlock_start" s).trace
      = s.trace ++ s.plugins.map (fun p => ⟨p.addr, "vlock_start", true⟩) ∧
    (plugin_hook env "vlock_start" s).plugins = s.plugins ∧
    (plugin_hook env "vlock_start" s).status = s.status ∧
    ∀ s2 : process,
      called (plugin_hook env "vlock_end" s2).trace
        = called s2.trace ++ s2.plugins.reverse.map (fun p => (p.addr, "vlock_end")) ∧
      (plugin_hook env "vlock_end" s2).plugins = s2.plugins ∧
      (plugin_hook env "vlock_end" s2).status = s2.status := by
  have hloop := vlock_start_loop_all_succeed env "vlock_start" s.plugins [] s.trace hall
  refine ⟨?_, ?_, ?_, ?_⟩
  · rw [plugin_hook_vlock_start]
    unfold handle_vlock_start
    rw [hloop]
  · rw [plugin_hook_vlock_start]
    unfold handle_vlock_start
    rw [hloop]
  · rw [plugin_hook_vlock_start]
    unfold handle_vlock_start
    rw [hloop]
  · intro s2
    rw [plugin_hook_vlock_end]
    unfold handle_vlock_end
    exact ⟨vlock_end_loop_called env "vlock_end" _ _, rfl, rfl⟩

/-- Witness for C7: the registry left by `vlock X Y`, with hooks that all
succeed. -/
theorem vlock_start_and_end_order_witness :
    (plugin_hook always_succeed "vlock_start" process_X_Y).trace
      = [⟨1, "vlock_start", true⟩, ⟨2, "vlock_start", true⟩] ∧
    called (plugin_hook always_succeed "vlock_end"
        (plugin_hook always_succeed "vlock_start" process_X_Y)).trace
      = [(1, "vlock_start"), (2, "vlock_start"), (2, "vlock_end"), (1, "vlock_end")] :=
  have h := vlock_start_and_end_order always_succeed process_X_Y (by decide)
  ⟨h.1, (h.2.2.2 (plugin_hook always_succeed "vlock_start" process_X_Y)).1.trans (by decide)⟩

/-- C8: in a sequence of save cycles on a registry of pairwise distinct plugin
objects, when the `vlock_save` hook of the plugin at address `a` fails in
cycle `j`, its `vlock_save_abort` hook is called exactly once in that cycle and
no hook of this plugin is called in any later cycle; and no call of
`plugin_hook` clears a `save_disabled` flag. -/
theorem save_failure_latches (env : hook_env) (s : process)
    (hnd : (s.plugins.map plugin.addr).Nodup) (j : Nat) (a : Nat)
    (hfail : (⟨a, "vlock_save", false⟩ : call) ∈ cycle_calls env s j) :
    (cycle_calls env s j).countP
      (fun c => decide (c.addr = a ∧ c.hook = "vlock_save_abort")) = 1 ∧
    (∀ k, j < k → ∀ c ∈ cycle_calls env s k, c.addr ≠ a) ∧
    (∀ (hook_name : String) (s1 : process) (a1 : Nat), save_disabled_at s1.plugins a1 →
      save_disabled_at (plugin_hook env hook_name s1).plugins a1) := by
  obtain ⟨hdis, hcount⟩ := (cycle_calls_spec env s hnd j).2 _ hfail rfl rfl
  refine ⟨hcount, ?_, fun hook_name s1 a1 h => plugin_hook_disabled_mono env hook_name s1 a1 h⟩
  intro k hk c hc hca
  obtain ⟨m, rfl⟩ : ∃ m, k = (j + 1) + m := ⟨k - (j + 1), by omega⟩
  have hlater := save_cycles_disabled_mono env s hnd (j + 1) a hdis m
  exact (cycle_calls_spec env s hnd (j + 1 + m)).1 c hc (hca ▸ hlater)

/-- Witness for C8: the registry left by `vlock X Y`, where the `vlock_save`
hook of `Y` fails in the first cycle; the flag of `Y`, set in this cycle, is
still set after `plugin_hook("vlock_end")`. -/
theorem save_failure_latches_witness :
    cycle_calls (fail_save_at 2) process_X_Y 0
      = [⟨1, "vlock_save", true⟩, ⟨2, "vlock_save", false⟩, ⟨2, "vlock_save_abort", true⟩,
          ⟨1, "vlock_save_abort", true⟩] ∧
    (cycle_calls (fail_save_at 2) process_X_Y 0).countP
      (fun c => decide (c.addr = 2 ∧ c.hook = "vlock_save_abort")) = 1 ∧
    (∀ k, 0 < k → ∀ c ∈ cycle_calls (fail_save_at 2) process_X_Y k, c.addr ≠ 2) ∧
    save_disabled_at (plugin_hook (fail_save_at 2) "vlock_end"
      (save_cycle (fail_save_at 2) process_X_Y)).plugins 2 :=
  have h := save_failure_latches (fail_save_at 2) process_X_Y (by decide) 0 2 (by decide)
  ⟨by decide, h.1, h.2.1,
    h.2.2 "vlock_end" (save_cycle (fail_save_at 2) process_X_Y) 2
      ⟨⟨2, "Y", ⟨[], [], [], [], [], []⟩, true, .module⟩, by decide, rfl, rfl⟩⟩

end HookClaims

/-! ## Further claims on tsort -/

section TsortClaims2

variable {α : Type} [DecidableEq α]

/-- C17 fails as stated: with the nodes 1, 2, 3 and the single edge 3 → 1 no
edge constrains the pair 1, 2, yet `tsort` returns 2, 3, 1, where 2 stands
before 1. -/
theorem tsort_not_stable :
    ([1, 2, 3] : List Nat).Nodup ∧
    (∀ e ∈ ([⟨3, 1⟩] : List (edge Nat)), e.predecessor ∈ [1, 2, 3] ∧ e.successor ∈ [1, 2, 3]) ∧
    ¬ has_cycle ([⟨3, 1⟩] : List (edge Nat)) ∧
    unconstrained ([⟨3, 1⟩] : List (edge Nat)) 1 2 ∧
    tsort [1, 2, 3] [⟨3, 1⟩] = some ⟨some [2, 3, 1], []⟩ ∧
    ([1, 2, 3] : List Nat).indexOf 1 < ([1, 2, 3] : List Nat).indexOf 2 ∧
    ([2, 3, 1] : List Nat).indexOf 2 < ([2, 3, 1] : List Nat).indexOf 1 :=
  ⟨by decide, by decide,
    acyclic_of_tsort_ok (N := [1, 2, 3]) (by decide) (by decide) ⟨some [2, 3, 1], []⟩ [2, 3, 1]
      (by decide) rfl,
    ⟨no_path_of_no_successor (by decide) 2, no_path_of_no_successor (by decide) 1⟩,
    by decide, by decide, by decide⟩

/-- C17 as amended: for pairwise distinct nodes, the nodes without incoming
edge stand at the front of the list that `tsort` returns, in the order they
have in `N`; so two such nodes keep their relative order. -/
theorem tsort_zeros_first_in_order (N : List α) (E : List (edge α)) (hN : N.Nodup)
    (r : tsort_result α) (sorted : List α) (h : tsort N E = some r)
    (hs : r.sorted_nodes = some sorted) :
    (∃ T, sorted = N.filter (fun n => is_zero n E) ++ T) ∧
    ∀ a ∈ N, ∀ b ∈ N, is_zero a E = true → is_zero b E = true →
      (sorted.indexOf a < sorted.indexOf b ↔ N.indexOf a < N.indexOf b) := by
  obtain ⟨S, E1, hloop, _, hfin⟩ := tsort_eq_some h
  have hS : sorted = S := by
    rcases hfin with ⟨_, h1⟩ | ⟨_, h1⟩
    · rw [hs] at h1
      exact Option.some.inj h1
    · rw [hs] at h1
      simp at h1
  obtain ⟨T, hT⟩ := tsort_loop_prefix _ _ _ _ _ _ hloop
  rw [get_zeros_eq_filter N E hN, List.nil_append] at hT
  rw [← hS] at hT
  refine ⟨⟨T, hT⟩, ?_⟩
  intro a ha b hb hza hzb
  have hfa : a ∈ N.filter (fun n => is_zero n E) := List.mem_filter.2 ⟨ha, hza⟩
  have hfb : b ∈ N.filter (fun n => is_zero n E) := List.mem_filter.2 ⟨hb, hzb⟩
  rw [hT, List.indexOf_append_of_mem hfa, List.indexOf_append_of_mem hfb]
  exact indexOf_filter_lt_iff (fun n => is_zero n E) N hN ha hb hza hzb

/-- Witness for the amended C17: the nodes 1, 2, 3 with the edge 3 → 1; the
nodes 2 and 3 have no incoming edge. -/
theorem tsort_zeros_first_in_order_witness :
    (∃ T, [2, 3, 1] = ([1, 2, 3] : List Nat).filter (fun n => is_zero n [⟨3, 1⟩]) ++ T) ∧
    ∀ a ∈ ([1, 2, 3] : List Nat), ∀ b ∈ ([1, 2, 3] : List Nat),
      is_zero a [⟨3, 1⟩] = true → is_zero b [⟨3, 1⟩] = true →
      (([2, 3, 1] : List Nat).indexOf a < ([2, 3, 1] : List Nat).indexOf b ↔
        ([1, 2, 3] : List Nat).indexOf a < ([1, 2, 3] : List Nat).indexOf b) :=
  tsort_zeros_first_in_order [1, 2, 3] [⟨3, 1⟩] (by decide) ⟨some [2, 3, 1], []⟩ [2, 3, 1]
    (by decide) rfl

/-- C18 fails as stated: with the nodes 1, 2 and the edges 1 → 1 and 1 → 2
`tsort` reports failure and leaves both edges, but the edge 1 → 2 lies on no
cycle. -/
theorem tsort_leaves_edge_off_cycle :
    ([1, 2] : List Nat).Nodup ∧
    (∀ e ∈ ([⟨1, 1⟩, ⟨1, 2⟩] : List (edge Nat)),
      e.predecessor ∈ [1, 2] ∧ e.successor ∈ [1, 2]) ∧
    tsort [1, 2] [⟨1, 1⟩, ⟨1, 2⟩] = some ⟨none, [⟨1, 1⟩, ⟨1, 2⟩]⟩ ∧
    ¬ on_cycle ([⟨1, 1⟩, ⟨1, 2⟩] : List (edge Nat)) ⟨1, 2⟩ := by
  refine ⟨by decide, by decide, by decide, ?_⟩
  intro ⟨_, hpath⟩
  rcases Relation.ReflTransGen.cases_head hpath with h | ⟨c, hc, _⟩
  · exact absurd h (by decide)
  · revert hc
    simp

/-- C18 as amended: for pairwise distinct nodes and edges over them, the edges
that `tsort` leaves in the edge list are exactly the edges whose predecessor
lies on a cycle or can be reached from a node on a cycle; every edge on a
cycle is among them. -/
theorem tsort_leaves_edges_behind_cycles (N : List α) (E : List (edge α)) (hN : N.Nodup)
    (hE : ∀ e ∈ E, e.predecessor ∈ N ∧ e.successor ∈ N) :
    ∃ r, tsort N E = some r ∧ (∀ e ∈ r.edges, e ∈ E) ∧
      (∀ e ∈ E, (e ∈ r.edges ↔ reachable_from_cycle E e.predecessor)) ∧
      (∀ e, on_cycle E e → e ∈ r.edges) := by
  obtain ⟨r, hr⟩ := tsort_returns N E
  obtain ⟨h1, h2⟩ := tsort_edges_left_iff hN hE hr
  refine ⟨r, hr, h1, h2, ?_⟩
  intro e ⟨he, hpath⟩
  apply (h2 e he).2
  exact ⟨e.predecessor, Relation.TransGen.head' (by simpa using he) hpath,
    Relation.ReflTransGen.refl⟩

/-- Witness for the amended C18: the nodes 1, 2 with the edges 1 → 1 and
1 → 2. -/
theorem tsort_leaves_edges_behind_cycles_witness :
    ∃ r, tsort [1, 2] [⟨1, 1⟩, ⟨1, 2⟩] = some r ∧
      (∀ e ∈ r.edges, e ∈ ([⟨1, 1⟩, ⟨1, 2⟩] : List (edge Nat))) ∧
      (∀ e ∈ ([⟨1, 1⟩, ⟨1, 2⟩] : List (edge Nat)),
        (e ∈ r.edges ↔ reachable_from_cycle [⟨1, 1⟩, ⟨1, 2⟩] e.predecessor)) ∧
      (∀ e, on_cycle [⟨1, 1⟩, ⟨1, 2⟩] e → e ∈ r.edges) :=
  tsort_leaves_edges_behind_cycles [1, 2] [⟨1, 1⟩, ⟨1, 2⟩] (by decide) (by decide)

/-- C19, evaluated at the nodes 1, 2 and the edge 1 → 3, whose successor is no
node of the list: `tsort` deletes the edge and returns the list 1, 2, 3. -/
theorem tsort_deletes_edge_without_node :
    (3 : Nat) ∉ ([1, 2] : List Nat) ∧
    tsort ([1, 2] : List Nat) [⟨1, 3⟩] = some ⟨some [1, 2, 3], []⟩ :=
  ⟨by decide, by decide⟩

end TsortClaims2

section LoadClaims

/-- C12, evaluated at `vlock p d` with the plugins of `example_backend`, where
`p` depends on `d` and `d` depends on a plugin `m` that does not exist:
`resolve_dependencies` succeeds and leaves `p` alone in the list, although the
name `d` of its `depends` list is not loaded.  The third pass visits `p` while
`d` is still loaded and unloads `d` afterwards.  In the other load order,
`vlock d p`, both plugins are unloaded. -/
theorem resolve_keeps_plugin_with_unloaded_prerequisite :
    resolve_dependencies example_backend 2 (load_plugins example_backend ["p", "d"] []).2
      = some ⟨true, 0, [example_p]⟩ ∧
    "d" ∈ example_p.dependencies.depends ∧ get_plugin [example_p] "d" = none ∧
    resolve_dependencies example_backend 2 (load_plugins example_backend ["d", "p"] []).2
      = some ⟨true, 0, []⟩ :=
  ⟨by decide, by decide, by decide, by decide⟩

/-- C13, evaluated at `vlock b` with the plugins of `slash_backend`, where the
module `b` requires `x/b`: the plugin `b` is loaded, and the first pass of
`resolve_dependencies` does not finish within any number of iterations.  Each
iteration looks for a plugin named `x/b`, finds none, and appends one more
plugin named `b`. -/
theorem requires_closure_does_not_finish :
    (load_plugins slash_backend ["b"] []).1 = true ∧
    ∀ fuel, resolve_dependencies slash_backend fuel (load_plugins slash_backend ["b"] []).2
      = none := by
  refine ⟨by decide, ?_⟩
  intro fuel
  have h := load_required_plugins_slash fuel 0 (load_plugins slash_backend ["b"] []).2 []
    (by decide) (by decide)
  simp only [resolve_dependencies, __resolve_depedencies, h]

/-- C14: for a name that no plugin of the list has, `__load_plugin` turns to
the script backend exactly when the module backend fails with `ENOENT`.  When
the module backend succeeds, its plugin is appended whatever the script backend
would do; when it fails with another `errno`, the load fails with this `errno`
whatever the script backend would do; when it fails with `ENOENT`, the result
is the one of the script backend, whose failure is the failure of the load.
In `init_module` a failing `access` leaves its `errno`, for example `EACCES`,
and a failing `dlopen` leaves 0; both differ from `ENOENT`. -/
theorem load_plugin_tries_script_iff_enoent (b : backend) (plugins : List plugin)
    (name : String) (hnew : get_plugin plugins name = none) :
    (∀ p, new_plugin b (fresh_addr plugins) name .module = .ok p →
      ∀ s, __load_plugin ⟨b.init_module, s⟩ plugins name = (.ok p, plugins ++ [p])) ∧
    (∀ errno, new_plugin b (fresh_addr plugins) name .module = .error errno →
      errno ≠ ENOENT →
      ∀ s, __load_plugin ⟨b.init_module, s⟩ plugins name = (.error errno, plugins)) ∧
    (new_plugin b (fresh_addr plugins) name .module = .error ENOENT →
      (∀ p, new_plugin b (fresh_addr plugins) name .script = .ok p →
        __load_plugin b plugins name = (.ok p, plugins ++ [p])) ∧
      (∀ errno, new_plugin b (fresh_addr plugins) name .script = .error errno →
        __load_plugin b plugins name = (.error errno, plugins))) ∧
    (∀ (w : module_world) (n : String),
      (∀ errno, w.access (w.module_dir ++ "/" ++ n ++ ".so") = some errno →
        init_module w n = .error errno) ∧
      (w.access (w.module_dir ++ "/" ++ n ++ ".so") = none →
        w.dlopen (w.module_dir ++ "/" ++ n ++ ".so") = none →
        init_module w n = .error 0)) ∧
    0 ≠ ENOENT ∧ EACCES ≠ ENOENT := by
  refine ⟨?_, ?_, ?_, ?_, by decide, by decide⟩
  · intro p hp s
    have hp2 : new_plugin ⟨b.init_module, s⟩ (fresh_addr plugins) name .module = .ok p := hp
    simp only [__load_plugin, hnew, hp2]
  · intro errno he hne s
    have he2 : new_plugin ⟨b.init_module, s⟩ (fresh_addr plugins) name .module
        = .error errno := he
    simp only [__load_plugin, hnew, he2, hne, ne_eq, not_false_eq_true, if_true]
  · intro he
    refine ⟨?_, ?_⟩
    · intro p hp
      simp [__load_plugin, hnew, he, hp]
    · intro errno hs
      simp [__load_plugin, hnew, he, hs]
  · intro w n
    refine ⟨?_, ?_⟩
    · intro errno ha
      simp only [init_module, ha]
    · intro ha hd
      simp only [init_module, ha, hd]

/-- Witness for C14: every module is unreadable and a script `b` exists; the
load of `b` fails with `EACCES`. -/
theorem load_plugin_tries_script_iff_enoent_witness :
    get_plugin [] "b" = none ∧
    __load_plugin ⟨denied_backend.init_module, denied_backend.init_script⟩ [] "b"
      = (.error EACCES, []) :=
  ⟨rfl, (load_plugin_tries_script_iff_enoent denied_backend [] "b" rfl).2.1 EACCES rfl
    (by decide) denied_backend.init_script⟩

/-- C15: the name that `new_plugin` stores is the part of the given string
after its last slash, the whole string when it has none; so the stored name
has no slash, and the given string is either the stored name or ends with a
slash followed by the stored name. -/
theorem new_plugin_stores_part_after_last_slash (b : backend) (addr : Nat) (name : String)
    (type : plugin_type) (p : plugin) (h : new_plugin b addr name type = .ok p) :
    p.name.data = part_after_last_slash name.data ∧ '/' ∉ p.name.data ∧
    (('/' ∉ name.data ∧ p.name = name) ∨ ∃ front, name.data = front ++ '/' :: p.name.data) := by
  have hn : p.name.data = after_last_slash name.data := by rw [(new_plugin_ok h).2.1]
  rw [hn]
  refine ⟨after_last_slash_eq _, (after_last_slash_spec _).1, ?_⟩
  rcases (after_last_slash_spec name.data).2 with ⟨h1, _⟩ | ⟨front, h2⟩
  · exact Or.inl ⟨h1, new_plugin_name_of_no_slash h h1⟩
  · exact Or.inr ⟨front, h2⟩

/-- Witness for C15: the module `b` of `example_backend`, loaded as
`x/y/b`. -/
theorem new_plugin_stores_part_after_last_slash_witness :
    new_plugin example_backend 7 "x/y/b" .module
      = .ok ⟨7, "b", ⟨[], [], [], [], [], []⟩, false, .module⟩ ∧
    ("b" : String).data = part_after_last_slash ("x/y/b" : String).data ∧
    '/' ∉ ("b" : String).data ∧
    (('/' ∉ ("x/y/b" : String).data ∧ ("b" : String) = "x/y/b") ∨
      ∃ front, ("x/y/b" : String).data = front ++ '/' :: ("b" : String).data) :=
  ⟨rfl, new_plugin_stores_part_after_last_slash example_backend 7 "x/y/b" .module
    ⟨7, "b", ⟨[], [], [], [], [], []⟩, false, .module⟩ rfl⟩

end LoadClaims

section PruningClaims

end PruningClaims

section ListClaims

/-- C20: let `l` be a well-formed list with the given cells and let `malloc`
return the address of a new item.  Then `list_append(l, x)` succeeds and leaves
a well-formed list whose cells are the former cells, in their order, followed
by the new item with the data `x`.  The data sequence is the former one
followed by `x`, `list_length` is the number of cells and so grows by 1, and
the backward loop from `last` visits the items of the forward loop from `first`
in the reverse order. -/
theorem list_append_extends_sequence (m : heap) (l : list) (cells : List (Nat × Nat))
    (item x : Nat) (hl : is_list m l cells) (hfresh : m item = none) :
    ∃ m1 l1, list_append m l (some item) x = some (true, m1, l1) ∧
      is_list m1 l1 (cells ++ [(item, x)]) ∧
      ∀ fuel, cells.length + 1 ≤ fuel →
        list_data m fuel l = some (cells.map Prod.snd) ∧
        list_length m fuel l = some cells.length ∧
        list_data m1 fuel l1 = some (cells.map Prod.snd ++ [x]) ∧
        list_length m1 fuel l1 = some (cells.length + 1) ∧
        list_for_each_from m1 fuel l1.first = some (cells ++ [(item, x)]) ∧
        list_for_each_reverse_from m1 fuel l1.last = some (cells ++ [(item, x)]).reverse := by
  obtain ⟨m1, l1, happ, hl1⟩ := list_append_is_list x hl hfresh
  refine ⟨m1, l1, happ, hl1, ?_⟩
  intro fuel hfuel
  have hlen : (cells ++ [(item, x)]).length ≤ fuel := by simpa using hfuel
  have hfwd := list_for_each_from_chain m cells none fuel hl.chain (by omega)
  have hfwd1 := list_for_each_from_chain m1 _ none fuel hl1.chain hlen
  have hcount := list_length_loop_chain m cells none fuel 0 hl.chain (by omega)
  have hcount1 := list_length_loop_chain m1 _ none fuel 0 hl1.chain hlen
  have hbwd1 := list_for_each_reverse_from_chain m1 _ none fuel hl1.chain hlen
  rw [← hl.first] at hfwd hcount
  rw [← hl1.first] at hfwd1 hcount1
  rw [← hl1.last] at hbwd1
  refine ⟨?_, ?_, ?_, ?_, hfwd1, hbwd1⟩
  · simp [list_data, hfwd]
  · simpa [list_length] using hcount
  · simp [list_data, hfwd1]
  · simpa [list_length] using hcount1

/-- Witness for C20: the list with the one item at address 1, to which the
data 8 is appended in a new item at address 2. -/
theorem list_append_extends_sequence_witness :
    ∃ m1 l1, list_append heap_one ⟨some 1, some 1⟩ (some 2) 8 = some (true, m1, l1) ∧
      is_list m1 l1 ([(1, 7)] ++ [(2, 8)]) ∧
      ∀ fuel, [(1, 7)].length + 1 ≤ fuel →
        list_data heap_one fuel ⟨some 1, some 1⟩ = some ([(1, 7)].map Prod.snd) ∧
        list_length heap_one fuel ⟨some 1, some 1⟩ = some [(1, 7)].length ∧
        list_data m1 fuel l1 = some ([(1, 7)].map Prod.snd ++ [8]) ∧
        list_length m1 fuel l1 = some ([(1, 7)].length + 1) ∧
        list_for_each_from m1 fuel l1.first = some ([(1, 7)] ++ [(2, 8)]) ∧
        list_for_each_reverse_from m1 fuel l1.last = some ([(1, 7)] ++ [(2, 8)]).reverse :=
  list_append_extends_sequence heap_one ⟨some 1, some 1⟩ [(1, 7)] 2 8
    ⟨by decide, rfl, rfl, ⟨rfl, trivial⟩⟩ rfl

end ListClaims

/-! ## Claims on parsing, the console and the console name -/

section ParseClaims

/-- C24 fails as stated: the string `9223372036854775808` is consumed entirely
as a base-10 integer greater than 0, and `parse_seconds` yields a timespec, but
its `tv_sec` is `LONG_MAX`, not the value of the string. -/
theorem parse_seconds_clamps_to_long_max :
    integer_value "9223372036854775808".data = some 9223372036854775808 ∧
    parse_seconds (some "9223372036854775808".data) = some ⟨9223372036854775807, 0⟩ ∧
    (9223372036854775807 : Int) ≠ 9223372036854775808 :=
  ⟨by decide, by decide, by decide⟩

/-- C24 as amended: `parse_seconds` yields a timespec exactly for the strings
that are, as a whole, a base-10 integer greater than 0 (after white space and
with an optional sign, as `strtol` reads them); `tv_sec` is then this value,
or `LONG_MAX` when the value is larger, and `tv_nsec` is 0.  A null argument,
`0`, `-1`, `123.4` and `hello` yield nothing, `123` yields 123 s and 0 ns. -/
theorem parse_seconds_iff_positive_integer :
    parse_seconds none = none ∧
    (∀ (s : List Char) (t : timespec), parse_seconds (some s) = some t ↔
      ∃ v, integer_value s = some v ∧ 0 < v ∧ t = ⟨min v LONG_MAX, 0⟩) ∧
    parse_seconds (some "123".data) = some ⟨123, 0⟩ ∧
    parse_seconds (some "0".data) = none ∧
    parse_seconds (some "-1".data) = none ∧
    parse_seconds (some "123.4".data) = none ∧
    parse_seconds (some "hello".data) = none :=
  ⟨rfl, parse_seconds_some_iff, by decide, by decide, by decide, by decide, by decide⟩

/-- C25: for data without NUL, `parse_dependency` returns `true` and appends
to the dependency list, in their order, the maximal non-empty runs of
characters that are no space, CR or LF.  No token is empty or holds a
separator, the tokens together are the data without its separators, and
nothing is appended when the data is empty or holds only separators. -/
theorem parse_dependency_appends_tokens (data : List Char) (dependency_list : List String)
    (hnul : '\x00' ∉ data) :
    parse_dependency data dependency_list
      = some (true, dependency_list ++ (separated_tokens data).map String.mk) ∧
    (∀ t ∈ separated_tokens data, t ≠ [] ∧ ∀ c ∈ t, is_separator c = false) ∧
    (separated_tokens data).flatten = data.filter (fun c => !is_separator c) ∧
    ((∀ c ∈ data, is_separator c = true) → separated_tokens data = []) := by
  obtain ⟨h1, h2⟩ := separated_tokens_spec data
  refine ⟨?_, h1, h2, ?_⟩
  · unfold parse_dependency
    rw [c_string_of_no_nul data hnul]
    exact parse_dependency_loop_eq _ data dependency_list (Nat.lt_succ_self _)
  · intro hall
    have hnil : data.filter (fun c => !is_separator c) = [] := by
      rw [List.filter_eq_nil_iff]
      intro c hc
      simp [hall c hc]
    rw [hnil] at h2
    cases hT : separated_tokens data with
    | nil => rfl
    | cons t tl =>
      rw [hT] at h1 h2
      have ht := (h1 t (List.mem_cons_self _ _)).1
      rw [List.flatten_cons] at h2
      exact absurd (List.append_eq_nil.1 h2).1 ht

/-- Witness for C25: the output ` ab  c`, CR, LF, `d `, appended to a list
that holds `x`. -/
theorem parse_dependency_appends_tokens_witness :
    parse_dependency " ab  c\r\nd ".data ["x"] = some (true, ["x", "ab", "c", "d"]) :=
  (parse_dependency_appends_tokens " ab  c\r\nd ".data ["x"] (by decide)).1

end ParseClaims

section ConsoleClaims

/-- C28, evaluated for a console in the mode `VT_AUTO`: the flag
`console_switch_locked` is false at the start and stays false when
`lock_console_switch` fails; it is true after a successful
`lock_console_switch`; and it is still true after a successful
`unlock_console_switch`, although console switching is enabled again. -/
theorem console_switch_locked_after_unlock :
    (console_start ⟨VT_AUTO, 0, 0, 0⟩).console_switch_locked = false ∧
    (lock_console_switch false true (console_start ⟨VT_AUTO, 0, 0, 0⟩)).2.console_switch_locked
      = false ∧
    (lock_console_switch true false (console_start ⟨VT_AUTO, 0, 0, 0⟩)).2.console_switch_locked
      = false ∧
    lock_console_switch true true (console_start ⟨VT_AUTO, 0, 0, 0⟩)
      = (true, ⟨true, ⟨VT_AUTO, 0, 0, 0⟩, .other, .other,
          ⟨VT_PROCESS, SIGUSR1, SIGUSR2, SIGHUP⟩, .release_vt, .acquire_vt⟩) ∧
    switching_disabled (lock_console_switch true true (console_start ⟨VT_AUTO, 0, 0, 0⟩)).2
      = true ∧
    unlock_console_switch true
        (lock_console_switch true true (console_start ⟨VT_AUTO, 0, 0, 0⟩)).2
      = (true, ⟨true, ⟨VT_AUTO, 0, 0, 0⟩, .other, .other, ⟨VT_AUTO, 0, 0, 0⟩, .other, .other⟩) ∧
    switching_disabled (unlock_console_switch true
        (lock_console_switch true true (console_start ⟨VT_AUTO, 0, 0, 0⟩)).2).2 = false :=
  ⟨by decide, by decide, by decide, by decide, by decide, by decide, by decide⟩

end ConsoleClaims

section ReadClaims

/-- C26 fails as stated: a script that prints 2047 bytes and then 1 byte, all
without delay, has printed `LINE_MAX` bytes, and `read_dependency` rejects the
output; and the `errno` of the rejection is `EFBIG`, not `ETIMEDOUT`, also for
an output of `LINE_MAX + 1` bytes. -/
theorem read_dependency_rejects_line_max_bytes :
    within_budget (prints [List.replicate 2047 'a', ['b']]) 1000000 = true ∧
    total_length (prints [List.replicate 2047 'a', ['b']]) = LINE_MAX ∧
    (read_dependency (prints [List.replicate 2047 'a', ['b']])).result = .error EFBIG ∧
    within_budget (prints [List.replicate 2047 'a', ['b', 'c']]) 1000000 = true ∧
    total_length (prints [List.replicate 2047 'a', ['b', 'c']]) = LINE_MAX + 1 ∧
    (read_dependency (prints [List.replicate 2047 'a', ['b', 'c']])).result = .error EFBIG ∧
    EFBIG ≠ ETIMEDOUT := by
  obtain ⟨hb1, ht1, h1⟩ := read_dependency_rejects (List.replicate 2047 'a') ['b']
    (List.length_replicate _ _) (by decide)
  obtain ⟨hb2, ht2, h2⟩ := read_dependency_rejects (List.replicate 2047 'a') ['b', 'c']
    (List.length_replicate _ _) (by decide)
  exact ⟨hb1, ht1, h1, hb2, ht2, h2, by decide⟩

/-- C26 as amended: for a script that prints non-empty chunks and then closes
its output, all within the time limit, `read_dependency` accepts the output if
and only if it is shorter than `LINE_MAX`, so that it fits into `LINE_MAX`
bytes together with the terminating NUL; it rejects an output of `LINE_MAX`
bytes or more with the `errno` `EFBIG`. -/
theorem read_dependency_accepts_iff_shorter (events : List read_event)
    (hb : within_budget events 1000000 = true) (he : ends_with_eof events = true) :
    (total_length events + 1 ≤ LINE_MAX →
      ∃ data, (read_dependency events).result = .ok data ∧ data.length = total_length events) ∧
    (LINE_MAX < total_length events + 1 →
      (read_dependency events).result = .error EFBIG) := by
  obtain ⟨h1, h2⟩ := read_dependency_loop_spec events ⟨['\x00'], 0, 1000000⟩ hb he
    (by decide) rfl
  refine ⟨fun h => ?_, fun h => ?_⟩
  · obtain ⟨s1, hs1, hlen, hsize⟩ := h1 (by simpa using h)
    refine ⟨s1.data.take s1.data_length, by simp only [read_dependency, hs1], ?_⟩
    rw [List.length_take, hsize, hlen]
    simp only [Nat.zero_add]
    omega
  · have h3 := h2 (by simpa using h)
    simp only [read_dependency, h3]

/-- Witness for the amended C26: the script prints `ab` and then `c`. -/
theorem read_dependency_accepts_iff_shorter_witness :
    ∃ data, (read_dependency (prints [['a', 'b'], ['c']])).result = .ok data ∧
      data.length = total_length (prints [['a', 'b'], ['c']]) :=
  (read_dependency_accepts_iff_shorter (prints [['a', 'b'], ['c']]) (by decide) (by decide)).1
    (by decide)

/-- C30, evaluated: after the script has printed the one byte `a`, the block
`data` has the size 1 and `data_length` is 1, so the terminating NUL is
written at the index 1, one byte behind the block; the same holds after the
chunks `ab` and `c`, with index and size 3.  Only when nothing was read is
the index, 0, inside the block of size 1. -/
theorem read_dependency_terminator_behind_block :
    (read_dependency (prints [['a']])).terminator = some (1, 1) ∧
    (read_dependency (prints [['a', 'b'], ['c']])).terminator = some (3, 3) ∧
    (read_dependency (prints [])).terminator = some (0, 1) :=
  ⟨by decide, by decide, by decide⟩

end ReadClaims

section ChildClaims

/-- C27: let the descriptors that the `pipe` calls return be pairwise distinct
and not open before.  When `create_child` returns `false`, the open
descriptors are those of the entry, so every descriptor that the call opened
is closed; the fields `stdin_fd`, `stdout_fd` and `stderr_fd` have the values
of the entry; and `errno` is the error of the first step that failed: the
`pipe` for the status, a `pipe` for a field with the value `REDIRECT_PIPE`,
`fork`, or `execv` in the child, whose `errno` comes through the status
pipe. -/
theorem create_child_failure_cleans_up (w : child_world) (errno : Nat) (child : child_process)
    (open_fds : List Int) (hnew : (new_fds w).Nodup)
    (hfresh : ∀ fd ∈ new_fds w, fd ∉ open_fds)
    (hfail : (create_child w errno child open_fds).ok = false) :
    (create_child w errno child open_fds).open_fds = open_fds ∧
    (∀ fd ∈ new_fds w, fd ∉ (create_child w errno child open_fds).open_fds) ∧
    (create_child w errno child open_fds).child.stdin_fd = child.stdin_fd ∧
    (create_child w errno child open_fds).child.stdout_fd = child.stdout_fd ∧
    (create_child w errno child open_fds).child.stderr_fd = child.stderr_fd ∧
    first_failure (failing_steps w child)
      = some (create_child w errno child open_fds).errno := by
  rcases create_child_spec w errno child open_fds hnew hfresh _ rfl with
    ⟨_, hok⟩ | ⟨e, hfirst, _, herrno, hopen, h1, h2, h3⟩
  · rw [hok] at hfail
    exact absurd hfail (by decide)
  · refine ⟨hopen, ?_, h1, h2, h3, by rw [herrno, hfirst]⟩
    rw [hopen]
    exact hfresh

/-- Witness for C27: pipes for stdin and stdout, and `execv` fails in the child
with `ENOENT`. -/
theorem create_child_failure_cleans_up_witness :
    (create_child exec_fails 0 ⟨REDIRECT_PIPE, REDIRECT_PIPE, REDIRECT_DEV_NULL, 0⟩
      [0, 1, 2]).open_fds = [0, 1, 2] ∧
    (∀ fd ∈ new_fds exec_fails, fd ∉ (create_child exec_fails 0
      ⟨REDIRECT_PIPE, REDIRECT_PIPE, REDIRECT_DEV_NULL, 0⟩ [0, 1, 2]).open_fds) ∧
    (create_child exec_fails 0 ⟨REDIRECT_PIPE, REDIRECT_PIPE, REDIRECT_DEV_NULL, 0⟩
      [0, 1, 2]).child.stdin_fd = REDIRECT_PIPE ∧
    (create_child exec_fails 0 ⟨REDIRECT_PIPE, REDIRECT_PIPE, REDIRECT_DEV_NULL, 0⟩
      [0, 1, 2]).child.stdout_fd = REDIRECT_PIPE ∧
    (create_child exec_fails 0 ⟨REDIRECT_PIPE, REDIRECT_PIPE, REDIRECT_DEV_NULL, 0⟩
      [0, 1, 2]).child.stderr_fd = REDIRECT_DEV_NULL ∧
    first_failure (failing_steps exec_fails
        ⟨REDIRECT_PIPE, REDIRECT_PIPE, REDIRECT_DEV_NULL, 0⟩)
      = some (create_child exec_fails 0 ⟨REDIRECT_PIPE, REDIRECT_PIPE, REDIRECT_DEV_NULL, 0⟩
          [0, 1, 2]).errno :=
  create_child_failure_cleans_up exec_fails 0
    ⟨REDIRECT_PIPE, REDIRECT_PIPE, REDIRECT_DEV_NULL, 0⟩ [0, 1, 2]
    (by decide) (by decide) (by decide)

end ChildClaims

/-! ## Claims on lists at the level of items -/

section ListClaims2

/-- C21: on a well-formed list `list_find(l, d)` returns an item.  It is `NULL`
if and only if no cell has the data `d`; otherwise it is the first cell with
the data `d`: every cell in front of it has other data.  On the sequence of
data pointers this is the test whether `d` occurs. -/
theorem list_find_returns_first (m : heap) (l : list) (cells : List (Nat × Nat))
    (d fuel : Nat) (hl : is_list m l cells) (hfuel : cells.length ≤ fuel) :
    ∃ r, Item.list_find m fuel l d = some r ∧
      (r = none ↔ ∀ c ∈ cells, c.2 ≠ d) ∧
      (∀ a, r = some a →
        ∃ front rest, cells = front ++ (a, d) :: rest ∧ ∀ c ∈ front, c.2 ≠ d) ∧
      (list_find (cells.map Prod.snd) d = true ↔ r ≠ none) := by
  refine ⟨_, list_find_eq d hl hfuel, ?_, ?_, ?_⟩
  · rw [Option.map_eq_none', List.find?_eq_none]
    simp
  · intro a ha
    obtain ⟨c, hc, hca⟩ := Option.map_eq_some'.1 ha
    obtain ⟨hp, front, rest, hsplit, hfront⟩ := List.find?_eq_some.1 hc
    have hdata : c.2 = d := by simpa using hp
    refine ⟨front, rest, ?_, ?_⟩
    · rw [hsplit, ← hca, ← hdata]
    · intro c1 hc1
      have := hfront c1 hc1
      simpa using this
  · rw [list_find_iff, ne_eq, Option.map_eq_none', List.find?_eq_none]
    simp

/-- Witness for C21: the list of the items 1, 2, 3 with the data 7, 8, 7 and
the data 7. -/
theorem list_find_returns_first_witness :
    ∃ r, Item.list_find heap_three 3 ⟨some 1, some 3⟩ 7 = some r ∧
      (r = none ↔ ∀ c ∈ [(1, 7), (2, 8), (3, 7)], c.2 ≠ 7) ∧
      (∀ a, r = some a →
        ∃ front rest, [(1, 7), (2, 8), (3, 7)] = front ++ (a, 7) :: rest ∧
          ∀ c ∈ front, c.2 ≠ 7) ∧
      (list_find ([(1, 7), (2, 8), (3, 7)].map Prod.snd) 7 = true ↔ r ≠ none) :=
  list_find_returns_first heap_three ⟨some 1, some 3⟩ [(1, 7), (2, 8), (3, 7)] 7 3
    heap_three_is_list (by decide)

/-- C23: on a well-formed list `list_delete(l, d)` leaves a well-formed list.
When no cell has the data `d`, memory and list are unchanged.  Otherwise the
first cell with the data `d` is taken out and freed, the other cells keep
their order, and the list is shorter by 1.  On the sequence of data pointers
this is the removal of the first occurrence of `d`.  No memory outside of the
list changes. -/
theorem list_delete_removes_first (m : heap) (l : list) (cells : List (Nat × Nat))
    (d fuel : Nat) (hl : is_list m l cells) (hfuel : cells.length ≤ fuel) :
    ∃ m1 l1 cells1, Item.list_delete m fuel l d = some (m1, l1) ∧ is_list m1 l1 cells1 ∧
      cells1.map Prod.snd = list_delete (cells.map Prod.snd) d ∧
      (∀ z, z ∉ cells.map Prod.fst → m1 z = m z) ∧
      (((∀ c ∈ cells, c.2 ≠ d) ∧ m1 = m ∧ l1 = l ∧ cells1 = cells) ∨
       (∃ front a rest, cells = front ++ (a, d) :: rest ∧ (∀ c ∈ front, c.2 ≠ d) ∧
          cells1 = front ++ rest ∧ cells1.length + 1 = cells.length ∧ m1 a = none)) := by
  rcases list_delete_spec d hl hfuel with ⟨hno, hdel⟩ |
    ⟨front, a, rest, m1, l1, hsplit, hfront, hdel, hl1, hfree, hframe⟩
  · refine ⟨m, l, cells, hdel, hl, ?_, fun _ _ => rfl, Or.inl ⟨hno, rfl, rfl, rfl⟩⟩
    rw [list_delete_eq_erase, List.erase_of_not_mem]
    intro hmem
    obtain ⟨c, hc, hcd⟩ := List.mem_map.1 hmem
    exact hno c hc hcd
  · refine ⟨m1, l1, front ++ rest, hdel, hl1, ?_, hframe,
      Or.inr ⟨front, a, rest, hsplit, hfront, rfl, by rw [hsplit]; simp; omega, hfree⟩⟩
    rw [list_delete_eq_erase, hsplit, List.map_append]
    have hmap : ((front ++ (a, d) :: rest).map Prod.snd)
        = front.map Prod.snd ++ d :: rest.map Prod.snd := by simp
    rw [hmap]
    have hnot : d ∉ front.map Prod.snd := by
      intro hmem
      obtain ⟨c, hc, hcd⟩ := List.mem_map.1 hmem
      exact hfront c hc hcd
    rw [List.erase_append_right _ hnot, List.erase_cons_head]

/-- Witness for C23: the data 7 is deleted from the list of the items 1, 2, 3
with the data 7, 8, 7. -/
theorem list_delete_removes_first_witness :
    ∃ m1 l1 cells1, Item.list_delete heap_three 3 ⟨some 1, some 3⟩ 7 = some (m1, l1) ∧
      is_list m1 l1 cells1 ∧
      cells1.map Prod.snd = list_delete ([(1, 7), (2, 8), (3, 7)].map Prod.snd) 7 ∧
      (∀ z, z ∉ [(1, 7), (2, 8), (3, 7)].map Prod.fst → m1 z = heap_three z) ∧
      (((∀ c ∈ [(1, 7), (2, 8), (3, 7)], c.2 ≠ 7) ∧ m1 = heap_three ∧
          l1 = ⟨some 1, some 3⟩ ∧ cells1 = [(1, 7), (2, 8), (3, 7)]) ∨
       (∃ front a rest, [(1, 7), (2, 8), (3, 7)] = front ++ (a, 7) :: rest ∧
          (∀ c ∈ front, c.2 ≠ 7) ∧ cells1 = front ++ rest ∧
          cells1.length + 1 = [(1, 7), (2, 8), (3, 7)].length ∧ m1 a = none)) :=
  list_delete_removes_first heap_three ⟨some 1, some 3⟩ [(1, 7), (2, 8), (3, 7)] 7 3
    heap_three_is_list (by decide)

/-- C22: let `l` be a well-formed list and let every `malloc` return the
address of a new item.  Then `list_copy(l)` returns a well-formed list of new
items that has the length of `l` and the same data pointers in the same
order.  Memory changes only at the new items, so `l` is unchanged.  The spine
is independent: after an append to the copy and after a `list_delete` on the
copy, `l` is well formed with its cells and has its data sequence as
before. -/
theorem list_copy_is_independent (m : heap) (l : list) (cells : List (Nat × Nat))
    (news : List Nat) (fuel : Nat) (hl : is_list m l cells)
    (hlen : news.length = cells.length) (hnd : news.Nodup)
    (hfresh : ∀ a ∈ news, m a = none) (hfuel : cells.length ≤ fuel) :
    ∃ m1 copy, Item.list_copy m fuel l true (news.map some) = some (m1, some copy) ∧
      is_list m1 l cells ∧ (∀ z, z ∉ news → m1 z = m z) ∧
      is_list m1 copy (news.zip (cells.map Prod.snd)) ∧
      list_data m1 fuel copy = some (cells.map Prod.snd) ∧
      list_data m1 fuel l = some (cells.map Prod.snd) ∧
      list_length m1 fuel copy = some cells.length ∧
      list_length m1 fuel l = some cells.length ∧
      (∀ item x, m1 item = none →
        ∃ m2 copy2, list_append m1 copy (some item) x = some (true, m2, copy2) ∧
          is_list m2 l cells ∧ list_data m2 fuel l = some (cells.map Prod.snd)) ∧
      (∀ d, ∃ m3 copy3, Item.list_delete m1 fuel copy d = some (m3, copy3) ∧
          is_list m3 l cells ∧ list_data m3 fuel l = some (cells.map Prod.snd)) := by
  obtain ⟨m1, copy, hloop, hcopy, hframe⟩ := list_copy_loop_spec cells news m none
    ⟨none, none⟩ [] fuel hl.chain ⟨by simp, rfl, rfl, trivial⟩ hlen hnd hfresh (by simp) hfuel
  rw [List.nil_append] at hcopy
  have hframe1 : ∀ z, z ∉ news → m1 z = m z := fun z hz => hframe z hz (by simp)
  have hnot : ∀ z, z ∈ cells.map Prod.fst → z ∉ news := fun z hz hmem =>
    is_list_allocated hl hz (hfresh z hmem)
  have hl1 : is_list m1 l cells := is_list_congr hl (fun z hz => hframe1 z (hnot z hz))
  have hzlen : (news.zip (cells.map Prod.snd)).length = cells.length := by
    rw [List.length_zip, List.length_map, hlen, Nat.min_self]
  have hsnd : (news.zip (cells.map Prod.snd)).map Prod.snd = cells.map Prod.snd :=
    List.map_snd_zip _ _ (by rw [List.length_map, hlen])
  have hfst : (news.zip (cells.map Prod.snd)).map Prod.fst = news :=
    List.map_fst_zip _ _ (by rw [List.length_map, hlen])
  have hzfuel : (news.zip (cells.map Prod.snd)).length ≤ fuel := by
    rw [hzlen]
    exact hfuel
  have hdata := list_data_eq hcopy hzfuel
  have hcount := list_length_eq hcopy hzfuel
  rw [hsnd] at hdata
  rw [hzlen] at hcount
  refine ⟨m1, copy, ?_, hl1, hframe1, hcopy, hdata, list_data_eq hl1 hfuel, hcount,
    list_length_eq hl1 hfuel, ?_, ?_⟩
  · simp only [Item.list_copy, Bool.true_eq_false, if_false]
    rw [← hl.first] at hloop
    exact hloop
  · intro item x hitem
    obtain ⟨m2, copy2, happ, _⟩ := list_append_is_list x hcopy hitem
    have hl2 : is_list m2 l cells := by
      apply is_list_congr hl1
      intro z hz
      apply list_append_frame happ z
      · intro he
        exact is_list_allocated hl1 hz (by rw [he]; exact hitem)
      · intro hlast
        rw [hcopy.last] at hlast
        have := last_of_mem_or hlast
        rw [hfst] at this
        exact hnot z hz this
    exact ⟨m2, copy2, happ, hl2, list_data_eq hl2 hfuel⟩
  · intro d
    have hl3 : ∀ m3, (∀ z, z ∉ (news.zip (cells.map Prod.snd)).map Prod.fst → m3 z = m1 z) →
        is_list m3 l cells := by
      intro m3 h3
      apply is_list_congr hl1
      intro z hz
      apply h3
      rw [hfst]
      exact hnot z hz
    rcases list_delete_spec d hcopy hzfuel with ⟨_, hdel⟩ |
      ⟨front, a, rest, m3, l3, _, _, hdel, _, _, hframe3⟩
    · exact ⟨m1, copy, hdel, hl1, list_data_eq hl1 hfuel⟩
    · exact ⟨m3, l3, hdel, hl3 m3 hframe3, list_data_eq (hl3 m3 hframe3) hfuel⟩

/-- Witness for C22: the list of the items 1, 2, 3 with the data 7, 8, 7 is
copied into new items at the addresses 4, 5, 6. -/
theorem list_copy_is_independent_witness :
    ∃ m1 copy, Item.list_copy heap_three 3 ⟨some 1, some 3⟩ true ([4, 5, 6].map some)
        = some (m1, some copy) ∧
      is_list m1 ⟨some 1, some 3⟩ [(1, 7), (2, 8), (3, 7)] ∧
      (∀ z, z ∉ [4, 5, 6] → m1 z = heap_three z) ∧
      is_list m1 copy ([4, 5, 6].zip ([(1, 7), (2, 8), (3, 7)].map Prod.snd)) ∧
      list_data m1 3 copy = some ([(1, 7), (2, 8), (3, 7)].map Prod.snd) ∧
      list_data m1 3 ⟨some 1, some 3⟩ = some ([(1, 7), (2, 8), (3, 7)].map Prod.snd) ∧
      list_length m1 3 copy = some [(1, 7), (2, 8), (3, 7)].length ∧
      list_length m1 3 ⟨some 1, some 3⟩ = some [(1, 7), (2, 8), (3, 7)].length ∧
      (∀ item x, m1 item = none →
        ∃ m2 copy2, list_append m1 copy (some item) x = some (true, m2, copy2) ∧
          is_list m2 ⟨some 1, some 3⟩ [(1, 7), (2, 8), (3, 7)] ∧
          list_data m2 3 ⟨some 1, some 3⟩ = some ([(1, 7), (2, 8), (3, 7)].map Prod.snd)) ∧
      (∀ d, ∃ m3 copy3, Item.list_delete m1 3 copy d = some (m3, copy3) ∧
          is_list m3 ⟨some 1, some 3⟩ [(1, 7), (2, 8), (3, 7)] ∧
          list_data m3 3 ⟨some 1, some 3⟩ = some ([(1, 7), (2, 8), (3, 7)].map Prod.snd)) :=
  list_copy_is_independent heap_three ⟨some 1, some 3⟩ [(1, 7), (2, 8), (3, 7)] [4, 5, 6] 3
    heap_three_is_list (by decide) (by decide) (by decide) (by decide)

end ListClaims2

end Vlock
